import Mathlib

/-!
# unvpk: directory tree, parser and extraction walk

A shallow embedding of `src/src/package.cpp` and `src/libvpk/src/file.cpp`.

* `std::string` is `String`; a byte is a `Nat` read modulo 256.
* `Vpk::Nodes` (`std::map<std::string, NodePtr>`) is the inductive `Nodes`: a
  list of entries, each carrying its map key and the node stored under it.
* A `Node*` that points into the tree is a `NodeRef`: the keys followed from
  the root map (this is the identity of the node) together with the node.
-/

namespace Vpk

/-! ## Strings: `boost::algorithm::split` and `boost::algorithm::join` -/

/-- Tokens of `algo::split(v, s, algo::is_any_of(sep))` on a character list:
every occurrence of the separator ends a token, adjacent separators give empty
tokens, and the empty input gives one empty token. -/
def splitChars (sep : Char) : List Char → List (List Char)
  | [] => [[]]
  | c :: cs =>
    if c = sep then [] :: splitChars sep cs
    else
      match splitChars sep cs with
      | [] => [[c]]
      | t :: ts => (c :: t) :: ts

/-- Character-level `algo::join(v, sep)`. -/
def joinChars (sep : Char) : List (List Char) → List Char
  | [] => []
  | [t] => t
  | t :: u :: ts => t ++ sep :: joinChars sep (u :: ts)

/-- The call `algo::split(pathvec, path, algo::is_any_of("/"))`. -/
def split (path : String) : List String :=
  (splitChars '/' path.data).map String.mk

/-- The call `algo::join(v, "/")`. -/
def join (v : List String) : String :=
  String.mk (joinChars '/' (v.map String.data))

/-! ## Data model -/

/-- Bytes of a stream or buffer; each element is read modulo 256. -/
abbrev Bytes := List Nat

/-- Class `Vpk::File`: a file node with its locator. -/
structure File where
  name : String
  crc32 : Nat
  data : Bytes
  index : Nat
  offset : Nat
  size : Nat
  deriving DecidableEq, Repr

/-- Type `Vpk::Nodes`, the `std::map` from key to owned node, with the node
constructors inlined: `dir key name children rest` is an entry holding a
`Vpk::Dir`, `file key f rest` an entry holding a `Vpk::File`. -/
inductive Nodes where
  | nil
  | dir (key : String) (name : String) (children : Nodes) (rest : Nodes)
  | file (key : String) (f : File) (rest : Nodes)
  deriving DecidableEq, Repr

/-- Class `Vpk::Node` with its two subclasses. -/
inductive Node where
  | dir (name : String) (nodes : Nodes)
  | file (f : File)
  deriving DecidableEq, Repr

/-- Method `Node::name()`. -/
def Node.name : Node → String
  | .dir name _ => name
  | .file f => f.name

/-- Test `node->type() == Node::DIR`. -/
def Node.isDir : Node → Bool
  | .dir _ _ => true
  | .file _ => false

/-- An entry `key ↦ node` put in front of the entries `rest`. -/
def Nodes.cons (key : String) (node : Node) (rest : Nodes) : Nodes :=
  match node with
  | .dir name children => .dir key name children rest
  | .file f => .file key f rest

/-- Method `nodes.find(key)`: the node of the first entry with that key
(`end()` is `none`). -/
def Nodes.find : Nodes → String → Option Node
  | .nil, _ => none
  | .dir key name children rest, k =>
    if key = k then some (.dir name children) else rest.find k
  | .file key f rest, k =>
    if key = k then some (.file f) else rest.find k

/-- Method `nodes.empty()`. -/
def Nodes.empty : Nodes → Bool
  | .nil => true
  | _ => false

/-- Keys of the map in iteration order. -/
def Nodes.keys : Nodes → List String
  | .nil => []
  | .dir key _ _ rest => key :: rest.keys
  | .file key _ rest => key :: rest.keys

/-- Method `nodes.erase(key)`. -/
def Nodes.erase : Nodes → String → Nodes
  | .nil, _ => .nil
  | .dir key name children rest, k =>
    if key = k then rest else .dir key name children (rest.erase k)
  | .file key f rest, k =>
    if key = k then rest else .file key f (rest.erase k)

/-- Comparison `a < b` of two `std::string`: lexicographic on the characters. -/
def strLess (a b : String) : Bool := decide (a.data < b.data)

/-- Statement `nodes[key] = node` for a key that `find` did not find: the
entry is placed before the first entry with a greater key. -/
def Nodes.insert : Nodes → String → Node → Nodes
  | .nil, k, n => Nodes.cons k n .nil
  | .dir key name children rest, k, n =>
    if strLess k key then Nodes.cons k n (.dir key name children rest)
    else .dir key name children (rest.insert k n)
  | .file key f rest, k, n =>
    if strLess k key then Nodes.cons k n (.file key f rest)
    else .file key f (rest.insert k n)

/-- A `Node*` into the tree: `route` are the map keys from the root map down
to the node (its identity), `node` is the node pointed to. -/
structure NodeRef where
  route : List String
  node : Node
  deriving DecidableEq, Repr

/-- Class `Vpk::Package` without its handler pointer. -/
structure Package where
  m_srcdir : String
  m_name : String
  m_nodes : Nodes
  deriving DecidableEq, Repr

/-! ## `Package::get` -/

/-- The loop of `Package::get` from the map `nodes` on, `pre` being the
components already followed. The result is the node found for the last
component; an empty `pathvec` gives null. -/
def getLoop (nodes : Nodes) (pre : List String) : List String → Option NodeRef
  | [] => none
  | name :: rest =>
    match nodes.find name with
    | none => none
    | some node =>
      match rest with
      | [] => some ⟨pre ++ [name], node⟩
      | _ :: _ =>
        match node with
        | .dir _ sub => getLoop sub (pre ++ [name]) rest
        | .file _ => none

/-- Method `Package::get(path)`: `none` is the null pointer. -/
def Package.get (p : Package) (path : String) : Option NodeRef :=
  getLoop p.m_nodes [] (split path)

/-! ## Tree shape -/

/-- Every child is stored under a key equal to its own name. -/
def Nodes.KeyedByName : Nodes → Prop
  | .nil => True
  | .dir key name children rest => key = name ∧ children.KeyedByName ∧ rest.KeyedByName
  | .file key f rest => key = f.name ∧ rest.KeyedByName

/-- The node reached from the root map by following the keys of `route`
through directories. -/
def Nodes.resolve (nodes : Nodes) : List String → Option Node
  | [] => none
  | [k] => nodes.find k
  | k :: c :: cs =>
    match nodes.find k with
    | some (.dir _ sub) => sub.resolve (c :: cs)
    | _ => none

/-- Names of the nodes met from the root map down to the node at `route`. -/
def Nodes.namesOn (nodes : Nodes) : List String → Option (List String)
  | [] => some []
  | k :: rest =>
    match nodes.find k with
    | none => none
    | some (.file f) =>
      match rest with
      | [] => some [f.name]
      | _ :: _ => none
    | some (.dir name sub) =>
      match sub.namesOn rest with
      | none => none
      | some names => some (name :: names)

/-! ## `filter` -/

/-- The first loop of the static `filter(nodes, keep)`: the children of every
directory that is not in `keep` are filtered in place, and the names to erase
are collected. `keep` holds node identities, `pre` is the route of the
directory that owns `nodes`. -/
def filterPass (keep : List (List String)) (pre : List String) : Nodes → Nodes × List String
  | .nil => (.nil, [])
  | .dir key name children rest =>
    let kept := decide ((pre ++ [key]) ∈ keep)
    let tail := filterPass keep pre rest
    if kept then (.dir key name children tail.1, tail.2)
    else
      let sub := filterPass keep (pre ++ [key]) children
      let children' := sub.2.foldl Nodes.erase sub.1
      (.dir key name children' tail.1,
        if children'.empty then name :: tail.2 else tail.2)
  | .file key f rest =>
    let kept := decide ((pre ++ [key]) ∈ keep)
    let tail := filterPass keep pre rest
    if kept then (.file key f tail.1, tail.2)
    else (.file key f tail.1, f.name :: tail.2)

/-- The static `filter(nodes, keep)`: the first loop, then `nodes.erase(name)`
for every collected name. -/
def filter (keep : List (List String)) (pre : List String) (nodes : Nodes) : Nodes :=
  let pass := filterPass keep pre nodes
  pass.2.foldl Nodes.erase pass.1

/-- Method `std::set<std::string>::insert`. -/
def setInsert : List String → String → List String
  | [], x => [x]
  | y :: ys, x =>
    if strLess x y then x :: y :: ys
    else if x = y then y :: ys
    else y :: setInsert ys x

/-- The loop of `Package::filter` over `paths`: the nodes found go to `keep`,
the paths not found to `notfound`. The result is `(notfound, keep)`. -/
def Package.filterScan (p : Package) :
    List String → List String × List (List String) → List String × List (List String)
  | [], acc => acc
  | path :: rest, (notfound, keep) =>
    match p.get path with
    | some node =>
      p.filterScan rest (notfound, if node.route ∈ keep then keep else keep ++ [node.route])
    | none => p.filterScan rest (setInsert notfound path, keep)

/-- The set `keep` that `Package::filter(paths)` builds. -/
def Package.keep (p : Package) (paths : List String) : List (List String) :=
  (p.filterScan paths ([], [])).2

/-- Method `Package::filter(paths)`: the returned set and the package after
the call. -/
def Package.filter (p : Package) (paths : List String) : List String × Package :=
  let scan := p.filterScan paths ([], [])
  (scan.1, { p with m_nodes := Vpk.filter scan.2 [] p.m_nodes })

/-- No two entries of a map share a key, at every level (`std::map`). -/
def Nodes.UniqueKeys : Nodes → Prop
  | .nil => True
  | .dir key _ children rest => key ∉ rest.keys ∧ children.UniqueKeys ∧ rest.UniqueKeys
  | .file key _ rest => key ∉ rest.keys ∧ rest.UniqueKeys

/-- What the static `filter` computes on a well-formed map, as one pass. -/
def prune (keep : List (List String)) (pre : List String) : Nodes → Nodes
  | .nil => .nil
  | .dir key name children rest =>
    if (pre ++ [key]) ∈ keep then .dir key name children (prune keep pre rest)
    else if (prune keep (pre ++ [key]) children).empty then prune keep pre rest
    else .dir key name (prune keep (pre ++ [key]) children) (prune keep pre rest)
  | .file key f rest =>
    if (pre ++ [key]) ∈ keep then .file key f (prune keep pre rest)
    else prune keep pre rest

/-- Scenario 4 of the specification: the tree `a/b/c.txt`, `a/b/d.txt`,
`e/f.txt`. -/
def scenario4 : Package :=
  { m_srcdir := "src", m_name := "pkg",
    m_nodes :=
      .dir "a" "a"
        (.dir "b" "b"
          (.file "c.txt" ⟨"c.txt", 1, [104], 32767, 0, 0⟩
            (.file "d.txt" ⟨"d.txt", 2, [105], 32767, 0, 0⟩ .nil)) .nil)
        (.dir "e" "e" (.file "f.txt" ⟨"f.txt", 3, [106], 32767, 0, 0⟩ .nil) .nil) }

/-! ## `Package::mkpath` -/

/-- Exceptions thrown by the code: `Vpk::Exception`, its subclass
`Vpk::FileFormatError`, and the I/O failure of a stream. -/
inductive Error where
  | exception (msg : String)
  | fileFormatError (msg : String)
  | ioFailure (msg : String)
  deriving DecidableEq, Repr

instance instDecidableEqExcept {ε α : Type} [DecidableEq ε] [DecidableEq α] :
    DecidableEq (Except ε α)
  | .ok a, .ok b => if h : a = b then isTrue (by rw [h]) else isFalse (by intro hh; cases hh; exact h rfl)
  | .error a, .error b =>
    if h : a = b then isTrue (by rw [h]) else isFalse (by intro hh; cases hh; exact h rfl)
  | .ok _, .error _ => isFalse (by intro hh; cases hh)
  | .error _, .ok _ => isFalse (by intro hh; cases hh)

/-- The children of the directory stored under `key` are replaced by `sub`:
the effect on the map of changing `dir->nodes()` in place. -/
def Nodes.setChildren : Nodes → String → Nodes → Nodes
  | .nil, _, _ => .nil
  | .dir key name children rest, k, sub =>
    if key = k then .dir key name sub rest
    else .dir key name children (rest.setChildren k sub)
  | .file key f rest, k, sub =>
    if key = k then .file key f rest else .file key f (rest.setChildren k sub)

/-- The loop of `Package::mkpath(const std::vector<std::string>&)` from the
map `nodes` on: `done` are the components already passed, `dir` is the loop
variable `dir`. The result is the map after the loop and the final `dir`. -/
def mkpathLoop (nodes : Nodes) (done : List String) (dir : Option NodeRef) :
    List String → Except Error (Nodes × Option NodeRef)
  | [] => .ok (nodes, dir)
  | name :: rest =>
    match nodes.find name with
    | none =>
      match mkpathLoop .nil (done ++ [name]) (some ⟨done ++ [name], .dir name .nil⟩) rest with
      | .error e => .error e
      | .ok (sub, r) => .ok (nodes.insert name (.dir name sub), r)
    | some (.file _) =>
      .error (.exception ("path is not a directory: " ++ join (done ++ [name])))
    | some (.dir nm sub) =>
      match mkpathLoop sub (done ++ [name]) (some ⟨done ++ [name], .dir nm sub⟩) rest with
      | .error e => .error e
      | .ok (sub', r) => .ok (nodes.setChildren name sub', r)

/-- Method `Package::mkpath(const std::vector<std::string>&)`: the package
after the call and the directory returned. -/
def Package.mkpathVec (p : Package) (path : List String) : Except Error (Package × NodeRef) :=
  if path.isEmpty then .error (.exception "empty path")
  else
    match mkpathLoop p.m_nodes [] none path with
    | .error e => .error e
    | .ok (nodes, some dir) => .ok ({ p with m_nodes := nodes }, dir)
    | .ok (_, none) => .error (.exception "empty path")

/-- Method `Package::mkpath(const std::string&)`. -/
def Package.mkpath (p : Package) (path : String) : Except Error (Package × NodeRef) :=
  p.mkpathVec (split path)

/-- The directories that `mkpath` creates below a fresh directory for the
components `rest` that follow it: one empty directory per component, each the
only child of the one before. -/
def freshChain : List String → Nodes
  | [] => .nil
  | c :: rest => .dir c c (freshChain rest) .nil

/-! ## Byte streams -/

/-- Modelled from the spec: the byte stream behind `vpk/io.h` and `FileReader`
(neither is in the sources at hand). `data` is the whole stream, `pos` the
read position, `good` the result of `is.good()`. -/
structure Reader where
  data : Bytes
  pos : Nat
  good : Bool
  deriving DecidableEq, Repr

/-- Little-endian value of the two bytes at index `i` of `data`. -/
def le16At (data : Bytes) (i : Nat) : Nat :=
  data.getD i 0 % 256 + 256 * (data.getD (i + 1) 0 % 256)

/-- Little-endian value of the four bytes at index `i` of `data`. -/
def le32At (data : Bytes) (i : Nat) : Nat :=
  data.getD i 0 % 256 + 256 * (data.getD (i + 1) 0 % 256)
    + 65536 * (data.getD (i + 2) 0 % 256) + 16777216 * (data.getD (i + 3) 0 % 256)

/-- Modelled from the spec: `u16_le()` of the Binary Reader (`readLU16`, not in
the sources at hand): two bytes, little-endian, failing on a short read. -/
def Reader.readLU16 (r : Reader) : Except Error Nat × Reader :=
  if r.pos + 2 ≤ r.data.length then
    (.ok (le16At r.data r.pos), { r with pos := r.pos + 2 })
  else (.error (.ioFailure "short read"), r)

/-- Modelled from the spec: `u32_le()` of the Binary Reader (`readLU32`, not in
the sources at hand): four bytes, little-endian, failing on a short read. -/
def Reader.readLU32 (r : Reader) : Except Error Nat × Reader :=
  if r.pos + 4 ≤ r.data.length then
    (.ok (le32At r.data r.pos), { r with pos := r.pos + 4 })
  else (.error (.ioFailure "short read"), r)

/-- Modelled from the spec: `read_exact(dst, n)` of the Binary Reader (`read`,
not in the sources at hand): the next `n` bytes, failing on a short read. -/
def Reader.read (r : Reader) (n : Nat) : Except Error Bytes × Reader :=
  if r.pos + n ≤ r.data.length then
    (.ok (((r.data.drop r.pos).take n).map (· % 256)), { r with pos := r.pos + n })
  else (.error (.ioFailure "short read"), r)

/-- Bytes before the first zero byte, and whether a zero byte was found. -/
def untilZero : Bytes → Bytes × Bool
  | [] => ([], false)
  | b :: bs =>
    if b % 256 = 0 then ([], true)
    else ((b % 256) :: (untilZero bs).1, (untilZero bs).2)

/-- Characters of a byte string. -/
def bytesToString (bs : Bytes) : String :=
  String.mk (bs.map (fun b => Char.ofNat (b % 256)))

/-- Modelled from the spec: `asciiz()` of the Binary Reader (`readAsciiZ`, not
in the sources at hand): the bytes up to the first `0x00`, which is consumed
too. The spec does not say what happens when the stream ends first; here the
bytes read so far are returned and the stream is no longer good, which is what
lets scenario 1 of the spec (no final terminator) parse. -/
def Reader.readAsciiZ (r : Reader) : String × Reader :=
  let found := untilZero (r.data.drop r.pos)
  if found.2 then (bytesToString found.1, { r with pos := r.pos + found.1.length + 1 })
  else (bytesToString found.1, { r with pos := r.pos + found.1.length, good := false })

/-! ## `File::read` -/

/-- Method `File::read(FileReader&)` on the object `self`: the outcome and the
reader after the call (also when the call throws). -/
def File.read (self : File) (reader : Reader) : Except Error File × Reader :=
  match reader.readLU32 with
  | (.error e, r) => (.error e, r)
  | (.ok crc32, r1) =>
    match r1.readLU16 with
    | (.error e, r) => (.error e, r)
    | (.ok length, r2) =>
      match r2.readLU16 with
      | (.error e, r) => (.error e, r)
      | (.ok index, r3) =>
        match r3.readLU32 with
        | (.error e, r) => (.error e, r)
        | (.ok offset, r4) =>
          match r4.readLU32 with
          | (.error e, r) => (.error e, r)
          | (.ok size, r5) =>
            match r5.readLU16 with
            | (.error e, r) => (.error e, r)
            | (.ok terminator, r6) =>
              if terminator ≠ 0xFFFF then
                (.error (.fileFormatError "invalid terminator"), r6)
              else if length > 0 then
                match r6.read length with
                | (.error e, r) => (.error e, r)
                | (.ok data, r7) =>
                  (.ok { self with crc32 := crc32, index := index, offset := offset,
                                   size := size, data := data }, r7)
              else
                (.ok { self with crc32 := crc32, index := index, offset := offset,
                                 size := size }, r6)

/-! ## `Package::read` -/

/-- Method `Dir::nodes()` (no children for a file). -/
def Node.nodes : Node → Nodes
  | .dir _ nodes => nodes
  | .file _ => .nil

/-- Statement `nodes[key] = node` for any key: an entry with that key is
replaced. -/
def Nodes.assign (nodes : Nodes) (key : String) (node : Node) : Nodes :=
  (nodes.erase key).insert key node

/-- The children of the directory at `route` are replaced by `sub`: the effect
on the tree of changing, in place, the directory a `Dir&` refers to. -/
def Nodes.setChildrenAt (nodes : Nodes) : List String → Nodes → Nodes
  | [], _ => nodes
  | [k], sub => nodes.setChildren k sub
  | k :: c :: cs, sub =>
    match nodes.find k with
    | some (.dir _ children) => nodes.setChildren k (children.setChildrenAt (c :: cs) sub)
    | _ => nodes

/-- Modelled from the spec: `Dir::read(is, type)` (dir.cpp is not in the
sources at hand), the innermost loop of the directory body. It reads names
until the empty one; each name is followed by a file record, and the file is
stored in this directory as `name + "." + type`. `nodes` are the children of
the directory; `none` means that `fuel` turns of the loop were not enough. -/
def Dir.read : Nat → Nodes → String → Reader → Option (Except Error (Nodes × Reader))
  | 0, _, _, _ => none
  | fuel + 1, nodes, type, r =>
    let name := r.readAsciiZ
    if name.1 = "" then some (.ok (nodes, name.2))
    else
      match File.read ⟨name.1 ++ "." ++ type, 0, [], 0, 0, 0⟩ name.2 with
      | (.error e, _) => some (.error e)
      | (.ok f, r2) => Dir.read fuel (nodes.assign f.name (.file f)) type r2

/-- The inner loop (`// dirs`) of `Package::read(std::istream&)` for one type;
`none` means that `fuel` turns were not enough. -/
def Package.readDirs : Nat → Package → String → Reader → Option (Except Error (Package × Reader))
  | 0, _, _, _ => none
  | fuel + 1, p, type, r =>
    if r.good then
      let path := r.readAsciiZ
      if path.1 = "" then some (.ok (p, path.2))
      else
        match p.mkpath path.1 with
        | .error e => some (.error e)
        | .ok (p1, dir) =>
          match Dir.read fuel dir.node.nodes type path.2 with
          | none => none
          | some (.error e) => some (.error e)
          | some (.ok (children, r2)) =>
            Package.readDirs fuel
              { p1 with m_nodes := p1.m_nodes.setChildrenAt dir.route children } type r2
    else some (.ok (p, r))

/-- The outer loop (`// types`) of `Package::read(std::istream&)`; `none`
means that `fuel` turns were not enough. -/
def Package.readTypes : Nat → Package → Reader → Option (Except Error (Package × Reader))
  | 0, _, _ => none
  | fuel + 1, p, r =>
    if r.good then
      let type := r.readAsciiZ
      if type.1 = "" then some (.ok (p, type.2))
      else
        match Package.readDirs fuel p type.1 type.2 with
        | none => none
        | some (.error e) => some (.error e)
        | some (.ok (p2, r2)) => Package.readTypes fuel p2 r2
    else some (.ok (p, r))

/-- Method `Package::read(std::istream&)`. Every turn of a loop consumes at
least one byte, so the loops get one turn more than the stream has bytes. -/
def Package.read (p : Package) (is : Reader) : Option (Except Error (Package × Reader)) :=
  match is.readLU32 with
  | (.error e, _) => some (.error e)
  | (.ok magic, r1) =>
    if magic ≠ 0x55AA1234 then
      Package.readTypes (is.data.length + 1) p { r1 with pos := r1.pos - 4 }
    else
      match r1.readLU32 with
      | (.error e, _) => some (.error e)
      | (.ok version, r2) =>
        match r2.readLU32 with
        | (.error e, _) => some (.error e)
        | (.ok _indexSize, r3) =>
          if version ≠ 1 then
            some (.error (.fileFormatError ("unexpected vpk version " ++ toString version)))
          else Package.readTypes (is.data.length + 1) p r3

/-- Scenario 1 of the specification: the bytes of the minimal v1 directory
file (type `txt`, subpath `" "`, name `a`, preload `abc`). -/
def scenario1 : Bytes :=
  [0x34, 0x12, 0xAA, 0x55, 1, 0, 0, 0, 0x1C, 0, 0, 0,
   116, 120, 116, 0, 32, 0, 97, 0,
   0x78, 0x56, 0x34, 0x12, 3, 0, 0xFF, 0x7F, 0, 0, 0, 0, 0, 0, 0, 0, 0xFF, 0xFF,
   97, 98, 99, 0, 0]

/-- A package before `read`: no nodes. -/
def emptyPackage : Package := { m_srcdir := "src", m_name := "pkg", m_nodes := .nil }

/-- A directory file with one record whose size is 0 and whose archive index is
0 (type `txt`, subpath `d`, name `a`, preload `abc`). -/
def zeroSizeRecord : Bytes :=
  [0x34, 0x12, 0xAA, 0x55, 1, 0, 0, 0, 0x1C, 0, 0, 0,
   116, 120, 116, 0, 100, 0, 97, 0,
   0x78, 0x56, 0x34, 0x12, 3, 0, 0, 0, 0, 0, 0, 0, 0, 0, 0, 0, 0xFF, 0xFF,
   97, 98, 99, 0, 0, 0]

/-- The error of the version check of `Package::read` for the version `n`. -/
def versionError (n : Nat) : Error :=
  .fileFormatError ("unexpected vpk version " ++ toString n)

/-- An error that is not a `FileFormatError` other than "invalid terminator". -/
def Error.fromBody : Error → Prop
  | .fileFormatError msg => msg = "invalid terminator"
  | _ => True

/-! ## The walk: `Package::process` -/

/-- Method `filecount(nodes)`: the number of file leaves. -/
def filecount : Nodes → Nat
  | .nil => 0
  | .dir _ _ children rest => filecount children + filecount rest
  | .file _ _ rest => 1 + filecount rest

/-- A call that the walk makes to one of its collaborators: the progress
handler (`begin`, `end`, `extract`, `success`, `fileerror`, `archiveerror`),
the data-handler factory (`create`), a data handler (`process` and `finish`,
named by the path the handler was created for), or the file system and the
archive streams. -/
inductive Event where
  | begin (filecount : Nat)
  | end_
  | extract (path : String)
  | success (path : String)
  | fileerror (what : String) (path : String)
  | archiveerror (what : String) (path : String)
  | create (path : String) (crc32 : Nat)
  | process (path : String) (data : Bytes)
  | finish (path : String)
  | fsExists (path : String)
  | archOpen (path : String)
  | archSeekg (path : String) (pos : Nat)
  | archRead (path : String) (count : Nat)
  deriving DecidableEq, Repr

/-- The collaborators of a walk. Every answer is a function of the calls made
so far and of the arguments, so any behaviour over time is covered. A data
handler, the factory and a stream answer with `.error what` when they throw an
exception whose `what()` is `what`. `handler` tells whether `m_handler` is
set; `BUFSIZ` is the constant of `<cstdio>`, which is positive. -/
structure World where
  handler : Bool
  fileerror : List Event → String → String → Bool
  archiveerror : List Event → String → String → Bool
  create : List Event → String → Nat → Except String Unit
  process : List Event → String → Bytes → Except String Unit
  finish : List Event → String → Except String Unit
  fsExists : List Event → String → Bool
  archOpen : List Event → String → Except String Unit
  archSeekg : List Event → String → Nat → Except String Unit
  archRead : List Event → String → Nat → Nat → Except String Bytes
  BUFSIZ : Nat
  BUFSIZ_pos : 0 < BUFSIZ

/-- State of a walk: the calls made so far, the map `archives` (a stream is
`true`, the null pointer `false`), and the exception that has left the walk,
if any. -/
structure Walk where
  trace : List Event
  archives : List (String × Bool)
  thrown : Option String
  deriving DecidableEq, Repr

/-- A call is made. -/
def Walk.log (w : Walk) (e : Event) : Walk := { w with trace := w.trace ++ [e] }

/-- An exception leaves the walk. -/
def Walk.throw (w : Walk) (what : String) : Walk := { w with thrown := some what }

/-- Method `Package::error(exc, path, handler)` for the callback `fileerror`. -/
def Package.fileerror (W : World) (w : Walk) (what path : String) : Bool × Walk :=
  if W.handler then (W.fileerror w.trace what path, w.log (.fileerror what path))
  else (true, w)

/-- Method `Package::error(exc, path, handler)` for the callback
`archiveerror`. -/
def Package.archiveerror (W : World) (w : Walk) (what path : String) : Bool × Walk :=
  if W.handler then (W.archiveerror w.trace what path, w.log (.archiveerror what path))
  else (true, w)

/-- The handler of a `catch` block: `if (fileerror(exc, path)) throw; continue;`. -/
def Package.onFileError (W : World) (w : Walk) (what path : String) : Walk :=
  let r := Package.fileerror W w what path
  if r.1 then r.2.throw what else r.2

/-- Output of `"%03d"`: decimal, filled with zeros to three digits. -/
def fmt03d (n : Nat) : String :=
  String.mk (List.replicate (3 - (toString n).length) '0') ++ toString n

/-- The string `archiveName`: `(boost::format("%s_%03d.vpk") % m_name % index)`. -/
def Package.archiveName (p : Package) (index : Nat) : String :=
  p.m_name ++ "_" ++ fmt03d index ++ ".vpk"

/-- The path `archivePath`: `fs::path(m_srcdir) /= archiveName`. -/
def Package.archivePath (p : Package) (name : String) : String :=
  if p.m_srcdir = "" then name
  else if p.m_srcdir.data.getLast? = some '/' then p.m_srcdir ++ name
  else p.m_srcdir ++ "/" ++ name

/-- The message of `archiveerror("archive does not exist", archivePath)`. -/
def missingWhat (archivePath : String) : String :=
  "archive does not exist" ++ ": \"" ++ archivePath ++ "\""

/-- The loop `while (left > 0)` of `Package::process`: read a chunk of at most
`BUFSIZ` bytes, pass it to the data handler. The result is the walk and the
flag `fail`. `BUFSIZ` is positive, so every turn takes at least one byte
from `left` and `left` turns are enough. -/
def readLoop (W : World) (path archivePath : String) :
    Nat → Nat → Nat → Walk → Walk × Bool
  | 0, _, _, w => (w, false)
  | fuel + 1, left, pos, w =>
    if left > 0 then
      let count := min left W.BUFSIZ
      let w1 := w.log (.archRead archivePath count)
      match W.archRead w.trace archivePath pos count with
      | .error what =>
        let r := Package.archiveerror W w1 what archivePath
        (if r.1 then r.2.throw what else r.2, true)
      | .ok data =>
        let w2 := w1.log (.process path data)
        match W.process w1.trace path data with
        | .error what => (Package.onFileError W w2 what path, true)
        | .ok _ => readLoop W path archivePath fuel (left - count) (pos + count) w2
    else (w, false)

/-- The second handler of a split entry: the block
`create(smallpath); process(preload); finish();` with its `catch`, and then
`success(path)`. -/
def Package.smalldata (W : World) (file : File) (path : String) (w : Walk) : Walk :=
  let smallpath := path ++ ".smalldata"
  let w1 := w.log (.create smallpath file.crc32)
  match W.create w.trace smallpath file.crc32 with
  | .error what => Package.onFileError W w1 what smallpath
  | .ok _ =>
    let w2 := w1.log (.process smallpath file.data)
    match W.process w1.trace smallpath file.data with
    | .error what => Package.onFileError W w2 what smallpath
    | .ok _ =>
      let w3 := w2.log (.finish smallpath)
      match W.finish w2.trace smallpath with
      | .error what => Package.onFileError W w3 what smallpath
      | .ok _ => if W.handler then w3.log (.success path) else w3

/-- From `archive->seekg(file->offset)` to the end of the block of an entry
with `size > 0`. -/
def Package.stream (W : World) (file : File) (path archivePath : String) (w : Walk) : Walk :=
  let w1 := w.log (.archSeekg archivePath file.offset)
  match W.archSeekg w.trace archivePath file.offset with
  | .error what => w1.throw what
  | .ok _ =>
    let r := readLoop W path archivePath file.size file.size file.offset w1
    if r.1.thrown.isSome then r.1
    else if r.2 then r.1
    else
      let w3 := r.1.log (.finish path)
      match W.finish r.1.trace path with
      | .error what => Package.onFileError W w3 what path
      | .ok _ =>
        if file.data ≠ [] then Package.smalldata W file path w3
        else if W.handler then w3.log (.success path) else w3

/-- The block of `Package::process` for one file leaf `file` whose joined path
is `path`. -/
def Package.processFile (W : World) (p : Package) (file : File) (path : String)
    (w : Walk) : Walk :=
  let w0 := if W.handler then w.log (.extract path) else w
  let w1 := w0.log (.create path file.crc32)
  match W.create w0.trace path file.crc32 with
  | .error what => Package.onFileError W w1 what path
  | .ok _ =>
    if file.size = 0 then
      let w2 := w1.log (.process path file.data)
      match W.process w1.trace path file.data with
      | .error what => Package.onFileError W w2 what path
      | .ok _ =>
        let w3 := w2.log (.finish path)
        match W.finish w2.trace path with
        | .error what => Package.onFileError W w3 what path
        | .ok _ => w3
    else
      let archiveName := p.archiveName file.index
      let archivePath := p.archivePath archiveName
      match w1.archives.lookup archiveName with
      | some false => w1
      | some true => Package.stream W file path archivePath w1
      | none =>
        let w2 := w1.log (.fsExists archivePath)
        if W.fsExists w1.trace archivePath then
          let w3 := w2.log (.archOpen archivePath)
          match W.archOpen w2.trace archivePath with
          | .error what => w3.throw what
          | .ok _ =>
            Package.stream W file path archivePath
              { w3 with archives := (archiveName, true) :: w3.archives }
        else
          let r := Package.archiveerror W w2 (missingWhat archivePath) archivePath
          { r.2 with archives := (archiveName, false) :: r.2.archives }

/-- Method `Package::process(nodes, prefix, archives, factory)`: the loop over
the entries of `nodes`, `pre` being the names above them. An exception that
has left the block of an entry ends the walk. -/
def Package.processNodes (W : World) (p : Package) : Nodes → List String → Walk → Walk
  | .nil, _, w => w
  | .dir _ name children rest, pre, w =>
    if w.thrown.isSome then w
    else
      Package.processNodes W p rest pre
        (Package.processNodes W p children (pre ++ [name]) w)
  | .file _ f rest, pre, w =>
    if w.thrown.isSome then w
    else
      Package.processNodes W p rest pre
        (Package.processFile W p f (join (pre ++ [f.name])) w)

/-- Method `Package::process(factory)`: one walk. -/
def Package.process (W : World) (p : Package) : Walk :=
  let w0 : Walk := { trace := [], archives := [], thrown := none }
  let w1 := if W.handler then w0.log (.begin (filecount p.m_nodes)) else w0
  let w2 := Package.processNodes W p p.m_nodes [] w1
  if w2.thrown.isSome then w2
  else if W.handler then w2.log .end_ else w2

/-- A world in which nothing fails: the handler is installed and never asks to
stop, the archives in `files` exist and are read as they are. -/
def quietWorld (files : List (String × Bytes)) : World :=
  { handler := true
    fileerror := fun _ _ _ => false
    archiveerror := fun _ _ _ => false
    create := fun _ _ _ => .ok ()
    process := fun _ _ _ => .ok ()
    finish := fun _ _ => .ok ()
    fsExists := fun _ path => (files.lookup path).isSome
    archOpen := fun _ _ => .ok ()
    archSeekg := fun _ _ _ => .ok ()
    archRead := fun _ path pos count =>
      match files.lookup path with
      | some bytes =>
        if pos + count ≤ bytes.length then .ok ((bytes.drop pos).take count)
        else .error "short read"
      | none => .error "closed"
    BUFSIZ := 8192
    BUFSIZ_pos := by decide }

/-- A package with one entry that has no bulk part: `d/a.txt` with preload
`abc`, size 0 and archive index 0x7FFF. -/
def preloadOnly : Package :=
  { m_srcdir := "src", m_name := "pkg",
    m_nodes := .dir "d" "d"
      (.file "a.txt" ⟨"a.txt", 0x352441C2, [97, 98, 99], 0x7FFF, 0, 0⟩ .nil) .nil }

/-- Scenarios 2 and 3 of the specification in one package: `d/s.bin` is split
(preload `HEAD`, 5 bytes at offset 10 of archive 0), `d/t.bin` and `d/u.bin`
are in archive 3. -/
def scenario23 : Package :=
  { m_srcdir := "src", m_name := "pkg",
    m_nodes := .dir "d" "d"
      (.file "s.bin" ⟨"s.bin", 7, [72, 69, 65, 68], 0, 10, 5⟩
        (.file "t.bin" ⟨"t.bin", 8, [], 3, 0, 4⟩
          (.file "u.bin" ⟨"u.bin", 9, [], 3, 4, 4⟩ .nil))) .nil }

/-- The archive `src/pkg_000.vpk` of scenario 2: `TAIL!` at offset 10. -/
def archive000 : List (String × Bytes) :=
  [("src/pkg_000.vpk", [0, 1, 2, 3, 4, 5, 6, 7, 8, 9, 84, 65, 73, 76, 33, 15, 16])]

/-- The file leaves of a tree, in the order of the walk. -/
def Nodes.files : Nodes → List File
  | .nil => []
  | .dir _ _ children rest => children.files ++ rest.files
  | .file _ f rest => f :: rest.files

/-- Every archive that the map `archives` holds a stream for exists, `ex`
being the set of existing archive files. -/
def CacheSound (ex : String → Bool) (p : Package) (w : Walk) : Prop :=
  ∀ name, w.archives.lookup name = some true → ex (p.archivePath name) = true

/-- How often `archiveerror("archive does not exist", archivePath)` was
reported for the archive file `archivePath`. -/
def missingCount (archivePath : String) (trace : List Event) : Nat :=
  trace.count (.archiveerror (missingWhat archivePath) archivePath)

/-- The event is not an `archiveerror`, or it is one for a path in `ok`. -/
def Event.archPathOk (ok : String → Prop) : Event → Prop
  | .archiveerror _ path => ok path
  | _ => True

/-- From `w` to `w'` the map `archives` is unchanged and the calls added all
satisfy `Q`. -/
def Extends (Q : Event → Prop) (w w' : Walk) : Prop :=
  w'.archives = w.archives ∧ ∃ evs, w'.trace = w.trace ++ evs ∧ ∀ e ∈ evs, Q e

/-- The archive `name` is either not in the map `archives` and never reported
missing, or entered as null and reported missing exactly once. -/
def ReportedOnce (p : Package) (name : String) (w : Walk) : Prop :=
  (w.archives.lookup name = none ∧ missingCount (p.archivePath name) w.trace = 0) ∨
  (w.archives.lookup name = some false ∧ missingCount (p.archivePath name) w.trace = 1)

/-- A package with one entry, `d/t.bin`, of 4 bytes in archive 3. -/
def oneInArchive3 : Package :=
  { m_srcdir := "src", m_name := "pkg",
    m_nodes := .dir "d" "d" (.file "t.bin" ⟨"t.bin", 8, [], 3, 0, 4⟩ .nil) .nil }

/-- A world without archive files in which the factory cannot create a data
handler (say, the destination is not writable); the handler is installed and
does not ask to stop. -/
def noCreateWorld : World :=
  { quietWorld [] with create := fun _ _ _ => .error "cannot create file" }

/-- Number of bytes between the read position and the end of the stream. -/
def Reader.remaining (r : Reader) : Nat := r.data.length - r.pos

/-- A map as the code builds it: no two entries share a key and every child is
stored under its own name, at every level. -/
def Nodes.WellFormed : Nodes → Prop
  | .nil => True
  | .dir key name children rest =>
    key = name ∧ key ∉ rest.keys ∧ children.WellFormed ∧ rest.WellFormed
  | .file key f rest => key = f.name ∧ key ∉ rest.keys ∧ rest.WellFormed

/-! ## Counting the callbacks of a walk -/

/-- The call is `success`, `fileerror` or `archiveerror`. -/
def Event.isCallback : Event → Bool
  | .success _ => true
  | .fileerror _ _ => true
  | .archiveerror _ _ => true
  | _ => false

/-- The counter `success_count` of the handler: the calls of `success`. -/
def successCount (trace : List Event) : Nat :=
  trace.countP (fun e => match e with | .success _ => true | _ => false)

/-- The counter `fail_count` of the handler, one failure per error callback:
the calls of `fileerror` and `archiveerror`. -/
def failCount (trace : List Event) : Nat :=
  trace.countP (fun e =>
    match e with
    | .fileerror _ _ => true
    | .archiveerror _ _ => true
    | _ => false)

/-- From `w` to `w'` calls are added, at most `k` of them callbacks. -/
def Adds (k : Nat) (w w' : Walk) : Prop :=
  ∃ evs, w'.trace = w.trace ++ evs ∧ evs.countP Event.isCallback ≤ k

/-- A world like `quietWorld` whose handler asks to stop at every error
(`--stop`): both error callbacks return true. -/
def stopWorld (files : List (String × Bytes)) : World :=
  { quietWorld files with
    fileerror := fun _ _ _ => true
    archiveerror := fun _ _ _ => true }

/-- A world like `quietWorld` without a handler (`m_handler` is null). -/
def noHandlerWorld (files : List (String × Bytes)) : World :=
  { quietWorld files with handler := false }

/-- The calls of the loop over the chunks when nothing fails: each chunk is
read from the archive and passed to the data handler of `path`. -/
def chunkCalls (path archivePath : String) (chunks : List Bytes) : List Event :=
  chunks.flatMap (fun c => [.archRead archivePath c.length, .process path c])

/-- The calls for the second handler of a split entry when nothing fails. -/
def smalldataCalls (path : String) (file : File) : List Event :=
  if file.data ≠ [] then
    [.create (path ++ ".smalldata") file.crc32, .process (path ++ ".smalldata") file.data,
     .finish (path ++ ".smalldata")]
  else []

/-- The world of scenario 2 with a buffer of two bytes. -/
def smallBufWorld : World :=
  { quietWorld archive000 with BUFSIZ := 2, BUFSIZ_pos := by decide }

/-- Scenario 4 after `mkpath("a/x")`: the empty directory `x` is a new child
of `a`. -/
def scenario4WithX : Package :=
  { m_srcdir := "src", m_name := "pkg",
    m_nodes :=
      .dir "a" "a"
        (.dir "b" "b"
          (.file "c.txt" ⟨"c.txt", 1, [104], 32767, 0, 0⟩
            (.file "d.txt" ⟨"d.txt", 2, [105], 32767, 0, 0⟩ .nil))
          (.dir "x" "x" .nil .nil))
        (.dir "e" "e" (.file "f.txt" ⟨"f.txt", 3, [106], 32767, 0, 0⟩ .nil) .nil) }

/-! ## Check mode -/

/-- Modelled from the spec: the function CRC-32 that the check handlers tally
(the handlers are not in the sources at hand). This is one step of the
reflected CRC with polynomial `0xEDB88320`, for one bit. -/
def crc32Bit (c : Nat) : Nat :=
  if c % 2 = 1 then (c / 2) ^^^ 0xEDB88320 else c / 2

/-- Modelled from the spec: the step of CRC-32 for one byte. -/
def crc32Byte (c b : Nat) : Nat :=
  crc32Bit (crc32Bit (crc32Bit (crc32Bit (crc32Bit (crc32Bit (crc32Bit (crc32Bit
    (c ^^^ (b % 256)))))))))

/-- Modelled from the spec: CRC-32 of a byte string, with initial value and
final xor `0xFFFFFFFF`; the CRC-32 of `abc` is `0x352441C2`. -/
def crc32 (bytes : Bytes) : Nat :=
  (bytes.foldl crc32Byte 0xFFFFFFFF) ^^^ 0xFFFFFFFF

/-- The data handler last created for `path`, read off the calls `calls` that
follow the state `st`: the crc32 it was created with and the bytes passed to
it so far. -/
def handlerInputFrom (path : String) :
    Option (Nat × Bytes) → List Event → Option (Nat × Bytes)
  | st, [] => st
  | st, .create q c :: rest =>
    handlerInputFrom path (if q = path then some (c, []) else st) rest
  | st, .process q d :: rest =>
    handlerInputFrom path (if q = path then st.map (fun s => (s.1, s.2 ++ d)) else st) rest
  | st, _ :: rest => handlerInputFrom path st rest

/-- The data handler last created for `path` in the calls made so far. -/
def handlerInput (path : String) (trace : List Event) : Option (Nat × Bytes) :=
  handlerInputFrom path none trace

/-- Modelled from the spec: method `finish` of the handler that
`CheckingDataHandlerFactory` creates (`vpk/checking_data_handler_factory.h` is
not in the sources at hand). The handler "writes nowhere; only tallies CRC-32
and validates in `finish()`": `finish` throws when the CRC of the bytes passed
to the handler is not the crc32 the handler was created with. `crc` is the CRC
function; the text of `what()` is not known, `CRC32 mismatch` stands for it. -/
def checkFinish (crc : Bytes → Nat) (trace : List Event) (path : String) :
    Except String Unit :=
  match handlerInput path trace with
  | some (expected, bytes) => if crc bytes = expected then .ok () else .error "CRC32 mismatch"
  | none => .ok ()

/-- The world of `Package::check`: like `quietWorld`, with the data handlers of
`CheckingDataHandlerFactory`. -/
def checkWorld (crc : Bytes → Nat) (files : List (String × Bytes)) : World :=
  { quietWorld files with finish := checkFinish crc }

/-- The split entry of scenario 2 (preload `HEAD`, bulk `TAIL!` at offset 10 of
archive 0) with the CRC-32 of `HEADTAIL!` as its crc32. -/
def splitCombined : Package :=
  { m_srcdir := "src", m_name := "pkg",
    m_nodes := .dir "d" "d"
      (.file "s.bin" ⟨"s.bin", 358531012, [72, 69, 65, 68], 0, 10, 5⟩ .nil) .nil }

/-- A split entry whose preload and bulk are both `TAIL!`, with the CRC-32 of
`TAIL!` as its crc32. -/
def splitTwice : Package :=
  { m_srcdir := "src", m_name := "pkg",
    m_nodes := .dir "d" "d"
      (.file "s.bin" ⟨"s.bin", 1207371606, [84, 65, 73, 76, 33], 0, 10, 5⟩ .nil) .nil }

/-! # Theorems -/

/-! ## Splitting and joining -/

theorem splitChars_ne_nil (sep : Char) (cs : List Char) : splitChars sep cs ≠ [] := by
  cases cs with
  | nil => simp [splitChars]
  | cons c cs =>
    unfold splitChars
    split
    · simp
    · split <;> simp

theorem joinChars_splitChars (sep : Char) (cs : List Char) :
    joinChars sep (splitChars sep cs) = cs := by
  induction cs with
  | nil => simp [splitChars, joinChars]
  | cons c cs ih =>
    unfold splitChars
    split
    · rename_i hc
      cases hs : splitChars sep cs with
      | nil => exact absurd hs (splitChars_ne_nil sep cs)
      | cons t ts =>
        rw [hs] at ih
        simp [joinChars, ih, hc]
    · cases hs : splitChars sep cs with
      | nil => exact absurd hs (splitChars_ne_nil sep cs)
      | cons t ts =>
        rw [hs] at ih
        cases ts with
        | nil => simpa [joinChars] using ih
        | cons u us => simpa [joinChars] using ih

theorem join_split (path : String) : join (split path) = path := by
  unfold join split
  have h : List.map String.data (List.map String.mk (splitChars '/' path.data))
      = splitChars '/' path.data := by
    rw [List.map_map]
    exact List.map_id _
  rw [h, joinChars_splitChars]

theorem split_ne_nil (path : String) : split path ≠ [] := by
  unfold split
  intro h
  exact splitChars_ne_nil '/' path.data (List.map_eq_nil_iff.mp h)

/-! ## Lookup -/

theorem Nodes.find_name_of_keyed {nodes : Nodes} (h : nodes.KeyedByName) {k : String}
    {node : Node} (hf : nodes.find k = some node) : node.name = k := by
  induction nodes with
  | nil => simp [Nodes.find] at hf
  | dir key name children rest _ ih =>
    obtain ⟨hk, _, hr⟩ := h
    unfold Nodes.find at hf
    split at hf
    · rename_i hkk
      cases hf
      simp [Node.name, ← hk, hkk]
    · exact ih hr hf
  | file key f rest ih =>
    obtain ⟨hk, hr⟩ := h
    unfold Nodes.find at hf
    split at hf
    · rename_i hkk
      cases hf
      simp [Node.name, ← hk, hkk]
    · exact ih hr hf

theorem Nodes.keyed_children {nodes : Nodes} (h : nodes.KeyedByName) {k name : String}
    {sub : Nodes} (hf : nodes.find k = some (.dir name sub)) : sub.KeyedByName := by
  induction nodes with
  | nil => simp [Nodes.find] at hf
  | dir key name' children rest _ ih =>
    obtain ⟨_, hc, hr⟩ := h
    unfold Nodes.find at hf
    split at hf
    · cases hf
      exact hc
    · exact ih hr hf
  | file key f rest ih =>
    obtain ⟨_, hr⟩ := h
    unfold Nodes.find at hf
    split at hf
    · cases hf
    · exact ih hr hf

theorem getLoop_single (nodes : Nodes) (pre : List String) (name : String) :
    getLoop nodes pre [name] = (nodes.find name).map (fun n => ⟨pre ++ [name], n⟩) := by
  unfold getLoop
  cases nodes.find name <;> rfl

theorem getLoop_cons_cons (nodes : Nodes) (pre : List String) (name c : String)
    (cs : List String) :
    getLoop nodes pre (name :: c :: cs) =
      match nodes.find name with
      | some (.dir _ sub) => getLoop sub (pre ++ [name]) (c :: cs)
      | _ => none := by
  conv => lhs; unfold getLoop
  cases nodes.find name with
  | none => rfl
  | some n => cases n <;> rfl

/-- The loop of `get` returns the node that the components resolve to,
together with the components followed. -/
theorem getLoop_eq_resolve (comps : List String) : ∀ (nodes : Nodes) (pre : List String),
    getLoop nodes pre comps = (nodes.resolve comps).map (fun n => ⟨pre ++ comps, n⟩) := by
  induction comps with
  | nil => intro nodes pre; simp [getLoop, Nodes.resolve]
  | cons name rest ih =>
    intro nodes pre
    cases rest with
    | nil => simp [getLoop_single, Nodes.resolve]
    | cons c cs =>
      rw [getLoop_cons_cons]
      simp only [Nodes.resolve]
      cases nodes.find name with
      | none => rfl
      | some n =>
        cases n with
        | file f => rfl
        | dir nm sub => simp [ih sub (pre ++ [name])]

theorem Nodes.namesOn_of_resolve {comps : List String} : ∀ {nodes : Nodes} {node : Node},
    nodes.KeyedByName → nodes.resolve comps = some node → nodes.namesOn comps = some comps := by
  induction comps with
  | nil => intro nodes node _ h; simp [Nodes.resolve] at h
  | cons name rest ih =>
    intro nodes node hk h
    cases rest with
    | nil =>
      simp only [Nodes.resolve] at h
      have hn := Nodes.find_name_of_keyed hk h
      cases node with
      | file f => simp [Nodes.namesOn, h]; simpa [Node.name] using hn
      | dir nm sub => simp [Nodes.namesOn, h]; simpa [Node.name] using hn
    | cons c cs =>
      simp only [Nodes.resolve] at h
      cases hf : nodes.find name with
      | none => simp [hf] at h
      | some n =>
        cases n with
        | file f => simp [hf] at h
        | dir nm sub =>
          simp only [hf] at h
          have hn := Nodes.find_name_of_keyed hk hf
          have hsub := ih (Nodes.keyed_children hk hf) h
          unfold Nodes.namesOn
          simp only [hf, hsub]
          simp [Node.name] at hn
          simp [hn]

theorem Nodes.resolve_none_of_file {pre : List String} : ∀ {nodes : Nodes}
    {c : String} {rest : List String} {f : File},
    rest ≠ [] → nodes.resolve (pre ++ [c]) = some (.file f) →
      nodes.resolve (pre ++ c :: rest) = none := by
  induction pre with
  | nil =>
    intro nodes c rest f hr h
    cases rest with
    | nil => exact absurd rfl hr
    | cons d ds =>
      simp only [List.nil_append, Nodes.resolve] at h ⊢
      simp [h]
  | cons p ps ih =>
    intro nodes c rest f hr h
    cases hps : ps ++ [c] with
    | nil => simp at hps
    | cons d ds =>
      cases hps2 : ps ++ c :: rest with
      | nil => simp at hps2
      | cons e es =>
        simp only [List.cons_append, hps, hps2, Nodes.resolve] at h ⊢
        cases hf : nodes.find p with
        | none => simp [hf] at h
        | some n =>
          cases n with
          | file g => simp [hf] at h
          | dir nm sub =>
            simp only [hf] at h ⊢
            rw [← hps] at h
            rw [← hps2]
            exact ih hr h

/-- C1: on a tree whose children are keyed by their own name, a node returned
by `Package::get(path)` lies on a route whose node names joined with `/` give
exactly `path` (and the reference points at that node of the tree); `get`
returns null as soon as a non-final component resolves to a file. -/
theorem get_returns_node_at_path (p : Package) (path : String)
    (h : p.m_nodes.KeyedByName) :
    (∀ r, p.get path = some r →
      ∃ names, p.m_nodes.namesOn r.route = some names ∧ join names = path ∧
        p.m_nodes.resolve r.route = some r.node) ∧
    (∀ pre c rest f, split path = pre ++ c :: rest → rest ≠ [] →
      p.m_nodes.resolve (pre ++ [c]) = some (.file f) → p.get path = none) := by
  constructor
  · intro r hr
    unfold Package.get at hr
    rw [getLoop_eq_resolve] at hr
    cases hres : p.m_nodes.resolve (split path) with
    | none => simp [hres] at hr
    | some n =>
      simp [hres] at hr
      subst hr
      exact ⟨split path, Nodes.namesOn_of_resolve h hres, join_split path, hres⟩
  · intro pre c rest f hs hne hfile
    unfold Package.get
    rw [getLoop_eq_resolve, hs, Nodes.resolve_none_of_file hne hfile]
    rfl

/-! ## Filtering -/

theorem mem_setInsert (l : List String) (x y : String) :
    x ∈ setInsert l y ↔ x = y ∨ x ∈ l := by
  induction l with
  | nil => simp [setInsert]
  | cons z zs ih =>
    unfold setInsert
    split
    · simp
    · split
      · rename_i h
        subst h
        simp
      · simp only [List.mem_cons, ih]
        tauto

theorem Package.mem_filterScan_notfound (p : Package) (paths : List String) :
    ∀ (acc : List String × List (List String)) (x : String),
      x ∈ (p.filterScan paths acc).1 ↔ x ∈ acc.1 ∨ (x ∈ paths ∧ p.get x = none) := by
  induction paths with
  | nil => intro acc x; simp [Package.filterScan]
  | cons path rest ih =>
    intro acc x
    obtain ⟨nf, kp⟩ := acc
    unfold Package.filterScan
    cases hg : p.get path with
    | some node =>
      simp only [ih, List.mem_cons]
      constructor
      · rintro (h | ⟨h1, h2⟩)
        · exact Or.inl h
        · exact Or.inr ⟨Or.inr h1, h2⟩
      · rintro (h | ⟨h1 | h1, h2⟩)
        · exact Or.inl h
        · subst h1; rw [hg] at h2; cases h2
        · exact Or.inr ⟨h1, h2⟩
    | none =>
      simp only [ih, List.mem_cons, mem_setInsert]
      constructor
      · rintro ((h | h) | ⟨h1, h2⟩)
        · subst h; exact Or.inr ⟨Or.inl rfl, hg⟩
        · exact Or.inl h
        · exact Or.inr ⟨Or.inr h1, h2⟩
      · rintro (h | ⟨h1 | h1, h2⟩)
        · exact Or.inl (Or.inr h)
        · exact Or.inl (Or.inl h1)
        · exact Or.inr ⟨h1, h2⟩

theorem Package.mem_filterScan_keep (p : Package) (paths : List String) :
    ∀ (acc : List String × List (List String)) (q : List String),
      q ∈ (p.filterScan paths acc).2 ↔
        q ∈ acc.2 ∨ ∃ x ∈ paths, ∃ r, p.get x = some r ∧ r.route = q := by
  induction paths with
  | nil => intro acc q; simp [Package.filterScan]
  | cons path rest ih =>
    intro acc q
    obtain ⟨nf, kp⟩ := acc
    unfold Package.filterScan
    cases hg : p.get path with
    | some node =>
      simp only [ih, List.mem_cons]
      have hkp : q ∈ (if node.route ∈ kp then kp else kp ++ [node.route]) ↔
          q ∈ kp ∨ q = node.route := by
        split
        · rename_i hin
          constructor
          · exact Or.inl
          · rintro (h | h)
            · exact h
            · subst h; exact hin
        · simp
      rw [hkp]
      constructor
      · rintro ((h | h) | ⟨x, hx, r, hr, hq⟩)
        · exact Or.inl h
        · exact Or.inr ⟨path, Or.inl rfl, node, hg, h.symm⟩
        · exact Or.inr ⟨x, Or.inr hx, r, hr, hq⟩
      · rintro (h | ⟨x, hx | hx, r, hr, hq⟩)
        · exact Or.inl (Or.inl h)
        · subst hx
          rw [hg] at hr
          cases hr
          exact Or.inl (Or.inr hq.symm)
        · exact Or.inr ⟨x, hx, r, hr, hq⟩
    | none =>
      simp only [ih, List.mem_cons]
      constructor
      · rintro (h | ⟨x, hx, r, hr, hq⟩)
        · exact Or.inl h
        · exact Or.inr ⟨x, Or.inr hx, r, hr, hq⟩
      · rintro (h | ⟨x, hx | hx, r, hr, hq⟩)
        · exact Or.inl h
        · subst hx; rw [hg] at hr; cases hr
        · exact Or.inr ⟨x, hx, r, hr, hq⟩

/-- C2: the set returned by `Package::filter(paths)` holds exactly the paths of
`paths` for which `get` is null on the tree as it is before the call. -/
theorem filter_returns_not_found (p : Package) (paths : List String) (x : String) :
    x ∈ (p.filter paths).1 ↔ x ∈ paths ∧ p.get x = none := by
  unfold Package.filter
  simp [Package.mem_filterScan_notfound]

theorem filterPass_keys (keep : List (List String)) (nodes : Nodes) :
    ∀ pre : List String, (filterPass keep pre nodes).1.keys = nodes.keys := by
  induction nodes with
  | nil => intro pre; rfl
  | dir key name children rest _ ih =>
    intro pre
    unfold filterPass
    simp only
    split <;> simp [Nodes.keys, ih]
  | file key f rest ih =>
    intro pre
    unfold filterPass
    simp only
    split <;> simp [Nodes.keys, ih]

theorem filterPass_erase_subset (keep : List (List String)) (nodes : Nodes) :
    ∀ pre : List String, nodes.KeyedByName →
      ∀ n ∈ (filterPass keep pre nodes).2, n ∈ nodes.keys := by
  induction nodes with
  | nil => intro pre _ n hn; simp [filterPass] at hn
  | dir key name children rest _ ih =>
    intro pre hk n hn
    obtain ⟨hkey, _, hr⟩ := hk
    unfold filterPass at hn
    simp only at hn
    simp only [Nodes.keys, List.mem_cons]
    split at hn
    · exact Or.inr (ih pre hr n hn)
    · simp only at hn
      split at hn
      · rcases List.mem_cons.mp hn with h | h
        · exact Or.inl (h.trans hkey.symm)
        · exact Or.inr (ih pre hr n h)
      · exact Or.inr (ih pre hr n hn)
  | file key f rest ih =>
    intro pre hk n hn
    obtain ⟨hkey, hr⟩ := hk
    unfold filterPass at hn
    simp only at hn
    simp only [Nodes.keys, List.mem_cons]
    split at hn
    · exact Or.inr (ih pre hr n hn)
    · rcases List.mem_cons.mp hn with h | h
      · exact Or.inl (h.trans hkey.symm)
      · exact Or.inr (ih pre hr n h)

theorem foldl_erase_dir (er : List String) : ∀ (key name : String) (children rest : Nodes),
    key ∉ er →
      er.foldl Nodes.erase (.dir key name children rest) =
        .dir key name children (er.foldl Nodes.erase rest) := by
  induction er with
  | nil => intro key name children rest _; rfl
  | cons e es ih =>
    intro key name children rest h
    have h1 : key ≠ e := fun hh => h (hh ▸ List.mem_cons_self _ _)
    have h2 : key ∉ es := fun hh => h (List.mem_cons_of_mem _ hh)
    simp only [List.foldl_cons, Nodes.erase, if_neg h1]
    exact ih key name children _ h2

theorem foldl_erase_file (er : List String) : ∀ (key : String) (f : File) (rest : Nodes),
    key ∉ er →
      er.foldl Nodes.erase (.file key f rest) = .file key f (er.foldl Nodes.erase rest) := by
  induction er with
  | nil => intro key f rest _; rfl
  | cons e es ih =>
    intro key f rest h
    have h1 : key ≠ e := fun hh => h (hh ▸ List.mem_cons_self _ _)
    have h2 : key ∉ es := fun hh => h (List.mem_cons_of_mem _ hh)
    simp only [List.foldl_cons, Nodes.erase, if_neg h1]
    exact ih key f _ h2

/-- On a well-formed map the two loops of the static `filter` remove exactly
the files that are not kept and the directories that are not kept and end up
empty. -/
theorem filter_eq_prune (keep : List (List String)) (nodes : Nodes) :
    ∀ pre : List String, nodes.KeyedByName → nodes.UniqueKeys →
      filter keep pre nodes = prune keep pre nodes := by
  induction nodes with
  | nil => intro pre _ _; rfl
  | dir key name children rest ihc ihr =>
    intro pre hk hu
    obtain ⟨hkey, hkc, hkr⟩ := hk
    obtain ⟨hnot, huc, hur⟩ := hu
    have hsub : key ∉ (filterPass keep pre rest).2 :=
      fun hh => hnot (filterPass_erase_subset keep rest pre hkr key hh)
    have hc := ihc (pre ++ [key]) hkc huc
    have hr := ihr pre hkr hur
    unfold filter at hc hr ⊢
    simp only at hc hr ⊢
    unfold filterPass prune
    simp only [decide_eq_true_eq]
    by_cases hin : (pre ++ [key]) ∈ keep
    · simp only [if_pos hin]
      rw [foldl_erase_dir _ _ _ _ _ hsub, hr]
    · simp only [if_neg hin, hc]
      by_cases he : (prune keep (pre ++ [key]) children).empty = true
      · simp only [if_pos he, List.foldl_cons, Nodes.erase, if_pos hkey]
        exact hr
      · simp only [if_neg he]
        rw [foldl_erase_dir _ _ _ _ _ hsub, hr]
  | file key f rest ihr =>
    intro pre hk hu
    obtain ⟨hkey, hkr⟩ := hk
    obtain ⟨hnot, hur⟩ := hu
    have hsub : key ∉ (filterPass keep pre rest).2 :=
      fun hh => hnot (filterPass_erase_subset keep rest pre hkr key hh)
    have hr := ihr pre hkr hur
    unfold filter at hr ⊢
    simp only at hr ⊢
    unfold filterPass prune
    simp only [decide_eq_true_eq]
    by_cases hin : (pre ++ [key]) ∈ keep
    · simp only [if_pos hin]
      rw [foldl_erase_file _ _ _ _ hsub, hr]
    · simp only [if_neg hin, List.foldl_cons, Nodes.erase, if_pos hkey]
      exact hr

theorem Nodes.find_eq_none_iff (nodes : Nodes) (k : String) :
    nodes.find k = none ↔ k ∉ nodes.keys := by
  induction nodes with
  | nil => simp [Nodes.find, Nodes.keys]
  | dir key name children rest _ ih =>
    unfold Nodes.find
    by_cases h : key = k
    · simp [h, Nodes.keys]
    · simp only [if_neg h, ih, Nodes.keys, List.mem_cons, not_or]
      exact ⟨fun hr => ⟨fun hh => h hh.symm, hr⟩, fun hr => hr.2⟩
  | file key f rest ih =>
    unfold Nodes.find
    by_cases h : key = k
    · simp [h, Nodes.keys]
    · simp only [if_neg h, ih, Nodes.keys, List.mem_cons, not_or]
      exact ⟨fun hr => ⟨fun hh => h hh.symm, hr⟩, fun hr => hr.2⟩

theorem prune_keys_subset (keep : List (List String)) (nodes : Nodes) :
    ∀ pre : List String, ∀ k ∈ (prune keep pre nodes).keys, k ∈ nodes.keys := by
  induction nodes with
  | nil => intro pre k hk; simp [prune, Nodes.keys] at hk
  | dir key name children rest _ ih =>
    intro pre k hk
    unfold prune at hk
    simp only [Nodes.keys, List.mem_cons]
    split at hk
    · rcases List.mem_cons.mp hk with h | h
      · exact Or.inl h
      · exact Or.inr (ih pre k h)
    · split at hk
      · exact Or.inr (ih pre k hk)
      · rcases List.mem_cons.mp hk with h | h
        · exact Or.inl h
        · exact Or.inr (ih pre k h)
  | file key f rest ih =>
    intro pre k hk
    unfold prune at hk
    simp only [Nodes.keys, List.mem_cons]
    split at hk
    · rcases List.mem_cons.mp hk with h | h
      · exact Or.inl h
      · exact Or.inr (ih pre k h)
    · exact Or.inr (ih pre k hk)

theorem prune_find_none (keep : List (List String)) (nodes : Nodes) (pre : List String)
    (k : String) (h : nodes.find k = none) : (prune keep pre nodes).find k = none := by
  rw [Nodes.find_eq_none_iff] at h ⊢
  exact fun hh => h (prune_keys_subset keep nodes pre k hh)

theorem prune_find_file (keep : List (List String)) (nodes : Nodes) (pre : List String)
    (k : String) (f : File) (hu : nodes.UniqueKeys) (h : nodes.find k = some (.file f)) :
    (prune keep pre nodes).find k =
      if (pre ++ [k]) ∈ keep then some (.file f) else none := by
  induction nodes with
  | nil => simp [Nodes.find] at h
  | dir key name children rest _ ih =>
    obtain ⟨_, _, hur⟩ := hu
    unfold Nodes.find at h
    by_cases hk : key = k
    · simp [hk] at h
    · rw [if_neg hk] at h
      unfold prune
      split
      · simp only [Nodes.find, if_neg hk]; exact ih hur h
      · split
        · exact ih hur h
        · simp only [Nodes.find, if_neg hk]; exact ih hur h
  | file key g rest ih =>
    obtain ⟨hnot, hur⟩ := hu
    unfold Nodes.find at h
    by_cases hk : key = k
    · rw [if_pos hk] at h
      cases h
      subst hk
      unfold prune
      split
      · simp [Nodes.find]
      · exact prune_find_none keep rest pre key ((Nodes.find_eq_none_iff rest key).mpr hnot)
    · rw [if_neg hk] at h
      unfold prune
      split
      · simp only [Nodes.find, if_neg hk]; exact ih hur h
      · exact ih hur h

theorem prune_find_dir (keep : List (List String)) (nodes : Nodes) (pre : List String)
    (k name : String) (sub : Nodes) (hu : nodes.UniqueKeys)
    (h : nodes.find k = some (.dir name sub)) :
    (prune keep pre nodes).find k =
      if (pre ++ [k]) ∈ keep then some (.dir name sub)
      else if (prune keep (pre ++ [k]) sub).empty then none
      else some (.dir name (prune keep (pre ++ [k]) sub)) := by
  induction nodes with
  | nil => simp [Nodes.find] at h
  | dir key nm children rest _ ih =>
    obtain ⟨hnot, _, hur⟩ := hu
    unfold Nodes.find at h
    by_cases hk : key = k
    · rw [if_pos hk] at h
      cases h
      subst hk
      rw [prune]
      split
      · simp [Nodes.find]
      · split
        · exact prune_find_none keep rest pre key ((Nodes.find_eq_none_iff rest key).mpr hnot)
        · simp [Nodes.find]
    · rw [if_neg hk] at h
      rw [prune]
      split
      · simp only [Nodes.find, if_neg hk]; exact ih hur h
      · split
        · exact ih hur h
        · simp only [Nodes.find, if_neg hk]; exact ih hur h
  | file key g rest ih =>
    obtain ⟨_, hur⟩ := hu
    unfold Nodes.find at h
    by_cases hk : key = k
    · simp [hk] at h
    · rw [if_neg hk] at h
      rw [prune]
      split
      · simp only [Nodes.find, if_neg hk]; exact ih hur h
      · exact ih hur h

theorem Nodes.unique_children {nodes : Nodes} (h : nodes.UniqueKeys) {k name : String}
    {sub : Nodes} (hf : nodes.find k = some (.dir name sub)) : sub.UniqueKeys := by
  induction nodes with
  | nil => simp [Nodes.find] at hf
  | dir key name' children rest _ ih =>
    obtain ⟨_, hc, hr⟩ := h
    unfold Nodes.find at hf
    split at hf
    · cases hf
      exact hc
    · exact ih hr hf
  | file key f rest ih =>
    obtain ⟨_, hr⟩ := h
    unfold Nodes.find at hf
    split at hf
    · cases hf
    · exact ih hr hf

theorem Nodes.resolve_of_empty {nodes : Nodes} (h : nodes.empty = true) (r : List String) :
    nodes.resolve r = none := by
  cases nodes with
  | nil =>
    cases r with
    | nil => rfl
    | cons k rest =>
      cases rest with
      | nil => rfl
      | cons c cs => rfl
  | dir key name children rest => simp [Nodes.empty] at h
  | file key f rest => simp [Nodes.empty] at h

/-- A file leaf at route `r` survives `prune` exactly when a non-empty initial
part of its route, taken from the root, is in `keep`. -/
theorem prune_resolve_file (keep : List (List String)) (r : List String) :
    ∀ (nodes : Nodes) (pre : List String) (f : File), nodes.UniqueKeys →
      nodes.resolve r = some (.file f) →
      ((∃ q, q ≠ [] ∧ q <+: r ∧ (pre ++ q) ∈ keep) →
          (prune keep pre nodes).resolve r = some (.file f)) ∧
      ((¬ ∃ q, q ≠ [] ∧ q <+: r ∧ (pre ++ q) ∈ keep) →
          (prune keep pre nodes).resolve r = none) := by
  induction r with
  | nil => intro nodes pre f _ h; simp [Nodes.resolve] at h
  | cons k rest ih =>
    intro nodes pre f hu h
    cases rest with
    | nil =>
      simp only [Nodes.resolve] at h ⊢
      rw [prune_find_file keep nodes pre k f hu h]
      constructor
      · rintro ⟨q, hq, hpre, hmem⟩
        have : q = [k] := by
          rcases List.prefix_cons_iff.mp hpre with h0 | ⟨t, rfl, ht⟩
          · exact absurd h0 hq
          · simp [List.prefix_nil.mp ht]
        subst this
        simp [hmem]
      · intro hno
        have : (pre ++ [k]) ∉ keep := fun hh => hno ⟨[k], by simp, List.prefix_refl _, hh⟩
        simp [this]
    | cons c cs =>
      simp only [Nodes.resolve] at h ⊢
      cases hf : nodes.find k with
      | none => simp [hf] at h
      | some n =>
        cases n with
        | file g => simp [hf] at h
        | dir nm sub =>
          simp only [hf] at h
          have huc := Nodes.unique_children hu hf
          have hsub := ih sub (pre ++ [k]) f huc h
          rw [prune_find_dir keep nodes pre k nm sub hu hf]
          by_cases hin : (pre ++ [k]) ∈ keep
          · simp only [if_pos hin]
            constructor
            · intro _; exact h
            · intro hno
              exact absurd ⟨[k], by simp, by simp, hin⟩ hno
          · simp only [if_neg hin]
            have hequiv : (∃ q, q ≠ [] ∧ q <+: k :: c :: cs ∧ (pre ++ q) ∈ keep) ↔
                (∃ q, q ≠ [] ∧ q <+: c :: cs ∧ (pre ++ [k] ++ q) ∈ keep) := by
              constructor
              · rintro ⟨q, hq, hpre, hmem⟩
                rcases List.prefix_cons_iff.mp hpre with h0 | ⟨t, rfl, ht⟩
                · exact absurd h0 hq
                · refine ⟨t, ?_, ht, by simpa using hmem⟩
                  rintro rfl
                  exact hin hmem
              · rintro ⟨q, hq, hpre, hmem⟩
                exact ⟨k :: q, by simp, by simpa using hpre, by simpa using hmem⟩
            rw [hequiv]
            by_cases he : (prune keep (pre ++ [k]) sub).empty = true
            · simp only [if_pos he]
              have hnone := Nodes.resolve_of_empty he (c :: cs)
              constructor
              · intro hex
                have := hsub.1 hex
                rw [hnone] at this
                cases this
              · intro _; trivial
            · simp only [if_neg he]
              exact hsub

theorem Package.keep_ne_nil (p : Package) (paths : List String) :
    ∀ q ∈ p.keep paths, q ≠ [] := by
  intro q hq
  unfold Package.keep at hq
  rw [Package.mem_filterScan_keep] at hq
  rcases hq with h | ⟨x, _, r, hr, rfl⟩
  · simp at h
  · unfold Package.get at hr
    rw [getLoop_eq_resolve] at hr
    cases hres : p.m_nodes.resolve (split x) with
    | none => simp [hres] at hr
    | some n =>
      simp [hres] at hr
      subst hr
      exact split_ne_nil x

/-- C3: on a tree with unique keys whose children are keyed by their names, a
file leaf of the original tree (at route `r`, with contents `f`) is still at
the same route with the same contents after `filter(paths)` if and only if
`get` returns, for one of the paths, the leaf itself or one of its ancestor
directories (a node whose route is an initial part of `r`); otherwise nothing
is left at its route. -/
theorem filter_keeps_exactly_kept_leaves (p : Package) (paths : List String)
    (hk : p.m_nodes.KeyedByName) (hu : p.m_nodes.UniqueKeys)
    (r : List String) (f : File) (hleaf : p.m_nodes.resolve r = some (.file f)) :
    ((p.filter paths).2.m_nodes.resolve r = some (.file f) ↔
        ∃ x ∈ paths, ∃ k, p.get x = some k ∧ k.route <+: r) ∧
    ((p.filter paths).2.m_nodes.resolve r = some (.file f) ∨
        (p.filter paths).2.m_nodes.resolve r = none) := by
  have hK : (∃ x ∈ paths, ∃ k, p.get x = some k ∧ k.route <+: r) ↔
      ∃ q ∈ p.keep paths, q <+: r := by
    unfold Package.keep
    constructor
    · rintro ⟨x, hx, k, hk, hpre⟩
      exact ⟨k.route, (p.mem_filterScan_keep paths ([], []) k.route).mpr
        (Or.inr ⟨x, hx, k, hk, rfl⟩), hpre⟩
    · rintro ⟨q, hq, hpre⟩
      rcases (p.mem_filterScan_keep paths ([], []) q).mp hq with h | ⟨x, hx, k, hk, rfl⟩
      · simp at h
      · exact ⟨x, hx, k, hk, hpre⟩
  rw [hK]
  have hp := prune_resolve_file (p.keep paths) r p.m_nodes [] f hu hleaf
  have hfe : (p.filter paths).2.m_nodes = prune (p.keep paths) [] p.m_nodes := by
    unfold Package.filter Package.keep
    exact filter_eq_prune _ _ [] hk hu
  rw [hfe]
  simp only [List.nil_append] at hp
  have hiff : (∃ q, q ≠ [] ∧ q <+: r ∧ q ∈ p.keep paths) ↔ ∃ q ∈ p.keep paths, q <+: r := by
    constructor
    · rintro ⟨q, _, h1, h2⟩; exact ⟨q, h2, h1⟩
    · rintro ⟨q, h2, h1⟩; exact ⟨q, p.keep_ne_nil paths q h2, h1, h2⟩
  rw [hiff] at hp
  by_cases hex : ∃ q ∈ p.keep paths, q <+: r
  · exact ⟨⟨fun _ => hex, fun _ => hp.1 hex⟩, Or.inl (hp.1 hex)⟩
  · refine ⟨⟨fun h => ?_, fun h => absurd h hex⟩, Or.inr (hp.2 hex)⟩
    rw [hp.2 hex] at h
    cases h

theorem scenario4_keyed : scenario4.m_nodes.KeyedByName := by
  simp [scenario4, Nodes.KeyedByName]

theorem scenario4_unique : scenario4.m_nodes.UniqueKeys := by
  simp [scenario4, Nodes.UniqueKeys, Nodes.keys]

/-- Scenario 4: `filter(["a/b"])` finds its path, keeps `a/b/c.txt` and
`a/b/d.txt`, and removes `e/f.txt` together with the directory `e`. -/
theorem scenario4_filter :
    (scenario4.filter ["a/b"]).1 = [] ∧
    (scenario4.filter ["a/b"]).2.m_nodes =
      .dir "a" "a"
        (.dir "b" "b"
          (.file "c.txt" ⟨"c.txt", 1, [104], 32767, 0, 0⟩
            (.file "d.txt" ⟨"d.txt", 2, [105], 32767, 0, 0⟩ .nil)) .nil) .nil := by
  decide

theorem get_returns_node_at_path_witness :
    scenario4.m_nodes.KeyedByName ∧
    ((∀ r, scenario4.get "a/b/c.txt" = some r →
      ∃ names, scenario4.m_nodes.namesOn r.route = some names ∧ join names = "a/b/c.txt" ∧
        scenario4.m_nodes.resolve r.route = some r.node) ∧
    (∀ pre c rest f, split "a/b/c.txt" = pre ++ c :: rest → rest ≠ [] →
      scenario4.m_nodes.resolve (pre ++ [c]) = some (.file f) →
        scenario4.get "a/b/c.txt" = none)) :=
  ⟨scenario4_keyed, get_returns_node_at_path scenario4 "a/b/c.txt" scenario4_keyed⟩

theorem filter_keeps_exactly_kept_leaves_witness :
    scenario4.m_nodes.KeyedByName ∧ scenario4.m_nodes.UniqueKeys ∧
    scenario4.m_nodes.resolve ["a", "b", "c.txt"] =
      some (.file ⟨"c.txt", 1, [104], 32767, 0, 0⟩) ∧
    (((scenario4.filter ["a/b"]).2.m_nodes.resolve ["a", "b", "c.txt"] =
        some (.file ⟨"c.txt", 1, [104], 32767, 0, 0⟩) ↔
        ∃ x ∈ ["a/b"], ∃ k, scenario4.get x = some k ∧ k.route <+: ["a", "b", "c.txt"]) ∧
    ((scenario4.filter ["a/b"]).2.m_nodes.resolve ["a", "b", "c.txt"] =
        some (.file ⟨"c.txt", 1, [104], 32767, 0, 0⟩) ∨
      (scenario4.filter ["a/b"]).2.m_nodes.resolve ["a", "b", "c.txt"] = none)) :=
  ⟨scenario4_keyed, scenario4_unique, by decide,
    filter_keeps_exactly_kept_leaves scenario4 ["a/b"] scenario4_keyed scenario4_unique
      ["a", "b", "c.txt"] ⟨"c.txt", 1, [104], 32767, 0, 0⟩ (by decide)⟩

/-! ## Path construction -/

theorem Nodes.find_cons (k : String) (n : Node) (rest : Nodes) (k' : String) :
    (Nodes.cons k n rest).find k' = if k = k' then some n else rest.find k' := by
  cases n <;> simp [Nodes.cons, Nodes.find]

theorem Nodes.find_insert_self (nodes : Nodes) (k : String) (n : Node)
    (h : nodes.find k = none) : (nodes.insert k n).find k = some n := by
  induction nodes with
  | nil => simp [Nodes.insert, Nodes.find_cons]
  | dir key name children rest _ ih =>
    unfold Nodes.find at h
    by_cases hk : key = k
    · simp [hk] at h
    · rw [if_neg hk] at h
      unfold Nodes.insert
      split
      · simp [Nodes.find_cons]
      · simp only [Nodes.find, if_neg hk]; exact ih h
  | file key f rest ih =>
    unfold Nodes.find at h
    by_cases hk : key = k
    · simp [hk] at h
    · rw [if_neg hk] at h
      unfold Nodes.insert
      split
      · simp [Nodes.find_cons]
      · simp only [Nodes.find, if_neg hk]; exact ih h

theorem Nodes.find_insert_ne (nodes : Nodes) (k : String) (n : Node) (k' : String)
    (h : k' ≠ k) : (nodes.insert k n).find k' = nodes.find k' := by
  have h' : ¬ k = k' := fun hh => h hh.symm
  induction nodes with
  | nil => simp [Nodes.insert, Nodes.find_cons, h', Nodes.find]
  | dir key name children rest _ ih =>
    unfold Nodes.insert
    split
    · simp [Nodes.find_cons, h']
    · simp only [Nodes.find, ih]
  | file key f rest ih =>
    unfold Nodes.insert
    split
    · simp [Nodes.find_cons, h']
    · simp only [Nodes.find, ih]

theorem Nodes.find_setChildren_self (nodes : Nodes) (k nm : String) (sub sub' : Nodes)
    (h : nodes.find k = some (.dir nm sub)) :
    (nodes.setChildren k sub').find k = some (.dir nm sub') := by
  induction nodes with
  | nil => simp [Nodes.find] at h
  | dir key name children rest _ ih =>
    unfold Nodes.find at h
    unfold Nodes.setChildren
    by_cases hk : key = k
    · rw [if_pos hk] at h
      cases h
      simp [hk, Nodes.find]
    · rw [if_neg hk] at h
      simp only [if_neg hk, Nodes.find]
      exact ih h
  | file key f rest ih =>
    unfold Nodes.find at h
    unfold Nodes.setChildren
    by_cases hk : key = k
    · simp [hk] at h
    · rw [if_neg hk] at h
      simp only [if_neg hk, Nodes.find]
      exact ih h

theorem Nodes.find_setChildren_ne (nodes : Nodes) (k : String) (sub' : Nodes) (k' : String)
    (h : k' ≠ k) : (nodes.setChildren k sub').find k' = nodes.find k' := by
  induction nodes with
  | nil => rfl
  | dir key name children rest _ ih =>
    unfold Nodes.setChildren
    by_cases hk : key = k
    · have : ¬ k = k' := fun hh => h hh.symm
      simp [hk, Nodes.find, this]
    · simp only [if_neg hk, Nodes.find, ih]
  | file key f rest ih =>
    unfold Nodes.setChildren
    by_cases hk : key = k
    · simp [hk, Nodes.find]
    · simp only [if_neg hk, Nodes.find, ih]

/-- One turn of the loop of `mkpath` that ends well: the entry of `name` is a
directory afterwards, either the one found or a new one named `name` with no
children, the loop went on inside it, and no other entry changed. -/
theorem mkpathLoop_cons_ok {nodes nodes' : Nodes} {done : List String} {dir r : Option NodeRef}
    {name : String} {rest : List String}
    (h : mkpathLoop nodes done dir (name :: rest) = .ok (nodes', r)) :
    ∃ nm sub sub',
      ((nodes.find name = none ∧ nm = name ∧ sub = .nil) ∨
        nodes.find name = some (.dir nm sub)) ∧
      mkpathLoop sub (done ++ [name]) (some ⟨done ++ [name], .dir nm sub⟩) rest
        = .ok (sub', r) ∧
      nodes'.find name = some (.dir nm sub') ∧
      ∀ k, k ≠ name → nodes'.find k = nodes.find k := by
  unfold mkpathLoop at h
  cases hf : nodes.find name with
  | none =>
    simp only [hf] at h
    cases hm : mkpathLoop .nil (done ++ [name])
        (some ⟨done ++ [name], .dir name .nil⟩) rest with
    | error e => simp [hm] at h
    | ok res =>
      obtain ⟨sub', r'⟩ := res
      simp only [hm, Except.ok.injEq, Prod.mk.injEq] at h
      obtain ⟨h1, h2⟩ := h
      subst h1 h2
      exact ⟨name, .nil, sub', Or.inl ⟨rfl, rfl, rfl⟩, hm,
        Nodes.find_insert_self _ _ _ hf, fun k hk => Nodes.find_insert_ne _ _ _ k hk⟩
  | some n =>
    cases n with
    | file f => simp [hf] at h
    | dir nm sub =>
      simp only [hf] at h
      cases hm : mkpathLoop sub (done ++ [name])
          (some ⟨done ++ [name], .dir nm sub⟩) rest with
      | error e => simp [hm] at h
      | ok res =>
        obtain ⟨sub', r'⟩ := res
        simp only [hm, Except.ok.injEq, Prod.mk.injEq] at h
        obtain ⟨h1, h2⟩ := h
        subst h1 h2
        exact ⟨nm, sub, sub', Or.inr rfl, hm,
          Nodes.find_setChildren_self _ _ _ _ _ hf,
          fun k hk => Nodes.find_setChildren_ne _ _ _ k hk⟩

/-- In an empty map the loop of `mkpath` never fails and builds the chain of
new directories. -/
theorem mkpathLoop_nil (path : List String) : ∀ (done : List String) (dir : Option NodeRef),
    ∃ r, mkpathLoop .nil done dir path = .ok (freshChain path, r) := by
  induction path with
  | nil => intro done dir; exact ⟨dir, rfl⟩
  | cons name rest ih =>
    intro done dir
    obtain ⟨r, hr⟩ := ih (done ++ [name]) (some ⟨done ++ [name], .dir name .nil⟩)
    refine ⟨r, ?_⟩
    unfold mkpathLoop
    simp only [Nodes.find, hr]
    rfl

theorem freshChain_resolve (pre : List String) (c : String) (rest : List String) :
    (freshChain (pre ++ c :: rest)).resolve (pre ++ [c]) = some (.dir c (freshChain rest)) := by
  induction pre with
  | nil => simp [freshChain, Nodes.resolve, Nodes.find]
  | cons p ps ih =>
    cases hps : ps ++ [c] with
    | nil => simp at hps
    | cons d ds =>
      simp only [List.cons_append, freshChain, hps, Nodes.resolve, Nodes.find, if_true]
      rw [← hps]
      exact ih

/-- The loop of `mkpath` fails exactly on a file met on the way, with the
components up to that file in the message. -/
theorem mkpathLoop_error_iff (path : List String) :
    ∀ (nodes : Nodes) (done : List String) (dir : Option NodeRef) (e : Error),
      mkpathLoop nodes done dir path = .error e ↔
        ∃ pre c rest f, path = pre ++ c :: rest ∧
          nodes.resolve (pre ++ [c]) = some (.file f) ∧
          e = .exception ("path is not a directory: " ++ join (done ++ pre ++ [c])) := by
  induction path with
  | nil =>
    intro nodes done dir e
    simp [mkpathLoop]
  | cons name rest ih =>
    intro nodes done dir e
    unfold mkpathLoop
    cases hf : nodes.find name with
    | none =>
      simp only
      obtain ⟨r, hr⟩ := mkpathLoop_nil rest (done ++ [name])
        (some ⟨done ++ [name], .dir name .nil⟩)
      rw [hr]
      refine ⟨(fun h => by cases h), ?_⟩
      rintro ⟨pre, c, rest', f, hp, hres, _⟩
      exfalso
      cases pre with
      | nil =>
        simp only [List.nil_append, List.cons.injEq] at hp
        obtain ⟨rfl, _⟩ := hp
        simp [Nodes.resolve, hf] at hres
      | cons p ps =>
        simp only [List.cons_append, List.cons.injEq] at hp
        obtain ⟨rfl, _⟩ := hp
        cases hps : ps ++ [c] with
        | nil => simp at hps
        | cons d ds =>
          simp [hps, Nodes.resolve, hf] at hres
    | some n =>
      cases n with
      | file f =>
        simp only [Except.error.injEq]
        constructor
        · intro he
          exact ⟨[], name, rest, f, rfl, by simp [Nodes.resolve, hf], by simp [← he]⟩
        · rintro ⟨pre, c, rest', g, hp, hres, he⟩
          cases pre with
          | nil =>
            simp only [List.nil_append, List.cons.injEq] at hp
            obtain ⟨rfl, _⟩ := hp
            simp [he]
          | cons p ps =>
            simp only [List.cons_append, List.cons.injEq] at hp
            obtain ⟨rfl, _⟩ := hp
            cases hps : ps ++ [c] with
            | nil => simp at hps
            | cons d ds =>
              simp [hps, Nodes.resolve, hf] at hres
      | dir nm sub =>
        simp only
        have ihs := ih sub (done ++ [name]) (some ⟨done ++ [name], .dir nm sub⟩) e
        cases hm : mkpathLoop sub (done ++ [name])
            (some ⟨done ++ [name], .dir nm sub⟩) rest with
        | ok res =>
          rw [hm] at ihs
          refine ⟨(fun h => by cases h), ?_⟩
          rintro ⟨pre, c, rest', f, hp, hres, he⟩
          exfalso
          cases pre with
          | nil =>
            simp only [List.nil_append, List.cons.injEq] at hp
            obtain ⟨rfl, _⟩ := hp
            simp [Nodes.resolve, hf] at hres
          | cons p ps =>
            simp only [List.cons_append, List.cons.injEq] at hp
            obtain ⟨rfl, hrest⟩ := hp
            have hcontra := ihs.mpr ⟨ps, c, rest', f, hrest, (by
              cases hps : ps ++ [c] with
              | nil => simp at hps
              | cons d ds =>
                simp only [List.cons_append, hps, Nodes.resolve, hf] at hres
                exact hres), by simpa using he⟩
            cases hcontra
        | error e' =>
          rw [hm] at ihs
          simp only [Except.error.injEq] at ihs ⊢
          rw [ihs]
          constructor
          · rintro ⟨pre, c, rest', f, hp, hres, he⟩
            refine ⟨name :: pre, c, rest', f, by simp [hp], ?_, by simpa using he⟩
            cases hps : pre ++ [c] with
            | nil => simp at hps
            | cons d ds =>
              simp only [List.cons_append, hps, Nodes.resolve, hf]
              rw [← hps]; exact hres
          · rintro ⟨pre, c, rest', f, hp, hres, he⟩
            cases pre with
            | nil =>
              simp only [List.nil_append, List.cons.injEq] at hp
              obtain ⟨rfl, _⟩ := hp
              simp [Nodes.resolve, hf] at hres
            | cons p ps =>
              simp only [List.cons_append, List.cons.injEq] at hp
              obtain ⟨rfl, hrest⟩ := hp
              refine ⟨ps, c, rest', f, hrest, ?_, by simpa using he⟩
              cases hps : ps ++ [c] with
              | nil => simp at hps
              | cons d ds =>
                simp only [List.cons_append, hps, Nodes.resolve, hf] at hres
                exact hres

theorem Nodes.resolve_cons_of_find_dir {nodes : Nodes} {k nm : String} {sub : Nodes}
    (h : nodes.find k = some (.dir nm sub)) {rs : List String} (hrs : rs ≠ []) :
    nodes.resolve (k :: rs) = sub.resolve rs := by
  cases rs with
  | nil => exact absurd rfl hrs
  | cons c cs => simp [Nodes.resolve, h]

theorem Nodes.resolve_cons_of_find_none {nodes : Nodes} {k : String}
    (h : nodes.find k = none) (rs : List String) : nodes.resolve (k :: rs) = none := by
  cases rs with
  | nil => simpa [Nodes.resolve] using h
  | cons c cs => simp [Nodes.resolve, h]

theorem Nodes.resolve_congr_find {nodes nodes' : Nodes} {k : String}
    (h : nodes'.find k = nodes.find k) (rs : List String) :
    nodes'.resolve (k :: rs) = nodes.resolve (k :: rs) := by
  cases rs with
  | nil => simpa [Nodes.resolve] using h
  | cons c cs => simp [Nodes.resolve, h]

/-- After the loop of `mkpath` the final `dir` is the directory at the last
component. -/
theorem mkpathLoop_ok_dir (path : List String) :
    ∀ (nodes nodes' : Nodes) (done : List String) (dir r : Option NodeRef),
      mkpathLoop nodes done dir path = .ok (nodes', r) → path ≠ [] →
        ∃ nm sub, r = some ⟨done ++ path, .dir nm sub⟩ ∧
          nodes'.resolve path = some (.dir nm sub) := by
  induction path with
  | nil => intro nodes nodes' done dir r _ h; exact absurd rfl h
  | cons name rest ih =>
    intro nodes nodes' done dir r h _
    obtain ⟨nm, sub, sub', _, hm, hfind, _⟩ := mkpathLoop_cons_ok h
    cases rest with
    | nil =>
      simp only [mkpathLoop, Except.ok.injEq, Prod.mk.injEq] at hm
      obtain ⟨h1, h2⟩ := hm
      subst h1
      exact ⟨nm, sub, h2.symm, by simpa [Nodes.resolve] using hfind⟩
    | cons c cs =>
      obtain ⟨nm2, sub2, hr, hres⟩ := ih sub sub' (done ++ [name]) _ r hm (by simp)
      refine ⟨nm2, sub2, by simpa using hr, ?_⟩
      rw [Nodes.resolve_cons_of_find_dir hfind (by simp)]
      exact hres

/-- A component that is missing before `mkpath` is afterwards a new directory
named after it, holding only the chain of new directories of the components
that follow. -/
theorem mkpathLoop_ok_missing (pre : List String) :
    ∀ (nodes nodes' : Nodes) (done : List String) (dir r : Option NodeRef)
      (c : String) (rest : List String),
      mkpathLoop nodes done dir (pre ++ c :: rest) = .ok (nodes', r) →
      nodes.resolve (pre ++ [c]) = none →
        nodes'.resolve (pre ++ [c]) = some (.dir c (freshChain rest)) := by
  induction pre with
  | nil =>
    intro nodes nodes' done dir r c rest h hres
    simp only [List.nil_append] at h hres ⊢
    simp only [Nodes.resolve] at hres ⊢
    obtain ⟨nm, sub, sub', hcase, hm, hfind, _⟩ := mkpathLoop_cons_ok h
    rcases hcase with ⟨_, rfl, rfl⟩ | hdir
    · obtain ⟨r', hr'⟩ := mkpathLoop_nil rest (done ++ [nm]) (some ⟨done ++ [nm], .dir nm .nil⟩)
      rw [hr'] at hm
      simp only [Except.ok.injEq, Prod.mk.injEq] at hm
      rw [hfind, ← hm.1]
    · rw [hdir] at hres
      cases hres
  | cons p ps ih =>
    intro nodes nodes' done dir r c rest h hres
    simp only [List.cons_append] at h hres ⊢
    obtain ⟨nm, sub, sub', hcase, hm, hfind, _⟩ := mkpathLoop_cons_ok h
    rw [Nodes.resolve_cons_of_find_dir hfind (by simp)]
    rcases hcase with ⟨_, rfl, rfl⟩ | hdir
    · obtain ⟨r', hr'⟩ := mkpathLoop_nil (ps ++ c :: rest) (done ++ [nm])
        (some ⟨done ++ [nm], .dir nm .nil⟩)
      rw [hr'] at hm
      simp only [Except.ok.injEq, Prod.mk.injEq] at hm
      rw [← hm.1]
      exact freshChain_resolve ps c rest
    · rw [Nodes.resolve_cons_of_find_dir hdir (by simp)] at hres
      exact ih sub sub' _ _ r c rest hm hres

/-- A component that is a directory before `mkpath` is the same directory
afterwards (same name); the last component keeps its children. -/
theorem mkpathLoop_ok_existing (pre : List String) :
    ∀ (nodes nodes' : Nodes) (done : List String) (dir r : Option NodeRef)
      (c : String) (rest : List String) (nm : String) (sub : Nodes),
      mkpathLoop nodes done dir (pre ++ c :: rest) = .ok (nodes', r) →
      nodes.resolve (pre ++ [c]) = some (.dir nm sub) →
        ∃ sub', nodes'.resolve (pre ++ [c]) = some (.dir nm sub') ∧
          (rest = [] → sub' = sub) := by
  induction pre with
  | nil =>
    intro nodes nodes' done dir r c rest nm sub h hres
    simp only [List.nil_append] at h hres ⊢
    simp only [Nodes.resolve] at hres ⊢
    obtain ⟨nm', sub0, sub', hcase, hm, hfind, _⟩ := mkpathLoop_cons_ok h
    rcases hcase with ⟨hnone, _, _⟩ | hdir
    · rw [hnone] at hres
      cases hres
    · rw [hdir] at hres
      simp only [Option.some.injEq, Node.dir.injEq] at hres
      obtain ⟨rfl, rfl⟩ := hres
      refine ⟨sub', hfind, ?_⟩
      rintro rfl
      simp only [mkpathLoop, Except.ok.injEq, Prod.mk.injEq] at hm
      exact hm.1.symm
  | cons p ps ih =>
    intro nodes nodes' done dir r c rest nm sub h hres
    simp only [List.cons_append] at h hres ⊢
    obtain ⟨nm', sub0, sub', hcase, hm, hfind, _⟩ := mkpathLoop_cons_ok h
    rw [Nodes.resolve_cons_of_find_dir hfind (by simp)]
    rcases hcase with ⟨hnone, _, _⟩ | hdir
    · rw [Nodes.resolve_cons_of_find_none hnone] at hres
      cases hres
    · rw [Nodes.resolve_cons_of_find_dir hdir (by simp)] at hres
      exact ih sub0 sub' _ _ r c rest nm sub hm hres

/-- Routes that do not lead along `path` resolve after `mkpath` as before. -/
theorem mkpathLoop_ok_frame (path : List String) :
    ∀ (nodes nodes' : Nodes) (done : List String) (dir r : Option NodeRef),
      mkpathLoop nodes done dir path = .ok (nodes', r) →
      ∀ rt : List String, ¬ rt <+: path → nodes'.resolve rt = nodes.resolve rt := by
  induction path with
  | nil =>
    intro nodes nodes' done dir r h rt _
    simp only [mkpathLoop, Except.ok.injEq, Prod.mk.injEq] at h
    rw [← h.1]
  | cons name rest ih =>
    intro nodes nodes' done dir r h rt hrt
    obtain ⟨nm, sub, sub', hcase, hm, hfind, hother⟩ := mkpathLoop_cons_ok h
    cases rt with
    | nil => exact absurd List.nil_prefix hrt
    | cons k rs =>
      by_cases hk : k = name
      · subst hk
        have hrs : ¬ rs <+: rest := fun hh => hrt ((List.prefix_cons_inj k).mpr hh)
        have hne : rs ≠ [] := by
          rintro rfl
          exact hrs List.nil_prefix
        rw [Nodes.resolve_cons_of_find_dir hfind hne, ih sub sub' _ _ r hm rs hrs]
        rcases hcase with ⟨hnone, _, rfl⟩ | hdir
        · rw [Nodes.resolve_cons_of_find_none hnone]
          exact (@Nodes.resolve_of_empty Nodes.nil rfl rs).symm ▸ rfl
        · rw [Nodes.resolve_cons_of_find_dir hdir hne]
      · exact Nodes.resolve_congr_find (hother k hk) rs

/-- C4: for a non-empty component list, `mkpath` fails if and only if, going
down component by component, it meets an existing child that is a file, and
the error is "path is not a directory: " followed by the components up to and
including that one joined with `/`. Otherwise it returns the directory at the
last component: every component missing before is a new directory named after
it that holds only the new directories of the components after it, every
component that was a directory is that directory still, and routes that do not
lead along the path are unchanged. -/
theorem mkpath_fails_iff_file_on_path (p : Package) (path : List String) (hne : path ≠ []) :
    (∀ e, p.mkpathVec path = .error e ↔
      ∃ pre c rest f, path = pre ++ c :: rest ∧
        p.m_nodes.resolve (pre ++ [c]) = some (.file f) ∧
        e = .exception ("path is not a directory: " ++ join (pre ++ [c]))) ∧
    (∀ p' d, p.mkpathVec path = .ok (p', d) →
      d.route = path ∧ (∃ nm sub, d.node = .dir nm sub) ∧
      p'.m_nodes.resolve path = some d.node ∧
      (∀ pre c rest, path = pre ++ c :: rest →
        (p.m_nodes.resolve (pre ++ [c]) = none →
          p'.m_nodes.resolve (pre ++ [c]) = some (.dir c (freshChain rest))) ∧
        (∀ nm sub, p.m_nodes.resolve (pre ++ [c]) = some (.dir nm sub) →
          ∃ sub', p'.m_nodes.resolve (pre ++ [c]) = some (.dir nm sub') ∧
            (rest = [] → sub' = sub))) ∧
      (∀ rt : List String, ¬ rt <+: path →
        p'.m_nodes.resolve rt = p.m_nodes.resolve rt)) := by
  have hemp : path.isEmpty = false := by
    cases path with
    | nil => exact absurd rfl hne
    | cons c cs => rfl
  unfold Package.mkpathVec
  simp only [hemp, Bool.false_eq_true, if_false]
  cases hm : mkpathLoop p.m_nodes [] none path with
  | error e' =>
    have herr := (mkpathLoop_error_iff path p.m_nodes [] none e').mp hm
    simp only [List.nil_append] at herr
    constructor
    · intro e
      constructor
      · intro he
        simp only [Except.error.injEq] at he
        subst he
        exact herr
      · rintro ⟨pre, c, rest, f, hp, hres, he⟩
        have := (mkpathLoop_error_iff path p.m_nodes [] none e).mpr
          ⟨pre, c, rest, f, hp, hres, by simpa using he⟩
        rw [hm] at this
        simpa using this
    · intro p' d h
      cases h
  | ok res =>
    obtain ⟨nodes', r⟩ := res
    obtain ⟨nm, sub, hr, hres⟩ := mkpathLoop_ok_dir path p.m_nodes nodes' [] none r hm hne
    subst hr
    simp only [List.nil_append]
    constructor
    · intro e
      refine ⟨(fun h => by cases h), ?_⟩
      rintro ⟨pre, c, rest, f, hp, hresf, he⟩
      have := (mkpathLoop_error_iff path p.m_nodes [] none e).mpr
        ⟨pre, c, rest, f, hp, hresf, by simpa using he⟩
      rw [hm] at this
      cases this
    · intro p' d h
      simp only [Except.ok.injEq, Prod.mk.injEq] at h
      obtain ⟨rfl, rfl⟩ := h
      refine ⟨rfl, ⟨nm, sub, rfl⟩, hres, ?_, ?_⟩
      · intro pre c rest hp
        subst hp
        exact ⟨mkpathLoop_ok_missing pre p.m_nodes nodes' [] none _ c rest hm,
          fun nm' sub0 => mkpathLoop_ok_existing pre p.m_nodes nodes' [] none _ c rest nm' sub0 hm⟩
      · exact mkpathLoop_ok_frame path p.m_nodes nodes' [] none _ hm

theorem mkpath_fails_iff_file_on_path_witness :
    ["a", "x", "y"] ≠ [] ∧
    ((∀ e, scenario4.mkpathVec ["a", "x", "y"] = .error e ↔
      ∃ pre c rest f, ["a", "x", "y"] = pre ++ c :: rest ∧
        scenario4.m_nodes.resolve (pre ++ [c]) = some (.file f) ∧
        e = .exception ("path is not a directory: " ++ join (pre ++ [c]))) ∧
    (∀ p' d, scenario4.mkpathVec ["a", "x", "y"] = .ok (p', d) →
      d.route = ["a", "x", "y"] ∧ (∃ nm sub, d.node = .dir nm sub) ∧
      p'.m_nodes.resolve ["a", "x", "y"] = some d.node ∧
      (∀ pre c rest, ["a", "x", "y"] = pre ++ c :: rest →
        (scenario4.m_nodes.resolve (pre ++ [c]) = none →
          p'.m_nodes.resolve (pre ++ [c]) = some (.dir c (freshChain rest))) ∧
        (∀ nm sub, scenario4.m_nodes.resolve (pre ++ [c]) = some (.dir nm sub) →
          ∃ sub', p'.m_nodes.resolve (pre ++ [c]) = some (.dir nm sub') ∧
            (rest = [] → sub' = sub))) ∧
      (∀ rt : List String, ¬ rt <+: ["a", "x", "y"] →
        p'.m_nodes.resolve rt = scenario4.m_nodes.resolve rt))) :=
  ⟨by simp, mkpath_fails_iff_file_on_path scenario4 ["a", "x", "y"] (by simp)⟩

/-! ## File records -/

/-- With 18 bytes at hand the six fixed fields of a record are read and the
call stands at the terminator check. -/
theorem File.read_eq_of_header (self : File) (r : Reader) (h18 : r.pos + 18 ≤ r.data.length) :
    self.read r =
      if le16At r.data (r.pos + 16) ≠ 0xFFFF then
        (.error (.fileFormatError "invalid terminator"), { r with pos := r.pos + 18 })
      else if le16At r.data (r.pos + 4) > 0 then
        match Reader.read { r with pos := r.pos + 18 } (le16At r.data (r.pos + 4)) with
        | (.error e, r') => (.error e, r')
        | (.ok data, r7) =>
          (.ok { self with crc32 := le32At r.data r.pos, index := le16At r.data (r.pos + 6),
                           offset := le32At r.data (r.pos + 8),
                           size := le32At r.data (r.pos + 12), data := data }, r7)
      else
        (.ok { self with crc32 := le32At r.data r.pos, index := le16At r.data (r.pos + 6),
                         offset := le32At r.data (r.pos + 8),
                         size := le32At r.data (r.pos + 12) }, { r with pos := r.pos + 18 }) := by
  have h1 : r.pos + 4 ≤ r.data.length := by omega
  have h2 : r.pos + 4 + 2 ≤ r.data.length := by omega
  have h3 : r.pos + 4 + 2 + 2 ≤ r.data.length := by omega
  have h4 : r.pos + 4 + 2 + 2 + 4 ≤ r.data.length := by omega
  have h5 : r.pos + 4 + 2 + 2 + 4 + 4 ≤ r.data.length := by omega
  have h6 : r.pos + 4 + 2 + 2 + 4 + 4 + 2 ≤ r.data.length := by omega
  simp only [File.read, Reader.readLU32, Reader.readLU16, h1, h2, h3, h4, h5, h6, if_true]

theorem le16At_le (data : Bytes) (i : Nat) : le16At data i ≤ 65535 := by
  unfold le16At
  omega

/-- C5: with at least 18 bytes at the read position, `File::read` on a new
file object (empty preload buffer) decodes crc32 (u32), preload length (u16),
archive index (u16), offset (u32), size (u32) and terminator (u16) in this
order; it fails with "invalid terminator" exactly when the terminator is not
0xFFFF, and then exactly the 18 bytes are consumed (no preload byte is read);
on success the preload buffer holds the next preload-length bytes, at most
65535 of them, and 18 + preload length bytes are consumed; it succeeds whenever
the terminator is right and the preload bytes are there. -/
theorem File.read_decodes_record (self : File) (r : Reader)
    (h18 : r.pos + 18 ≤ r.data.length) (hfresh : self.data = []) :
    ((self.read r).1 = .error (.fileFormatError "invalid terminator") ↔
      le16At r.data (r.pos + 16) ≠ 0xFFFF) ∧
    (le16At r.data (r.pos + 16) ≠ 0xFFFF →
      (self.read r).2 = { r with pos := r.pos + 18 }) ∧
    (∀ f, (self.read r).1 = .ok f →
      f = { name := self.name, crc32 := le32At r.data r.pos,
            data := ((r.data.drop (r.pos + 18)).take (le16At r.data (r.pos + 4))).map (· % 256),
            index := le16At r.data (r.pos + 6), offset := le32At r.data (r.pos + 8),
            size := le32At r.data (r.pos + 12) } ∧
      f.data.length = le16At r.data (r.pos + 4) ∧ f.data.length ≤ 65535 ∧
      (self.read r).2 = { r with pos := r.pos + 18 + le16At r.data (r.pos + 4) }) ∧
    (le16At r.data (r.pos + 16) = 0xFFFF →
      r.pos + 18 + le16At r.data (r.pos + 4) ≤ r.data.length →
      ∃ f, (self.read r).1 = .ok f) := by
  have hlen := le16At_le r.data (r.pos + 4)
  by_cases ht : le16At r.data (r.pos + 16) = 0xFFFF
  · by_cases hl : le16At r.data (r.pos + 4) > 0
    · by_cases hen : r.pos + 18 + le16At r.data (r.pos + 4) ≤ r.data.length
      · have hval : self.read r =
            (.ok { self with crc32 := le32At r.data r.pos, index := le16At r.data (r.pos + 6),
                             offset := le32At r.data (r.pos + 8),
                             size := le32At r.data (r.pos + 12),
                             data := ((r.data.drop (r.pos + 18)).take
                               (le16At r.data (r.pos + 4))).map (· % 256) },
              { r with pos := r.pos + 18 + le16At r.data (r.pos + 4) }) := by
          rw [File.read_eq_of_header self r h18]
          simp [ht, hl, Reader.read, hen]
        rw [hval]
        refine ⟨⟨(fun h => by cases h), fun h => absurd ht h⟩, fun h => absurd ht h, ?_,
          fun _ _ => ⟨_, rfl⟩⟩
        intro f hf
        simp only [Except.ok.injEq] at hf
        subst hf
        refine ⟨rfl, ?_, ?_, rfl⟩
        · simp only [List.length_map, List.length_take, List.length_drop]
          omega
        · simp only [List.length_map, List.length_take, List.length_drop]
          omega
      · have hval : ∃ e, self.read r = (.error (.ioFailure e), { r with pos := r.pos + 18 }) := by
          rw [File.read_eq_of_header self r h18]
          exact ⟨"short read", by simp [ht, hl, Reader.read, hen]⟩
        obtain ⟨e, hval⟩ := hval
        rw [hval]
        refine ⟨⟨(fun h => by cases h), fun h => absurd ht h⟩, fun h => absurd ht h, ?_,
          fun _ h => absurd h hen⟩
        intro f hf
        cases hf
    · have hz : le16At r.data (r.pos + 4) = 0 := by omega
      have hval : self.read r =
          (.ok { self with crc32 := le32At r.data r.pos, index := le16At r.data (r.pos + 6),
                           offset := le32At r.data (r.pos + 8),
                           size := le32At r.data (r.pos + 12) },
            { r with pos := r.pos + 18 }) := by
        rw [File.read_eq_of_header self r h18]
        simp [ht, hz]
      rw [hval]
      refine ⟨⟨(fun h => by cases h), fun h => absurd ht h⟩, fun h => absurd ht h, ?_,
        fun _ _ => ⟨_, rfl⟩⟩
      intro f hf
      simp only [Except.ok.injEq] at hf
      subst hf
      rw [hz]
      exact ⟨by simp [hfresh], by simp [hfresh], by simp [hfresh], rfl⟩
  · have hval : self.read r =
        (.error (.fileFormatError "invalid terminator"), { r with pos := r.pos + 18 }) := by
      rw [File.read_eq_of_header self r h18]
      simp [ht]
    rw [hval]
    refine ⟨⟨fun _ => ht, fun _ => rfl⟩, fun _ => rfl, ?_, fun h => absurd h ht⟩
    intro f hf
    cases hf

theorem File.read_decodes_record_witness :
    (0 + 18 ≤ [0x78, 0x56, 0x34, 0x12, 3, 0, 0xFF, 0x7F, 0, 0, 0, 0, 0, 0, 0, 0, 0xFF, 0xFF,
        97, 98, 99, 0, 0].length) ∧
    (∃ f, (File.read ⟨"a.txt", 0, [], 0, 0, 0⟩
        ⟨[0x78, 0x56, 0x34, 0x12, 3, 0, 0xFF, 0x7F, 0, 0, 0, 0, 0, 0, 0, 0, 0xFF, 0xFF,
          97, 98, 99, 0, 0], 0, true⟩).1 = .ok f) :=
  ⟨by decide,
    (File.read_decodes_record ⟨"a.txt", 0, [], 0, 0, 0⟩
      ⟨[0x78, 0x56, 0x34, 0x12, 3, 0, 0xFF, 0x7F, 0, 0, 0, 0, 0, 0, 0, 0, 0xFF, 0xFF,
        97, 98, 99, 0, 0], 0, true⟩ (by decide) rfl).2.2.2 (by decide) (by decide)⟩

/-- C6 (as stated, refuted): a successful parse yields a file node with
size 0 and archive index 0, so size == 0 does not imply index == 0x7FFF. -/
theorem parse_keeps_zero_size_with_index_zero :
    ¬ (∀ (bytes : Bytes) (p : Package) (r : Reader) (route : List String) (f : File),
        Package.read emptyPackage ⟨bytes, 0, true⟩ = some (.ok (p, r)) →
        p.m_nodes.resolve route = some (.file f) →
        (f.size = 0 ↔ f.index = 0x7FFF)) := by
  intro h
  have hparse : Package.read emptyPackage ⟨zeroSizeRecord, 0, true⟩ =
      some (.ok (⟨"src", "pkg",
        Nodes.dir "d" "d" (.file "a.txt" ⟨"a.txt", 0x12345678, [97, 98, 99], 0, 0, 0⟩ .nil) .nil⟩,
        ⟨zeroSizeRecord, 44, true⟩)) := by decide
  have := h zeroSizeRecord _ _ ["d", "a.txt"] ⟨"a.txt", 0x12345678, [97, 98, 99], 0, 0, 0⟩
    hparse (by decide)
  simp at this

/-- C6 (amended): `File::read` stores the size and the archive index of a
record as they are, without relating them: the file has size 0 exactly when the
record has, index 0x7FFF exactly when the record has, and so
size == 0 ⇔ index == 0x7FFF holds for the file exactly when it holds for the
fields of the record. -/
theorem File.read_keeps_size_and_index (self : File) (r : Reader)
    (h18 : r.pos + 18 ≤ r.data.length)
    (hterm : le16At r.data (r.pos + 16) = 0xFFFF)
    (hpre : r.pos + 18 + le16At r.data (r.pos + 4) ≤ r.data.length) :
    ∃ f, (self.read r).1 = .ok f ∧
      f.size = le32At r.data (r.pos + 12) ∧ f.index = le16At r.data (r.pos + 6) ∧
      ((f.size = 0 ↔ f.index = 0x7FFF) ↔
        (le32At r.data (r.pos + 12) = 0 ↔ le16At r.data (r.pos + 6) = 0x7FFF)) := by
  rw [File.read_eq_of_header self r h18]
  by_cases hl : le16At r.data (r.pos + 4) > 0
  · simp only [hterm, ne_eq, not_true_eq_false, if_false, hl, if_true, Reader.read, hpre]
    exact ⟨_, rfl, rfl, rfl, Iff.rfl⟩
  · simp only [hterm, ne_eq, not_true_eq_false, if_false, hl]
    exact ⟨_, rfl, rfl, rfl, Iff.rfl⟩

theorem File.read_keeps_size_and_index_witness :
    (20 + 18 ≤ zeroSizeRecord.length) ∧ le16At zeroSizeRecord (20 + 16) = 0xFFFF ∧
    (20 + 18 + le16At zeroSizeRecord (20 + 4) ≤ zeroSizeRecord.length) ∧
    ∃ f, (File.read ⟨"a.txt", 0, [], 0, 0, 0⟩ ⟨zeroSizeRecord, 20, true⟩).1 = .ok f ∧
      f.size = le32At zeroSizeRecord (20 + 12) ∧ f.index = le16At zeroSizeRecord (20 + 6) ∧
      ((f.size = 0 ↔ f.index = 0x7FFF) ↔
        (le32At zeroSizeRecord (20 + 12) = 0 ↔ le16At zeroSizeRecord (20 + 6) = 0x7FFF)) :=
  ⟨by decide, by decide, by decide,
    File.read_keeps_size_and_index ⟨"a.txt", 0, [], 0, 0, 0⟩ ⟨zeroSizeRecord, 20, true⟩
      (by decide) (by decide) (by decide)⟩

/-! ## The directory body -/

/-- C7 (as stated, refuted): parsing scenario 1 (type `txt`, subpath `" "`,
name `a`) creates a directory named `" "` under the root and puts the file in
it: the file is found at `" /a.txt"`, and nothing is found at `a.txt`. The
same tree results when the stream ends with the empty type name that closes
the list of types. -/
theorem scenario1_creates_space_directory :
    (∃ p r, Package.read emptyPackage ⟨scenario1, 0, true⟩ = some (.ok (p, r)) ∧
      p.m_nodes = .dir " " " "
        (.file "a.txt" ⟨"a.txt", 0x12345678, [97, 98, 99], 0x7FFF, 0, 0⟩ .nil) .nil ∧
      p.get "a.txt" = none ∧
      p.get " /a.txt" = some ⟨[" ", "a.txt"],
        .file ⟨"a.txt", 0x12345678, [97, 98, 99], 0x7FFF, 0, 0⟩⟩) ∧
    Package.read emptyPackage ⟨scenario1 ++ [0], 0, true⟩ =
      some (.ok (⟨"src", "pkg", .dir " " " "
          (.file "a.txt" ⟨"a.txt", 0x12345678, [97, 98, 99], 0x7FFF, 0, 0⟩ .nil) .nil⟩,
        ⟨scenario1 ++ [0], 44, true⟩)) :=
  ⟨⟨⟨"src", "pkg", .dir " " " "
      (.file "a.txt" ⟨"a.txt", 0x12345678, [97, 98, 99], 0x7FFF, 0, 0⟩ .nil) .nil⟩,
    ⟨scenario1, 43, false⟩, by decide, rfl, by decide, by decide⟩, by decide⟩

/-- What `mkpath(" ")` does: the one component `" "` is looked up in the root
map like any other name. -/
theorem Package.mkpath_space (p : Package) :
    p.mkpath " " =
      match p.m_nodes.find " " with
      | none =>
        .ok ({ p with m_nodes := p.m_nodes.insert " " (.dir " " .nil) },
              ⟨[" "], .dir " " .nil⟩)
      | some (.file _) => .error (.exception "path is not a directory:  ")
      | some (.dir nm sub) =>
        .ok ({ p with m_nodes := p.m_nodes.setChildren " " sub }, ⟨[" "], .dir nm sub⟩) := by
  have hs : split " " = [" "] := by decide
  unfold Package.mkpath Package.mkpathVec
  rw [hs]
  simp only [List.isEmpty_cons, Bool.false_eq_true, if_false, mkpathLoop, List.nil_append]
  cases hf : p.m_nodes.find " " with
  | none => rfl
  | some n =>
    cases n with
    | file f =>
      simp only
      have hj : join [" "] = " " := by decide
      rw [hj]
      rfl
    | dir nm sub => rfl

/-- C7 (amended): when the loop over the subpaths of a type section reads the
subpath `" "`, it is passed to `mkpath` like any other subpath. If the root
holds a file under `" "` the parse fails; otherwise the root holds a directory
under `" "` afterwards (a new one named `" "` if there was none), and the
records that follow are read into that directory. -/
theorem Package.readDirs_space_subpath (fuel : Nat) (p : Package) (type : String) (r : Reader)
    (hgood : r.good = true) (hsp : r.readAsciiZ.1 = " ") :
    (∀ f, p.m_nodes.find " " = some (.file f) →
      Package.readDirs (fuel + 1) p type r =
        some (.error (.exception "path is not a directory:  "))) ∧
    ((∀ f, p.m_nodes.find " " ≠ some (.file f)) →
      ∃ p1 d nm sub, p.mkpath " " = .ok (p1, d) ∧ d = ⟨[" "], .dir nm sub⟩ ∧
        p1.m_nodes.find " " = some (.dir nm sub) ∧
        (p.m_nodes.find " " = none → nm = " " ∧ sub = .nil) ∧
        Package.readDirs (fuel + 1) p type r =
          match Dir.read fuel sub type r.readAsciiZ.2 with
          | none => none
          | some (.error e) => some (.error e)
          | some (.ok (children, r2)) =>
            Package.readDirs fuel
              { p1 with m_nodes := p1.m_nodes.setChildrenAt [" "] children } type r2) := by
  have hne : (" " : String) ≠ "" := by decide
  constructor
  · intro f hf
    simp only [Package.readDirs, hgood, if_true, hsp, hne, if_false, Package.mkpath_space, hf]
  · intro hnf
    cases hf : p.m_nodes.find " " with
    | none =>
      refine ⟨_, _, " ", .nil, by rw [Package.mkpath_space, hf], rfl,
        Nodes.find_insert_self _ _ _ hf, fun _ => ⟨rfl, rfl⟩, ?_⟩
      simp only [Package.readDirs, hgood, if_true, hsp, hne, if_false, Package.mkpath_space, hf,
        Node.nodes]
    | some n =>
      cases n with
      | file f => exact absurd hf (hnf f)
      | dir nm sub =>
        refine ⟨_, _, nm, sub, by rw [Package.mkpath_space, hf], rfl,
          Nodes.find_setChildren_self _ _ _ _ _ hf, (fun h => by cases h), ?_⟩
        simp only [Package.readDirs, hgood, if_true, hsp, hne, if_false, Package.mkpath_space,
          hf, Node.nodes]

theorem Package.readDirs_space_subpath_witness :
    (Reader.mk scenario1 16 true).good = true ∧
    (Reader.mk scenario1 16 true).readAsciiZ.1 = " " ∧
    (∀ f, emptyPackage.m_nodes.find " " ≠ some (.file f)) ∧
    ∃ p1 d nm sub, emptyPackage.mkpath " " = .ok (p1, d) ∧ d = ⟨[" "], .dir nm sub⟩ ∧
      p1.m_nodes.find " " = some (.dir nm sub) ∧
      (emptyPackage.m_nodes.find " " = none → nm = " " ∧ sub = .nil) ∧
      Package.readDirs (30 + 1) emptyPackage "txt" (Reader.mk scenario1 16 true) =
        match Dir.read 30 sub "txt" (Reader.mk scenario1 16 true).readAsciiZ.2 with
        | none => none
        | some (.error e) => some (.error e)
        | some (.ok (children, r2)) =>
          Package.readDirs 30
            { p1 with m_nodes := p1.m_nodes.setChildrenAt [" "] children } "txt" r2 :=
  ⟨rfl, by decide, (fun f h => by cases h),
    (Package.readDirs_space_subpath 30 emptyPackage "txt" (Reader.mk scenario1 16 true)
      rfl (by decide)).2 (fun f h => by cases h)⟩

/-! ## The header -/

theorem Reader.readLU32_error {r r' : Reader} {e : Error}
    (h : r.readLU32 = (.error e, r')) : e.fromBody := by
  unfold Reader.readLU32 at h
  split at h
  · cases h
  · cases h; trivial

theorem Reader.readLU16_error {r r' : Reader} {e : Error}
    (h : r.readLU16 = (.error e, r')) : e.fromBody := by
  unfold Reader.readLU16 at h
  split at h
  · cases h
  · cases h; trivial

theorem Reader.readBytes_error {r r' : Reader} {n : Nat} {e : Error}
    (h : r.read n = (.error e, r')) : e.fromBody := by
  unfold Reader.read at h
  split at h
  · cases h
  · cases h; trivial

theorem File.readRecord_error {self : File} {r r' : Reader} {e : Error}
    (h : self.read r = (.error e, r')) : e.fromBody := by
  unfold File.read at h
  split at h
  · rename_i h1; cases h; exact Reader.readLU32_error h1
  · split at h
    · rename_i h1; cases h; exact Reader.readLU16_error h1
    · split at h
      · rename_i h1; cases h; exact Reader.readLU16_error h1
      · split at h
        · rename_i h1; cases h; exact Reader.readLU32_error h1
        · split at h
          · rename_i h1; cases h; exact Reader.readLU32_error h1
          · split at h
            · rename_i h1; cases h; exact Reader.readLU16_error h1
            · split at h
              · cases h; rfl
              · split at h
                · split at h
                  · rename_i h1; cases h; exact Reader.readBytes_error h1
                  · cases h
                · cases h

theorem Dir.readNames_error (fuel : Nat) : ∀ (nodes : Nodes) (type : String) (r : Reader) (e : Error),
    Dir.read fuel nodes type r = some (.error e) → e.fromBody := by
  induction fuel with
  | zero => intro nodes type r e h; simp [Dir.read] at h
  | succ n ih =>
    intro nodes type r e h
    unfold Dir.read at h
    simp only at h
    split at h
    · cases h
    · split at h
      · rename_i h1
        simp only [Option.some.injEq, Except.error.injEq] at h
        subst h
        exact File.readRecord_error h1
      · exact ih _ _ _ _ h

theorem Package.mkpath_error {p : Package} {path : String} {e : Error}
    (h : p.mkpath path = .error e) : e.fromBody := by
  unfold Package.mkpath Package.mkpathVec at h
  split at h
  · cases h; trivial
  · split at h
    · rename_i e' hm
      cases h
      obtain ⟨_, _, _, _, _, _, he⟩ := (mkpathLoop_error_iff _ _ _ _ _).mp hm
      subst he
      trivial
    · cases h
    · cases h; trivial

theorem Package.readDirs_error (fuel : Nat) : ∀ (p : Package) (type : String) (r : Reader)
    (e : Error), Package.readDirs fuel p type r = some (.error e) → e.fromBody := by
  induction fuel with
  | zero => intro p type r e h; simp [Package.readDirs] at h
  | succ n ih =>
    intro p type r e h
    unfold Package.readDirs at h
    simp only at h
    split at h
    · split at h
      · cases h
      · split at h
        · rename_i h1
          simp only [Option.some.injEq, Except.error.injEq] at h
          subst h
          exact Package.mkpath_error h1
        · split at h
          · cases h
          · rename_i h1
            simp only [Option.some.injEq, Except.error.injEq] at h
            subst h
            exact Dir.readNames_error _ _ _ _ _ h1
          · exact ih _ _ _ _ h
    · cases h

theorem Package.readTypes_error (fuel : Nat) : ∀ (p : Package) (r : Reader) (e : Error),
    Package.readTypes fuel p r = some (.error e) → e.fromBody := by
  induction fuel with
  | zero => intro p r e h; simp [Package.readTypes] at h
  | succ n ih =>
    intro p r e h
    unfold Package.readTypes at h
    simp only at h
    split at h
    · split at h
      · cases h
      · split at h
        · cases h
        · rename_i h1
          simp only [Option.some.injEq, Except.error.injEq] at h
          subst h
          exact Package.readDirs_error _ _ _ _ _ h1
        · exact ih _ _ _ h
    · cases h

theorem versionError_not_fromBody (n : Nat) : ¬ (versionError n).fromBody := by
  unfold versionError Error.fromBody
  simp only
  intro h
  have h2 := congrArg String.data h
  rw [String.data_append] at h2
  have h3 : ("unexpected vpk version ".data ++ (toString n).data).head? = some 'u' := rfl
  rw [h2] at h3
  revert h3
  decide

/-- C8: for a stream with at least 12 bytes at the read position, `read` fails
with "unexpected vpk version N" if and only if the first four bytes are the
magic 0x55AA1234 and the next u32 `N` is not 1. Without the magic the body is
parsed from the first byte on (the four bytes are not consumed); with the magic
and version 1 the body is parsed from byte 12 on. -/
theorem Package.read_header (p : Package) (is : Reader) (h12 : is.pos + 12 ≤ is.data.length) :
    ((le32At is.data is.pos = 0x55AA1234 ∧ le32At is.data (is.pos + 4) ≠ 1) →
      p.read is = some (.error (versionError (le32At is.data (is.pos + 4))))) ∧
    (¬ (le32At is.data is.pos = 0x55AA1234 ∧ le32At is.data (is.pos + 4) ≠ 1) →
      ∀ n, p.read is ≠ some (.error (versionError n))) ∧
    (le32At is.data is.pos ≠ 0x55AA1234 →
      p.read is = Package.readTypes (is.data.length + 1) p is) ∧
    ((le32At is.data is.pos = 0x55AA1234 ∧ le32At is.data (is.pos + 4) = 1) →
      p.read is = Package.readTypes (is.data.length + 1) p { is with pos := is.pos + 12 }) := by
  have h1 : is.pos + 4 ≤ is.data.length := by omega
  have h2 : is.pos + 4 + 4 ≤ is.data.length := by omega
  have h3 : is.pos + 4 + 4 + 4 ≤ is.data.length := by omega
  have hnomagic : le32At is.data is.pos ≠ 0x55AA1234 →
      p.read is = Package.readTypes (is.data.length + 1) p is := by
    intro hm
    simp only [Package.read, Reader.readLU32, h1, if_true, ne_eq, hm, not_false_eq_true,
      Nat.add_sub_cancel]
  have hv1 : (le32At is.data is.pos = 0x55AA1234 ∧ le32At is.data (is.pos + 4) = 1) →
      p.read is = Package.readTypes (is.data.length + 1) p { is with pos := is.pos + 12 } := by
    rintro ⟨hm, hv⟩
    simp only [Package.read, Reader.readLU32, h1, h2, h3, if_true, ne_eq, hm, hv,
      not_true_eq_false, if_false]
  refine ⟨?_, ?_, hnomagic, hv1⟩
  · rintro ⟨hm, hv⟩
    simp only [Package.read, Reader.readLU32, h1, h2, h3, if_true, ne_eq, hm, hv,
      not_true_eq_false, if_false, not_false_eq_true, versionError]
  · intro hno n hread
    by_cases hm : le32At is.data is.pos = 0x55AA1234
    · have hv : le32At is.data (is.pos + 4) = 1 := by
        by_contra hv
        exact hno ⟨hm, hv⟩
      rw [hv1 ⟨hm, hv⟩] at hread
      exact versionError_not_fromBody n (Package.readTypes_error _ _ _ _ hread)
    · rw [hnomagic hm] at hread
      exact versionError_not_fromBody n (Package.readTypes_error _ _ _ _ hread)

theorem Package.read_header_witness :
    ((Reader.mk scenario1 0 true).pos + 12 ≤ (Reader.mk scenario1 0 true).data.length) ∧
    (le32At scenario1 0 = 0x55AA1234 ∧ le32At scenario1 (0 + 4) = 1) ∧
    emptyPackage.read (Reader.mk scenario1 0 true) =
      Package.readTypes (scenario1.length + 1) emptyPackage (Reader.mk scenario1 (0 + 12) true) :=
  ⟨by decide, by decide,
    (Package.read_header emptyPackage (Reader.mk scenario1 0 true) (by decide)).2.2.2
      (by decide)⟩

/-! ## The walk -/

/-- C9: the walk over a package whose only entry has no bulk part (`d/a.txt`,
preload `abc`, size 0), with a handler installed and nothing failing, calls
`extract`, `create`, `process` and `finish` for the entry and ends without an
exception, but never calls `success("d/a.txt")`. -/
theorem preload_only_entry_gets_no_success :
    (Package.process (quietWorld []) preloadOnly).trace =
      [.begin 1, .extract "d/a.txt", .create "d/a.txt" 0x352441C2,
       .process "d/a.txt" [97, 98, 99], .finish "d/a.txt", .end_] ∧
    (Package.process (quietWorld []) preloadOnly).thrown = none ∧
    Event.success "d/a.txt" ∉ (Package.process (quietWorld []) preloadOnly).trace := by
  decide

/-- Scenarios 2 and 3: the split entry `d/s.bin` gets its bulk bytes `TAIL!`
and then its preload `HEAD` in a second handler, and `success`; the missing
archive 3 is reported once, and its two entries get neither `process`,
`finish`, `success` nor `fileerror`. -/
theorem scenario23_walk :
    Package.process (quietWorld archive000) scenario23 =
    ⟨[.begin 3, .extract "d/s.bin", .create "d/s.bin" 7, .fsExists "src/pkg_000.vpk",
      .archOpen "src/pkg_000.vpk", .archSeekg "src/pkg_000.vpk" 10,
      .archRead "src/pkg_000.vpk" 5, .process "d/s.bin" [84, 65, 73, 76, 33],
      .finish "d/s.bin", .create "d/s.bin.smalldata" 7,
      .process "d/s.bin.smalldata" [72, 69, 65, 68], .finish "d/s.bin.smalldata",
      .success "d/s.bin",
      .extract "d/t.bin", .create "d/t.bin" 8, .fsExists "src/pkg_003.vpk",
      .archiveerror "archive does not exist: \"src/pkg_003.vpk\"" "src/pkg_003.vpk",
      .extract "d/u.bin", .create "d/u.bin" 9, .end_],
     [("pkg_003.vpk", false), ("pkg_000.vpk", true)], none⟩ := by
  decide

theorem Extends.refl (Q : Event → Prop) (w : Walk) : Extends Q w w :=
  ⟨rfl, [], by simp, by simp⟩

theorem Extends.trans {Q : Event → Prop} {a b c : Walk} (h1 : Extends Q a b)
    (h2 : Extends Q b c) : Extends Q a c := by
  obtain ⟨ha, e1, ht1, hq1⟩ := h1
  obtain ⟨hb, e2, ht2, hq2⟩ := h2
  refine ⟨hb.trans ha, e1 ++ e2, by rw [ht2, ht1, List.append_assoc], ?_⟩
  intro e he
  rcases List.mem_append.mp he with h | h
  · exact hq1 e h
  · exact hq2 e h

theorem Extends.log {Q : Event → Prop} (w : Walk) {e : Event} (h : Q e) :
    Extends Q w (w.log e) :=
  ⟨rfl, [e], rfl, by simpa using h⟩

theorem Extends.throw {Q : Event → Prop} {a b : Walk} (h : Extends Q a b) (what : String) :
    Extends Q a (b.throw what) := h

theorem Extends.fileerror {Q : Event → Prop} (W : World) (w : Walk) (what path : String)
    (h : Q (.fileerror what path)) : Extends Q w (Package.fileerror W w what path).2 := by
  unfold Package.fileerror
  split
  · exact Extends.log w h
  · exact Extends.refl Q w

theorem Extends.archiveerror {Q : Event → Prop} (W : World) (w : Walk) (what path : String)
    (h : Q (.archiveerror what path)) : Extends Q w (Package.archiveerror W w what path).2 := by
  unfold Package.archiveerror
  split
  · exact Extends.log w h
  · exact Extends.refl Q w

theorem Extends.onFileError {Q : Event → Prop} (W : World) (w : Walk) (what path : String)
    (h : Q (.fileerror what path)) : Extends Q w (Package.onFileError W w what path) := by
  unfold Package.onFileError
  simp only
  split
  · exact (Extends.fileerror W w what path h).throw what
  · exact Extends.fileerror W w what path h

/-- The loop over the chunks leaves the map `archives` alone and reports
archive errors only for the archive it reads. -/
theorem readLoop_extends (W : World) (path archivePath : String) (fuel : Nat) :
    ∀ (left pos : Nat) (w : Walk),
      Extends (Event.archPathOk (· = archivePath)) w
        (readLoop W path archivePath fuel left pos w).1 := by
  induction fuel with
  | zero => intro left pos w; exact Extends.refl _ w
  | succ n ih =>
    intro left pos w
    have h1 : Extends (Event.archPathOk (· = archivePath)) w
        (w.log (.archRead archivePath (min left W.BUFSIZ))) := Extends.log w trivial
    unfold readLoop
    split
    · dsimp only
      split
      · rename_i what _
        have h2 := Extends.archiveerror (Q := Event.archPathOk (· = archivePath)) W
          (w.log (.archRead archivePath (min left W.BUFSIZ))) what archivePath rfl
        split
        · exact (h1.trans h2).throw _
        · exact h1.trans h2
      · split
        · refine (h1.trans (Extends.log _ ?_)).trans (Extends.onFileError W _ _ _ trivial)
          exact trivial
        · refine (h1.trans (Extends.log _ ?_)).trans (ih _ _ _)
          exact trivial
    · exact Extends.refl _ w

theorem Extends.mono {Q Q' : Event → Prop} {a b : Walk} (h : Extends Q a b)
    (hq : ∀ e, Q e → Q' e) : Extends Q' a b := by
  obtain ⟨ha, evs, ht, hall⟩ := h
  exact ⟨ha, evs, ht, fun e he => hq e (hall e he)⟩

theorem smalldata_extends (W : World) (ok : String → Prop) (file : File) (path : String)
    (w : Walk) : Extends (Event.archPathOk ok) w (Package.smalldata W file path w) := by
  have h1 : Extends (Event.archPathOk ok) w
      (w.log (.create (path ++ ".smalldata") file.crc32)) := Extends.log w trivial
  unfold Package.smalldata
  dsimp only
  split
  · exact h1.trans (Extends.onFileError W _ _ _ trivial)
  · have h2 := h1.trans (Extends.log (Q := Event.archPathOk ok) _
      (e := .process (path ++ ".smalldata") file.data) trivial)
    split
    · exact h2.trans (Extends.onFileError W _ _ _ trivial)
    · have h3 := h2.trans (Extends.log (Q := Event.archPathOk ok) _
        (e := .finish (path ++ ".smalldata")) trivial)
      split
      · exact h3.trans (Extends.onFileError W _ _ _ trivial)
      · split
        · refine h3.trans (Extends.log _ ?_)
          exact trivial
        · exact h3

theorem stream_extends (W : World) (file : File) (path archivePath : String) (w : Walk) :
    Extends (Event.archPathOk (· = archivePath)) w
      (Package.stream W file path archivePath w) := by
  have h1 : Extends (Event.archPathOk (· = archivePath)) w
      (w.log (.archSeekg archivePath file.offset)) := Extends.log w trivial
  unfold Package.stream
  dsimp only
  split
  · exact h1.throw _
  · have h2 := h1.trans
      (readLoop_extends W path archivePath file.size file.size file.offset
        (w.log (.archSeekg archivePath file.offset)))
    split
    · exact h2
    · split
      · exact h2
      · have h3 := h2.trans (Extends.log (Q := Event.archPathOk (· = archivePath)) _
          (e := .finish path) trivial)
        split
        · exact h3.trans (Extends.onFileError W _ _ _ trivial)
        · split
          · exact h3.trans (smalldata_extends W _ file path _)
          · split
            · refine h3.trans (Extends.log _ ?_)
              exact trivial
            · exact h3

/-- What the block of one entry does to the walk, with a handler installed and
a fixed set `ex` of existing archive files: either the map `archives` is
unchanged and archive errors are reported only for existing archives, or an
existing archive is opened and entered into the map, or a missing archive is
found, reported once and entered into the map as null. -/
theorem processFile_shape (W : World) (p : Package) (ex : String → Bool) (f : File)
    (path : String) (w : Walk) (hh : W.handler = true)
    (hex : ∀ t a, W.fsExists t a = ex a) (hs : CacheSound ex p w) :
    Extends (Event.archPathOk (fun q => ex q = true)) w (p.processFile W f path w) ∨
    (w.archives.lookup (p.archiveName f.index) = none ∧
      ex (p.archivePath (p.archiveName f.index)) = true ∧
      (p.processFile W f path w).archives = (p.archiveName f.index, true) :: w.archives ∧
      ∃ evs, (p.processFile W f path w).trace = w.trace ++ evs ∧
        ∀ e ∈ evs, Event.archPathOk (fun q => ex q = true) e) ∨
    (f.size ≠ 0 ∧ w.archives.lookup (p.archiveName f.index) = none ∧
      ex (p.archivePath (p.archiveName f.index)) = false ∧
      p.processFile W f path w =
        { trace := w.trace ++ [.extract path, .create path f.crc32,
            .fsExists (p.archivePath (p.archiveName f.index)),
            .archiveerror (missingWhat (p.archivePath (p.archiveName f.index)))
              (p.archivePath (p.archiveName f.index))],
          archives := (p.archiveName f.index, false) :: w.archives,
          thrown := w.thrown }) := by
  have h0 : Extends (Event.archPathOk (fun q => ex q = true)) w (w.log (.extract path)) :=
    Extends.log w trivial
  have h1 : Extends (Event.archPathOk (fun q => ex q = true)) w
      ((w.log (.extract path)).log (.create path f.crc32)) :=
    h0.trans (Extends.log _ trivial)
  unfold Package.processFile
  simp only [hh, if_true]
  split
  · exact Or.inl (h1.trans (Extends.onFileError W _ _ _ trivial))
  · split
    · have h2 := h1.trans (Extends.log (Q := Event.archPathOk (fun q => ex q = true)) _
        (e := .process path f.data) trivial)
      split
      · exact Or.inl (h2.trans (Extends.onFileError W _ _ _ trivial))
      · have h3 := h2.trans (Extends.log (Q := Event.archPathOk (fun q => ex q = true)) _
          (e := .finish path) trivial)
        split
        · exact Or.inl (h3.trans (Extends.onFileError W _ _ _ trivial))
        · exact Or.inl h3
    · rename_i hsize
      split
      · exact Or.inl h1
      · rename_i hl
        have hexp : ex (p.archivePath (p.archiveName f.index)) = true := hs _ hl
        refine Or.inl (h1.trans ((stream_extends W f path _ _).mono ?_))
        intro e he
        cases e <;> first | trivial | (simp only [Event.archPathOk] at he ⊢; rw [he]; exact hexp)
      · rename_i hl
        have hl' : w.archives.lookup (p.archiveName f.index) = none := hl
        rw [hex]
        by_cases hx : ex (p.archivePath (p.archiveName f.index)) = true
        · rw [if_pos hx]
          have h2 := h1.trans (Extends.log (Q := Event.archPathOk (fun q => ex q = true)) _
            (e := .fsExists (p.archivePath (p.archiveName f.index))) trivial)
          have h3 := h2.trans (Extends.log (Q := Event.archPathOk (fun q => ex q = true)) _
            (e := .archOpen (p.archivePath (p.archiveName f.index))) trivial)
          split
          · exact Or.inl (h3.throw _)
          · refine Or.inr (Or.inl ⟨hl', hx, ?_, ?_⟩)
            · rw [(stream_extends W f path _ _).1]
              rfl
            · obtain ⟨_, evs3, ht3, hq3⟩ := h3
              obtain ⟨_, evs4, ht4, hq4⟩ := stream_extends W f path
                (p.archivePath (p.archiveName f.index))
                { (((w.log (.extract path)).log (.create path f.crc32)).log
                    (.fsExists (p.archivePath (p.archiveName f.index)))).log
                    (.archOpen (p.archivePath (p.archiveName f.index))) with
                  archives := (p.archiveName f.index, true) ::
                    ((((w.log (.extract path)).log (.create path f.crc32)).log
                    (.fsExists (p.archivePath (p.archiveName f.index)))).log
                    (.archOpen (p.archivePath (p.archiveName f.index)))).archives }
              refine ⟨evs3 ++ evs4, ?_, ?_⟩
              · rw [ht4]
                simp only
                rw [ht3, List.append_assoc]
              · intro e he
                rcases List.mem_append.mp he with h | h
                · exact hq3 e h
                · have := hq4 e h
                  cases e <;> first | trivial | (simp only [Event.archPathOk] at this ⊢; rw [this]; exact hx)
        · have hx' : ex (p.archivePath (p.archiveName f.index)) = false := by
            simpa using hx
          rw [if_neg hx]
          refine Or.inr (Or.inr ⟨hsize, hl', hx', ?_⟩)
          simp [Package.archiveerror, hh, Walk.log]

theorem String.append_left_cancel {s a b : String} (h : s ++ a = s ++ b) : a = b := by
  have h2 := congrArg String.data h
  simp only [String.data_append] at h2
  exact String.ext (List.append_cancel_left h2)

theorem Package.archivePath_injective (p : Package) {a b : String}
    (h : p.archivePath a = p.archivePath b) : a = b := by
  unfold Package.archivePath at h
  split at h
  · exact h
  · split at h
    · exact String.append_left_cancel h
    · exact String.append_left_cancel h

theorem missingCount_append_of_ok (ex : String → Bool) (A : String) (hA : ex A = false)
    (t evs : List Event) (h : ∀ e ∈ evs, Event.archPathOk (fun q => ex q = true) e) :
    missingCount A (t ++ evs) = missingCount A t := by
  unfold missingCount
  rw [List.count_append]
  have : List.count (Event.archiveerror (missingWhat A) A) evs = 0 := by
    rw [List.count_eq_zero]
    intro hmem
    have := h _ hmem
    simp only [Event.archPathOk] at this
    rw [hA] at this
    cases this
  omega

theorem lookup_cons_ne {n k : String} {b : Bool} {l : List (String × Bool)} (h : n ≠ k) :
    List.lookup n ((k, b) :: l) = List.lookup n l := by
  rw [List.lookup_cons]
  have : (n == k) = false := by simpa using h
  rw [this]

theorem lookup_cons_self {k : String} {b : Bool} {l : List (String × Bool)} :
    List.lookup k ((k, b) :: l) = some b := by
  rw [List.lookup_cons]
  have : (k == k) = true := by simp
  rw [this]

/-- The block of one entry keeps the map `archives` sound and keeps, for a
missing archive `n`, the link between its entry in the map and the number of
times it was reported. -/
theorem processFile_invariant (W : World) (p : Package) (ex : String → Bool) (f : File)
    (path : String) (w : Walk) (hh : W.handler = true)
    (hex : ∀ t a, W.fsExists t a = ex a) (n : String) (hn : ex (p.archivePath n) = false)
    (hs : CacheSound ex p w) (hr : ReportedOnce p n w) :
    CacheSound ex p (p.processFile W f path w) ∧
    ReportedOnce p n (p.processFile W f path w) ∧
    (w.archives.lookup n = some false →
      (p.processFile W f path w).archives.lookup n = some false) := by
  rcases processFile_shape W p ex f path w hh hex hs with h | h | h
  · obtain ⟨ha, evs, ht, hq⟩ := h
    refine ⟨?_, ?_, ?_⟩
    · intro name hl
      rw [ha] at hl
      exact hs name hl
    · unfold ReportedOnce
      rw [ha, ht, missingCount_append_of_ok ex _ hn _ _ hq]
      exact hr
    · rw [ha]
      exact id
  · obtain ⟨hl, hx, ha, evs, ht, hq⟩ := h
    have hne : n ≠ p.archiveName f.index := by
      rintro rfl
      rw [hn] at hx
      cases hx
    refine ⟨?_, ?_, ?_⟩
    · intro name hlk
      rw [ha] at hlk
      by_cases hk : name = p.archiveName f.index
      · rw [hk]; exact hx
      · rw [lookup_cons_ne hk] at hlk
        exact hs name hlk
    · unfold ReportedOnce
      rw [ha, ht, missingCount_append_of_ok ex _ hn _ _ hq, lookup_cons_ne hne]
      exact hr
    · rw [ha, lookup_cons_ne hne]
      exact id
  · obtain ⟨_, hl, hx, hw⟩ := h
    rw [hw]
    refine ⟨?_, ?_, ?_⟩
    · intro name hlk
      simp only at hlk
      by_cases hk : name = p.archiveName f.index
      · rw [hk, lookup_cons_self] at hlk
        cases hlk
      · rw [lookup_cons_ne hk] at hlk
        exact hs name hlk
    · unfold ReportedOnce
      simp only
      by_cases hk : n = p.archiveName f.index
      · subst hk
        rcases hr with ⟨_, hc⟩ | ⟨hl2, _⟩
        · right
          refine ⟨lookup_cons_self, ?_⟩
          unfold missingCount at hc ⊢
          rw [List.count_append, hc]
          simp [List.count_cons]
        · rw [hl] at hl2
          cases hl2
      · rw [lookup_cons_ne hk]
        have hpne : p.archivePath (p.archiveName f.index) ≠ p.archivePath n :=
          fun hh2 => hk (p.archivePath_injective hh2).symm
        have hcount : missingCount (p.archivePath n)
            (w.trace ++ [.extract path, .create path f.crc32,
              .fsExists (p.archivePath (p.archiveName f.index)),
              .archiveerror (missingWhat (p.archivePath (p.archiveName f.index)))
                (p.archivePath (p.archiveName f.index))]) =
            missingCount (p.archivePath n) w.trace := by
          unfold missingCount
          rw [List.count_append]
          simp [List.count_cons, hpne]
        rw [hcount]
        exact hr
    · simp only
      intro hlk
      by_cases hk : n = p.archiveName f.index
      · rw [hk, lookup_cons_self]
      · rw [lookup_cons_ne hk]
        exact hlk

/-- The block of an entry with `size > 0` whose archive is missing, when the
data handler is created: it is skipped after `extract` and `create`, and the
missing archive is reported unless it is already entered as null; no exception
leaves the block. -/
theorem processFile_absent (W : World) (p : Package) (ex : String → Bool) (f : File)
    (path : String) (w : Walk) (hh : W.handler = true)
    (hex : ∀ t a, W.fsExists t a = ex a) (hs : CacheSound ex p w)
    (hsize : f.size ≠ 0) (hx : ex (p.archivePath (p.archiveName f.index)) = false)
    (hc : W.create (w.trace ++ [.extract path]) path f.crc32 = .ok ()) :
    (w.archives.lookup (p.archiveName f.index) = some false ∧
      p.processFile W f path w =
        { w with trace := w.trace ++ [.extract path, .create path f.crc32] }) ∨
    (w.archives.lookup (p.archiveName f.index) = none ∧
      p.processFile W f path w =
        { trace := w.trace ++ [.extract path, .create path f.crc32,
            .fsExists (p.archivePath (p.archiveName f.index)),
            .archiveerror (missingWhat (p.archivePath (p.archiveName f.index)))
              (p.archivePath (p.archiveName f.index))],
          archives := (p.archiveName f.index, false) :: w.archives,
          thrown := w.thrown }) := by
  have hc' : W.create (w.log (.extract path)).trace path f.crc32 = .ok () := hc
  cases hl : w.archives.lookup (p.archiveName f.index) with
  | none =>
    right
    refine ⟨rfl, ?_⟩
    have hl' : ((w.log (.extract path)).log (.create path f.crc32)).archives.lookup
        (p.archiveName f.index) = none := hl
    unfold Package.processFile
    simp only [hh, if_true, hc', hsize, if_false, hl', hex, hx, Bool.false_eq_true]
    simp [Package.archiveerror, hh, Walk.log]
  | some b =>
    cases b with
    | true =>
      have := hs _ hl
      rw [hx] at this
      cases this
    | false =>
      left
      refine ⟨rfl, ?_⟩
      have hl' : ((w.log (.extract path)).log (.create path f.crc32)).archives.lookup
          (p.archiveName f.index) = some false := hl
      unfold Package.processFile
      simp only [hh, if_true, hc', hsize, if_false, hl']
      simp [Walk.log]

/-- Over a whole subtree the walk keeps the map `archives` sound and the
missing archive `n` reported at most once; if the walk of the subtree ends
without an exception and the subtree has an entry with `size > 0` in `n` whose
data handler is created, `n` is entered as null afterwards. -/
theorem processNodes_invariant (W : World) (p : Package) (ex : String → Bool)
    (hh : W.handler = true) (hex : ∀ t a, W.fsExists t a = ex a) (n : String)
    (hn : ex (p.archivePath n) = false) (nodes : Nodes) :
    ∀ (pre : List String) (w : Walk), CacheSound ex p w → ReportedOnce p n w →
      CacheSound ex p (p.processNodes W nodes pre w) ∧
      ReportedOnce p n (p.processNodes W nodes pre w) ∧
      (w.archives.lookup n = some false →
        (p.processNodes W nodes pre w).archives.lookup n = some false) ∧
      ((p.processNodes W nodes pre w).thrown = none → w.thrown = none) ∧
      ((p.processNodes W nodes pre w).thrown = none →
        (∃ f ∈ nodes.files, f.size ≠ 0 ∧ p.archiveName f.index = n ∧
          ∀ t path, W.create t path f.crc32 = .ok ()) →
        (p.processNodes W nodes pre w).archives.lookup n = some false) := by
  induction nodes with
  | nil =>
    intro pre w hs hr
    refine ⟨hs, hr, id, id, ?_⟩
    rintro _ ⟨f, hf, _⟩
    simp [Nodes.files] at hf
  | dir key name children rest ihc ihr =>
    intro pre w hs hr
    unfold Package.processNodes
    by_cases ht : w.thrown.isSome = true
    · rw [if_pos ht]
      refine ⟨hs, hr, id, id, ?_⟩
      intro hnone
      rw [hnone] at ht
      cases ht
    · rw [if_neg ht]
      obtain ⟨c1, c2, c3, c4, c5⟩ := ihc (pre ++ [name]) w hs hr
      obtain ⟨r1, r2, r3, r4, r5⟩ :=
        ihr pre (p.processNodes W children (pre ++ [name]) w) c1 c2
      refine ⟨r1, r2, fun h => r3 (c3 h), fun h => c4 (r4 h), ?_⟩
      rintro hnone ⟨f, hf, hrest⟩
      simp only [Nodes.files, List.mem_append] at hf
      rcases hf with hf | hf
      · exact r3 (c5 (r4 hnone) ⟨f, hf, hrest⟩)
      · exact r5 hnone ⟨f, hf, hrest⟩
  | file key f rest ihr =>
    intro pre w hs hr
    unfold Package.processNodes
    by_cases ht : w.thrown.isSome = true
    · rw [if_pos ht]
      refine ⟨hs, hr, id, id, ?_⟩
      intro hnone
      rw [hnone] at ht
      cases ht
    · rw [if_neg ht]
      have hwnone : w.thrown = none := by
        cases hth : w.thrown with
        | none => rfl
        | some x => rw [hth] at ht; exact absurd rfl ht
      obtain ⟨c1, c2, c3⟩ :=
        processFile_invariant W p ex f (join (pre ++ [f.name])) w hh hex n hn hs hr
      obtain ⟨r1, r2, r3, r4, r5⟩ :=
        ihr pre (p.processFile W f (join (pre ++ [f.name])) w) c1 c2
      refine ⟨r1, r2, fun h => r3 (c3 h), fun _ => hwnone, ?_⟩
      rintro hnone ⟨g, hg, hrest⟩
      simp only [Nodes.files, List.mem_cons] at hg
      rcases hg with hg | hg
      · subst hg
        obtain ⟨hsize, hname, hcreate⟩ := hrest
        apply r3
        have hx : ex (p.archivePath (p.archiveName g.index)) = false := by
          rw [hname]; exact hn
        rcases processFile_absent W p ex g (join (pre ++ [g.name])) w hh hex hs hsize hx
          (hcreate _ _) with ⟨hl, hw⟩ | ⟨_, hw⟩
        · rw [hw, ← hname]
          exact hl
        · rw [hw, ← hname]
          exact lookup_cons_self
      · exact r5 hnone ⟨g, hg, hrest⟩

/-- C10 (as stated, refuted): the archive 3 is missing and is referenced by the
entry `d/t.bin` with size 4, yet when the data handler of that entry cannot be
created the walk, which runs to its end, reports no missing archive at all and
calls `fileerror` for the entry. -/
theorem missing_archive_not_reported_when_create_fails :
    (Package.process noCreateWorld oneInArchive3).trace =
      [.begin 1, .extract "d/t.bin", .create "d/t.bin" 8,
       .fileerror "cannot create file" "d/t.bin", .end_] ∧
    (Package.process noCreateWorld oneInArchive3).thrown = none ∧
    missingCount "src/pkg_003.vpk" (Package.process noCreateWorld oneInArchive3).trace = 0 := by
  decide

/-- C10 (amended): with a handler installed and a fixed set `ex` of existing
archive files, (1) an entry with `size > 0` of a missing archive whose data
handler is created is skipped right after `extract` and `create`: the archive
is reported missing if it is not yet entered in the map as null, nothing else
is called, and no exception leaves the block, so the walk goes on with the next
entry; (2) the map holds streams of existing archives only, at the start of the
walk and after every block; (3) in a walk a missing archive is reported at most
once, and exactly once when the walk runs to its end and some entry with
`size > 0` in that archive has its data handler created. -/
theorem missing_archive_reported_once (W : World) (p : Package) (ex : String → Bool)
    (hh : W.handler = true) (hex : ∀ t a, W.fsExists t a = ex a) :
    (∀ (f : File) (path : String) (w : Walk), CacheSound ex p w → f.size ≠ 0 →
      ex (p.archivePath (p.archiveName f.index)) = false →
      W.create (w.trace ++ [.extract path]) path f.crc32 = .ok () →
      (w.archives.lookup (p.archiveName f.index) = some false ∧
        p.processFile W f path w =
          { w with trace := w.trace ++ [.extract path, .create path f.crc32] }) ∨
      (w.archives.lookup (p.archiveName f.index) = none ∧
        p.processFile W f path w =
          { trace := w.trace ++ [.extract path, .create path f.crc32,
              .fsExists (p.archivePath (p.archiveName f.index)),
              .archiveerror (missingWhat (p.archivePath (p.archiveName f.index)))
                (p.archivePath (p.archiveName f.index))],
            archives := (p.archiveName f.index, false) :: w.archives,
            thrown := w.thrown })) ∧
    ((∀ t, CacheSound ex p ⟨t, [], none⟩) ∧
      ∀ (f : File) (path : String) (w : Walk), CacheSound ex p w →
        CacheSound ex p (p.processFile W f path w)) ∧
    (∀ n, ex (p.archivePath n) = false →
      missingCount (p.archivePath n) (Package.process W p).trace ≤ 1 ∧
      ((Package.process W p).thrown = none →
        (∃ f ∈ p.m_nodes.files, f.size ≠ 0 ∧ p.archiveName f.index = n ∧
          ∀ t path, W.create t path f.crc32 = .ok ()) →
        missingCount (p.archivePath n) (Package.process W p).trace = 1)) := by
  have hinit : ∀ t, CacheSound ex p ⟨t, [], none⟩ := by
    intro t name hl
    simp [List.lookup] at hl
  refine ⟨?_, ⟨hinit, ?_⟩, ?_⟩
  · intro f path w hs hsize hx hc
    exact processFile_absent W p ex f path w hh hex hs hsize hx hc
  · intro f path w hs
    rcases processFile_shape W p ex f path w hh hex hs with h | h | h
    · intro name hl
      rw [h.1] at hl
      exact hs name hl
    · obtain ⟨_, hx, ha, _⟩ := h
      intro name hl
      rw [ha] at hl
      by_cases hk : name = p.archiveName f.index
      · rw [hk]; exact hx
      · rw [lookup_cons_ne hk] at hl
        exact hs name hl
    · obtain ⟨_, _, _, hw⟩ := h
      intro name hl
      rw [hw] at hl
      simp only at hl
      by_cases hk : name = p.archiveName f.index
      · rw [hk, lookup_cons_self] at hl
        cases hl
      · rw [lookup_cons_ne hk] at hl
        exact hs name hl
  · intro n hn
    have hr0 : ReportedOnce p n ⟨[.begin (filecount p.m_nodes)], [], none⟩ := by
      left
      refine ⟨by simp [List.lookup], ?_⟩
      simp [missingCount, List.count_cons]
    obtain ⟨_, i2, _, _, i5⟩ := processNodes_invariant W p ex hh hex n hn p.m_nodes []
      ⟨[.begin (filecount p.m_nodes)], [], none⟩ (hinit _) hr0
    have hproc : Package.process W p =
        if (p.processNodes W p.m_nodes [] ⟨[.begin (filecount p.m_nodes)], [], none⟩).thrown.isSome
        then p.processNodes W p.m_nodes [] ⟨[.begin (filecount p.m_nodes)], [], none⟩
        else (p.processNodes W p.m_nodes [] ⟨[.begin (filecount p.m_nodes)], [], none⟩).log
          .end_ := by
      simp [Package.process, hh, Walk.log]
    have hcount : missingCount (p.archivePath n) (Package.process W p).trace =
        missingCount (p.archivePath n)
          (p.processNodes W p.m_nodes [] ⟨[.begin (filecount p.m_nodes)], [], none⟩).trace := by
      rw [hproc]
      split
      · rfl
      · simp [Walk.log, missingCount, List.count_append, List.count_cons]
    have hthrown : (Package.process W p).thrown =
        (p.processNodes W p.m_nodes [] ⟨[.begin (filecount p.m_nodes)], [], none⟩).thrown := by
      rw [hproc]
      split
      · rfl
      · rfl
    rw [hcount, hthrown]
    constructor
    · rcases i2 with ⟨_, hc⟩ | ⟨_, hc⟩ <;> omega
    · intro hnone hf
      have hl := i5 hnone hf
      rcases i2 with ⟨hl2, _⟩ | ⟨_, hc⟩
      · rw [hl] at hl2
        cases hl2
      · exact hc

theorem missing_archive_reported_once_witness :
    (quietWorld archive000).handler = true ∧
    (∀ t a, (quietWorld archive000).fsExists t a = (archive000.lookup a).isSome) ∧
    missingCount (scenario23.archivePath "pkg_003.vpk")
      (Package.process (quietWorld archive000) scenario23).trace = 1 :=
  ⟨rfl, fun _ _ => rfl,
    ((missing_archive_reported_once (quietWorld archive000) scenario23
        (fun a => (archive000.lookup a).isSome) rfl (fun _ _ => rfl)).2.2
      "pkg_003.vpk" (by decide)).2 (by decide)
      ⟨⟨"t.bin", 8, [], 3, 0, 4⟩, by decide, by decide, by decide, fun _ _ => rfl⟩⟩

/-- For an entry without a bulk part (`size == 0`) the block never calls
`success`, whatever the collaborators do. -/
theorem processFile_preload_only_no_success (W : World) (p : Package) (f : File)
    (path : String) (w : Walk) (h : f.size = 0) :
    Extends (fun e => ∀ q, e ≠ .success q) w (p.processFile W f path w) := by
  have h0 : Extends (fun e => ∀ q, e ≠ .success q) w
      (if W.handler = true then w.log (.extract path) else w) := by
    split
    · exact Extends.log w (fun q hq => by cases hq)
    · exact Extends.refl _ w
  have h1 := h0.trans (Extends.log (Q := fun e => ∀ q, e ≠ .success q) _
    (e := .create path f.crc32) (fun q hq => by cases hq))
  unfold Package.processFile
  dsimp only
  split
  · exact h1.trans (Extends.onFileError W _ _ _ (fun q hq => by cases hq))
  · rw [if_pos h]
    have h2 := h1.trans (Extends.log (Q := fun e => ∀ q, e ≠ .success q) _
      (e := .process path f.data) (fun q hq => by cases hq))
    split
    · exact h2.trans (Extends.onFileError W _ _ _ (fun q hq => by cases hq))
    · have h3 := h2.trans (Extends.log (Q := fun e => ∀ q, e ≠ .success q) _
        (e := .finish path) (fun q hq => by cases hq))
      split
      · exact h3.trans (Extends.onFileError W _ _ _ (fun q hq => by cases hq))
      · exact h3

/-! ## Termination of the loops -/

/-- More turns than bytes left change nothing in the loop over the chunks. -/
theorem readLoop_fuel_stable (W : World) (path archivePath : String) (fuel : Nat) :
    ∀ (left pos : Nat) (w : Walk), left ≤ fuel →
      readLoop W path archivePath (fuel + 1) left pos w =
        readLoop W path archivePath fuel left pos w := by
  induction fuel with
  | zero =>
    intro left pos w h
    have h0 : left = 0 := by omega
    subst h0
    simp [readLoop]
  | succ n ih =>
    intro left pos w h
    have hb := W.BUFSIZ_pos
    conv => lhs; unfold readLoop
    conv => rhs; unfold readLoop
    split
    · rename_i hl
      dsimp only
      have hle : left - min left W.BUFSIZ ≤ n := by omega
      cases W.archRead w.trace archivePath pos (min left W.BUFSIZ) with
      | error what => rfl
      | ok data =>
        dsimp only
        cases W.process (w.log (.archRead archivePath (min left W.BUFSIZ))).trace path data with
        | error what => rfl
        | ok u =>
          dsimp only
          exact ih _ _ _ hle
    · rfl

theorem untilZero_length (bs : Bytes) :
    ((untilZero bs).2 = true → (untilZero bs).1.length + 1 ≤ bs.length) ∧
    ((untilZero bs).2 = false → (untilZero bs).1.length = bs.length) := by
  induction bs with
  | nil => simp [untilZero]
  | cons b bs ih =>
    unfold untilZero
    split
    · simp
    · simp only [List.length_cons]
      exact ⟨fun h => by have := ih.1 h; omega, fun h => by have := ih.2 h; omega⟩

/-- Reading a string keeps the data; it either consumes at least the
terminator and leaves the state of the stream alone, or reaches the end of the
stream, which is then no longer good. -/
theorem Reader.readAsciiZ_spec (r : Reader) :
    r.readAsciiZ.2.data = r.data ∧
    ((r.readAsciiZ.2.good = r.good ∧ r.readAsciiZ.2.remaining + 1 ≤ r.remaining) ∨
      (r.readAsciiZ.2.good = false ∧ r.readAsciiZ.2.remaining = 0)) := by
  have hlen := untilZero_length (r.data.drop r.pos)
  unfold Reader.readAsciiZ
  dsimp only
  split
  · rename_i hfound
    refine ⟨rfl, Or.inl ⟨rfl, ?_⟩⟩
    have := hlen.1 hfound
    simp only [List.length_drop] at this
    simp only [Reader.remaining]
    omega
  · rename_i hfound
    refine ⟨rfl, Or.inr ⟨rfl, ?_⟩⟩
    have := hlen.2 (by simpa using hfound)
    simp only [List.length_drop] at this
    simp only [Reader.remaining]
    omega

theorem Reader.readLU32_ok {r r' : Reader} {v : Nat} (h : r.readLU32 = (.ok v, r')) :
    r'.data = r.data ∧ r'.good = r.good ∧ r'.remaining + 4 ≤ r.remaining := by
  unfold Reader.readLU32 at h
  split at h
  · cases h
    refine ⟨rfl, rfl, ?_⟩
    simp only [Reader.remaining]
    omega
  · cases h

theorem Reader.readLU16_ok {r r' : Reader} {v : Nat} (h : r.readLU16 = (.ok v, r')) :
    r'.data = r.data ∧ r'.good = r.good ∧ r'.remaining + 2 ≤ r.remaining := by
  unfold Reader.readLU16 at h
  split at h
  · cases h
    refine ⟨rfl, rfl, ?_⟩
    simp only [Reader.remaining]
    omega
  · cases h

theorem Reader.readBytes_ok {r r' : Reader} {n : Nat} {v : Bytes} (h : r.read n = (.ok v, r')) :
    r'.data = r.data ∧ r'.good = r.good ∧ r'.remaining ≤ r.remaining := by
  unfold Reader.read at h
  split at h
  · cases h
    refine ⟨rfl, rfl, ?_⟩
    simp only [Reader.remaining]
    omega
  · cases h

/-- A record that is read takes at least its 18 fixed bytes from the stream. -/
theorem File.readRecord_ok {self f : File} {r r' : Reader} (h : self.read r = (.ok f, r')) :
    r'.data = r.data ∧ r'.good = r.good ∧ r'.remaining + 18 ≤ r.remaining := by
  unfold File.read at h
  split at h
  · cases h
  · rename_i h1
    obtain ⟨a1, b1, c1⟩ := Reader.readLU32_ok h1
    split at h
    · cases h
    · rename_i h2
      obtain ⟨a2, b2, c2⟩ := Reader.readLU16_ok h2
      split at h
      · cases h
      · rename_i h3
        obtain ⟨a3, b3, c3⟩ := Reader.readLU16_ok h3
        split at h
        · cases h
        · rename_i h4
          obtain ⟨a4, b4, c4⟩ := Reader.readLU32_ok h4
          split at h
          · cases h
          · rename_i h5
            obtain ⟨a5, b5, c5⟩ := Reader.readLU32_ok h5
            split at h
            · cases h
            · rename_i h6
              obtain ⟨a6, b6, c6⟩ := Reader.readLU16_ok h6
              split at h
              · cases h
              · split at h
                · split at h
                  · cases h
                  · rename_i h7
                    obtain ⟨a7, b7, c7⟩ := Reader.readBytes_ok h7
                    cases h
                    refine ⟨?_, ?_, ?_⟩
                    · rw [a7, a6, a5, a4, a3, a2, a1]
                    · rw [b7, b6, b5, b4, b3, b2, b1]
                    · omega
                · cases h
                  refine ⟨?_, ?_, ?_⟩
                  · rw [a6, a5, a4, a3, a2, a1]
                  · rw [b6, b5, b4, b3, b2, b1]
                  · omega

/-- The loop over the names of a directory ends within one turn more than the
stream has bytes left, and does not move the stream backwards. -/
theorem Dir.readNames_terminates (fuel : Nat) : ∀ (nodes : Nodes) (type : String) (r : Reader),
    r.remaining + 1 ≤ fuel →
      ∃ res, Dir.read fuel nodes type r = some res ∧
        ∀ n r2, res = .ok (n, r2) →
          r2.data = r.data ∧ r2.remaining ≤ r.remaining ∧ (r2.good = true → r.good = true) := by
  induction fuel with
  | zero => intro nodes type r h; omega
  | succ k ih =>
    intro nodes type r h
    obtain ⟨hd, hcase⟩ := Reader.readAsciiZ_spec r
    have hrem : r.readAsciiZ.2.remaining ≤ r.remaining := by
      rcases hcase with ⟨_, h1⟩ | ⟨_, h1⟩ <;> omega
    have hgood : r.readAsciiZ.2.good = true → r.good = true := by
      rcases hcase with ⟨h1, _⟩ | ⟨h1, _⟩
      · rw [h1]; exact id
      · rw [h1]; intro hh; cases hh
    unfold Dir.read
    dsimp only
    split
    · refine ⟨_, rfl, ?_⟩
      intro n r2 he
      simp only [Except.ok.injEq, Prod.mk.injEq] at he
      obtain ⟨_, rfl⟩ := he
      exact ⟨hd, hrem, hgood⟩
    · split
      · refine ⟨_, rfl, ?_⟩
        intro n r2 he
        cases he
      · rename_i f r2 hread
        obtain ⟨a, b, c⟩ := File.readRecord_ok hread
        obtain ⟨res, hres, hprop⟩ := ih (nodes.assign f.name (.file f)) type r2 (by omega)
        refine ⟨res, hres, ?_⟩
        intro n r3 he
        obtain ⟨p1, p2, p3⟩ := hprop n r3 he
        refine ⟨by rw [p1, a, hd], by omega, fun hg => hgood ?_⟩
        rw [← b]
        exact p3 hg

/-- The loop over the subpaths of a type ends when it has a turn for every
byte left (and one more while the stream is good). -/
theorem Package.readDirs_terminates (fuel : Nat) : ∀ (p : Package) (type : String) (r : Reader),
    1 ≤ fuel → (r.good = true → r.remaining + 1 ≤ fuel) →
      ∃ res, Package.readDirs fuel p type r = some res ∧
        ∀ q r2, res = .ok (q, r2) →
          r2.data = r.data ∧ r2.remaining ≤ r.remaining ∧ (r2.good = true → r.good = true) := by
  induction fuel with
  | zero => intro p type r h; omega
  | succ k ih =>
    intro p type r _ hfuel
    unfold Package.readDirs
    by_cases hg : r.good = true
    · rw [if_pos hg]
      have hf := hfuel hg
      obtain ⟨hd, hcase⟩ := Reader.readAsciiZ_spec r
      have hrem : r.readAsciiZ.2.remaining ≤ r.remaining := by
        rcases hcase with ⟨_, h1⟩ | ⟨_, h1⟩ <;> omega
      dsimp only
      split
      · refine ⟨_, rfl, ?_⟩
        intro q r2 he
        simp only [Except.ok.injEq, Prod.mk.injEq] at he
        obtain ⟨_, rfl⟩ := he
        exact ⟨hd, hrem, fun _ => hg⟩
      · rename_i hne
        have hk : r.readAsciiZ.2.remaining + 1 ≤ k := by
          rcases hcase with ⟨_, h1⟩ | ⟨_, h1⟩
          · omega
          · have hpos : 1 ≤ r.remaining := by
              by_contra hcon
              have hz : r.remaining = 0 := by omega
              apply hne
              have hdrop : r.data.drop r.pos = [] := by
                apply List.drop_eq_nil_of_le
                simp only [Reader.remaining] at hz
                omega
              simp [Reader.readAsciiZ, hdrop, untilZero, bytesToString]
            omega
        split
        · exact ⟨_, rfl, fun q r2 he => by cases he⟩
        · rename_i p1 dir _
          obtain ⟨res, hres, hprop⟩ := Dir.readNames_terminates k dir.node.nodes type
            r.readAsciiZ.2 hk
          rw [hres]
          cases res with
          | error e => exact ⟨_, rfl, fun q r2 he => by cases he⟩
          | ok val =>
            obtain ⟨children, r2⟩ := val
            obtain ⟨p1d, p2d, p3d⟩ := hprop children r2 rfl
            dsimp only
            obtain ⟨res2, hres2, hprop2⟩ := ih
              { p1 with m_nodes := p1.m_nodes.setChildrenAt dir.route children } type r2
              (by omega) (fun _ => by omega)
            refine ⟨res2, hres2, ?_⟩
            intro q r3 he
            obtain ⟨q1, q2, q3⟩ := hprop2 q r3 he
            exact ⟨by rw [q1, p1d, hd], by omega, fun _ => hg⟩
    · rw [if_neg hg]
      refine ⟨_, rfl, ?_⟩
      intro q r2 he
      simp only [Except.ok.injEq, Prod.mk.injEq] at he
      obtain ⟨_, rfl⟩ := he
      exact ⟨rfl, Nat.le_refl _, id⟩

/-- The loop over the types ends when it has a turn for every byte left (and
one more while the stream is good). -/
theorem Package.readTypes_terminates (fuel : Nat) : ∀ (p : Package) (r : Reader),
    1 ≤ fuel → (r.good = true → r.remaining + 1 ≤ fuel) →
      ∃ res, Package.readTypes fuel p r = some res := by
  induction fuel with
  | zero => intro p r h; omega
  | succ k ih =>
    intro p r _ hfuel
    unfold Package.readTypes
    by_cases hg : r.good = true
    · rw [if_pos hg]
      have hf := hfuel hg
      obtain ⟨hd, hcase⟩ := Reader.readAsciiZ_spec r
      dsimp only
      split
      · exact ⟨_, rfl⟩
      · rename_i hne
        have hpos : 1 ≤ r.remaining := by
          by_contra hcon
          have hz : r.remaining = 0 := by omega
          apply hne
          have hdrop : r.data.drop r.pos = [] := by
            apply List.drop_eq_nil_of_le
            simp only [Reader.remaining] at hz
            omega
          simp [Reader.readAsciiZ, hdrop, untilZero, bytesToString]
        have hk1 : 1 ≤ k := by omega
        have hk : r.readAsciiZ.2.good = true → r.readAsciiZ.2.remaining + 1 ≤ k := by
          intro hg2
          rcases hcase with ⟨_, h1⟩ | ⟨h1, _⟩
          · omega
          · rw [h1] at hg2; cases hg2
        obtain ⟨res, hres, hprop⟩ := Package.readDirs_terminates k p r.readAsciiZ.1
          r.readAsciiZ.2 hk1 hk
        rw [hres]
        cases res with
        | error e => exact ⟨_, rfl⟩
        | ok val =>
          obtain ⟨p2, r2⟩ := val
          obtain ⟨_, q2, q3⟩ := hprop p2 r2 rfl
          dsimp only
          exact ih p2 r2 hk1 (fun hg2 => by have := hk (q3 hg2); omega)
    · rw [if_neg hg]
      exact ⟨_, rfl⟩

/-- The method `Package::read` returns or throws on every stream: the turns
given to its loops are always enough. -/
theorem Package.read_terminates (p : Package) (is : Reader) :
    ∃ res, p.read is = some res := by
  unfold Package.read
  split
  · exact ⟨_, rfl⟩
  · rename_i magic r1 h1
    obtain ⟨a1, b1, c1⟩ := Reader.readLU32_ok h1
    have hlen : is.remaining ≤ is.data.length := by
      simp only [Reader.remaining]; omega
    split
    · apply Package.readTypes_terminates _ p _ (by omega)
      intro _
      simp only [Reader.remaining] at c1 hlen ⊢
      omega
    · split
      · exact ⟨_, rfl⟩
      · rename_i version r2 h2
        obtain ⟨a2, b2, c2⟩ := Reader.readLU32_ok h2
        split
        · exact ⟨_, rfl⟩
        · rename_i indexSize r3 h3
          obtain ⟨a3, b3, c3⟩ := Reader.readLU32_ok h3
          split
          · exact ⟨_, rfl⟩
          · apply Package.readTypes_terminates _ p _ (by omega)
            intro _
            omega

/-! ## The shape of parsed trees -/

theorem Nodes.wellFormed_iff (nodes : Nodes) :
    nodes.WellFormed ↔ nodes.KeyedByName ∧ nodes.UniqueKeys := by
  induction nodes with
  | nil => simp [Nodes.WellFormed, Nodes.KeyedByName, Nodes.UniqueKeys]
  | dir key name children rest ihc ihr =>
    simp only [Nodes.WellFormed, Nodes.KeyedByName, Nodes.UniqueKeys, ihc, ihr]
    tauto
  | file key f rest ihr =>
    simp only [Nodes.WellFormed, Nodes.KeyedByName, Nodes.UniqueKeys, ihr]
    tauto

theorem Nodes.keys_cons (k : String) (n : Node) (rest : Nodes) :
    (Nodes.cons k n rest).keys = k :: rest.keys := by
  cases n <;> rfl

theorem Nodes.wellFormed_cons (k : String) (n : Node) (rest : Nodes) :
    (Nodes.cons k n rest).WellFormed ↔
      k = n.name ∧ k ∉ rest.keys ∧ n.nodes.WellFormed ∧ rest.WellFormed := by
  cases n with
  | dir name children => simp [Nodes.cons, Nodes.WellFormed, Node.name, Node.nodes]
  | file f => simp [Nodes.cons, Nodes.WellFormed, Node.name, Node.nodes]

theorem Nodes.mem_keys_insert (nodes : Nodes) (k : String) (n : Node) (x : String) :
    x ∈ (nodes.insert k n).keys ↔ x = k ∨ x ∈ nodes.keys := by
  induction nodes with
  | nil => simp [Nodes.insert, Nodes.keys_cons, Nodes.keys]
  | dir key name children rest _ ih =>
    unfold Nodes.insert
    split
    · simp [Nodes.keys_cons, Nodes.keys]
    · simp only [Nodes.keys, List.mem_cons, ih]
      tauto
  | file key f rest ih =>
    unfold Nodes.insert
    split
    · simp [Nodes.keys_cons, Nodes.keys]
    · simp only [Nodes.keys, List.mem_cons, ih]
      tauto

theorem Nodes.wellFormed_insert (nodes : Nodes) (k : String) (n : Node)
    (h : nodes.WellFormed) (hk : k ∉ nodes.keys) (hn : k = n.name)
    (hc : n.nodes.WellFormed) : (nodes.insert k n).WellFormed := by
  induction nodes with
  | nil =>
    simp only [Nodes.insert, Nodes.wellFormed_cons]
    exact ⟨hn, by simp [Nodes.keys], hc, trivial⟩
  | dir key name children rest _ ih =>
    obtain ⟨h1, h2, h3, h4⟩ := h
    simp only [Nodes.keys, List.mem_cons, not_or] at hk
    unfold Nodes.insert
    split
    · rw [Nodes.wellFormed_cons]
      refine ⟨hn, ?_, hc, h1, h2, h3, h4⟩
      simp only [Nodes.keys, List.mem_cons, not_or]
      exact hk
    · refine ⟨h1, ?_, h3, ih h4 hk.2⟩
      rw [Nodes.mem_keys_insert]
      rintro (hh | hh)
      · exact hk.1 hh.symm
      · exact h2 hh
  | file key f rest ih =>
    obtain ⟨h1, h2, h4⟩ := h
    simp only [Nodes.keys, List.mem_cons, not_or] at hk
    unfold Nodes.insert
    split
    · rw [Nodes.wellFormed_cons]
      refine ⟨hn, ?_, hc, h1, h2, h4⟩
      simp only [Nodes.keys, List.mem_cons, not_or]
      exact hk
    · refine ⟨h1, ?_, ih h4 hk.2⟩
      rw [Nodes.mem_keys_insert]
      rintro (hh | hh)
      · exact hk.1 hh.symm
      · exact h2 hh

theorem Nodes.mem_keys_erase (nodes : Nodes) (k x : String)
    (h : x ∈ (nodes.erase k).keys) : x ∈ nodes.keys := by
  induction nodes with
  | nil => simp [Nodes.erase, Nodes.keys] at h
  | dir key name children rest _ ih =>
    unfold Nodes.erase at h
    simp only [Nodes.keys, List.mem_cons]
    split at h
    · exact Or.inr h
    · simp only [Nodes.keys, List.mem_cons] at h
      rcases h with h | h
      · exact Or.inl h
      · exact Or.inr (ih h)
  | file key f rest ih =>
    unfold Nodes.erase at h
    simp only [Nodes.keys, List.mem_cons]
    split at h
    · exact Or.inr h
    · simp only [Nodes.keys, List.mem_cons] at h
      rcases h with h | h
      · exact Or.inl h
      · exact Or.inr (ih h)

theorem Nodes.wellFormed_erase (nodes : Nodes) (k : String) (h : nodes.WellFormed) :
    (nodes.erase k).WellFormed ∧ k ∉ (nodes.erase k).keys := by
  induction nodes with
  | nil => simp [Nodes.erase, Nodes.WellFormed, Nodes.keys]
  | dir key name children rest _ ih =>
    obtain ⟨h1, h2, h3, h4⟩ := h
    unfold Nodes.erase
    split
    · rename_i hk
      exact ⟨h4, hk ▸ h2⟩
    · rename_i hk
      obtain ⟨i1, i2⟩ := ih h4
      refine ⟨⟨h1, fun hh => h2 (Nodes.mem_keys_erase _ _ _ hh), h3, i1⟩, ?_⟩
      simp only [Nodes.keys, List.mem_cons, not_or]
      exact ⟨fun hh => hk hh.symm, i2⟩
  | file key f rest ih =>
    obtain ⟨h1, h2, h4⟩ := h
    unfold Nodes.erase
    split
    · rename_i hk
      exact ⟨h4, hk ▸ h2⟩
    · rename_i hk
      obtain ⟨i1, i2⟩ := ih h4
      refine ⟨⟨h1, fun hh => h2 (Nodes.mem_keys_erase _ _ _ hh), i1⟩, ?_⟩
      simp only [Nodes.keys, List.mem_cons, not_or]
      exact ⟨fun hh => hk hh.symm, i2⟩

theorem Nodes.wellFormed_assign (nodes : Nodes) (k : String) (n : Node)
    (h : nodes.WellFormed) (hn : k = n.name) (hc : n.nodes.WellFormed) :
    (nodes.assign k n).WellFormed := by
  obtain ⟨h1, h2⟩ := Nodes.wellFormed_erase nodes k h
  exact Nodes.wellFormed_insert _ k n h1 h2 hn hc

theorem Nodes.keys_setChildren (nodes : Nodes) (k : String) (sub : Nodes) :
    (nodes.setChildren k sub).keys = nodes.keys := by
  induction nodes with
  | nil => rfl
  | dir key name children rest _ ih =>
    unfold Nodes.setChildren
    split
    · rfl
    · simp only [Nodes.keys, ih]
  | file key f rest ih =>
    unfold Nodes.setChildren
    split
    · rfl
    · simp only [Nodes.keys, ih]

theorem Nodes.wellFormed_setChildren (nodes : Nodes) (k : String) (sub : Nodes)
    (h : nodes.WellFormed) (hs : sub.WellFormed) : (nodes.setChildren k sub).WellFormed := by
  induction nodes with
  | nil => trivial
  | dir key name children rest _ ih =>
    obtain ⟨h1, h2, h3, h4⟩ := h
    unfold Nodes.setChildren
    split
    · exact ⟨h1, h2, hs, h4⟩
    · exact ⟨h1, by rw [Nodes.keys_setChildren]; exact h2, h3, ih h4⟩
  | file key f rest ih =>
    obtain ⟨h1, h2, h4⟩ := h
    unfold Nodes.setChildren
    split
    · exact ⟨h1, h2, h4⟩
    · exact ⟨h1, by rw [Nodes.keys_setChildren]; exact h2, ih h4⟩

theorem Nodes.wellFormed_children {nodes : Nodes} (h : nodes.WellFormed) {k name : String}
    {sub : Nodes} (hf : nodes.find k = some (.dir name sub)) : sub.WellFormed := by
  rw [Nodes.wellFormed_iff] at h ⊢
  exact ⟨Nodes.keyed_children h.1 hf, Nodes.unique_children h.2 hf⟩

theorem Nodes.wellFormed_setChildrenAt (route : List String) :
    ∀ (nodes sub : Nodes), nodes.WellFormed → sub.WellFormed →
      (nodes.setChildrenAt route sub).WellFormed := by
  induction route with
  | nil => intro nodes sub h _; exact h
  | cons k rest ih =>
    intro nodes sub h hs
    cases rest with
    | nil => exact Nodes.wellFormed_setChildren nodes k sub h hs
    | cons c cs =>
      simp only [Nodes.setChildrenAt]
      cases hf : nodes.find k with
      | none => exact h
      | some n =>
        cases n with
        | file f => exact h
        | dir nm children =>
          exact Nodes.wellFormed_setChildren nodes k _ h
            (ih children sub (Nodes.wellFormed_children h hf) hs)

/-- The loop of `mkpath` keeps the tree well formed, and so are the children
of the directory it returns. -/
theorem mkpathLoop_wellFormed (path : List String) :
    ∀ (nodes nodes' : Nodes) (done : List String) (dir r : Option NodeRef),
      nodes.WellFormed → (∀ d, dir = some d → d.node.nodes.WellFormed) →
      mkpathLoop nodes done dir path = .ok (nodes', r) →
        nodes'.WellFormed ∧ ∀ d, r = some d → d.node.nodes.WellFormed := by
  induction path with
  | nil =>
    intro nodes nodes' done dir r h hd hm
    simp only [mkpathLoop, Except.ok.injEq, Prod.mk.injEq] at hm
    obtain ⟨rfl, rfl⟩ := hm
    exact ⟨h, hd⟩
  | cons name rest ih =>
    intro nodes nodes' done dir r h _ hm
    unfold mkpathLoop at hm
    cases hf : nodes.find name with
    | none =>
      simp only [hf] at hm
      cases hsub : mkpathLoop .nil (done ++ [name])
          (some ⟨done ++ [name], .dir name .nil⟩) rest with
      | error e => simp [hsub] at hm
      | ok res =>
        obtain ⟨sub', r'⟩ := res
        simp only [hsub, Except.ok.injEq, Prod.mk.injEq] at hm
        obtain ⟨rfl, rfl⟩ := hm
        obtain ⟨i1, i2⟩ := ih .nil sub' _ _ r' trivial
          (fun d hd => by cases hd; trivial) hsub
        exact ⟨Nodes.wellFormed_insert nodes name _ h
          ((Nodes.find_eq_none_iff nodes name).mp hf) rfl i1, i2⟩
    | some n =>
      cases n with
      | file f => simp [hf] at hm
      | dir nm sub =>
        simp only [hf] at hm
        have hsubwf := Nodes.wellFormed_children h hf
        cases hsub : mkpathLoop sub (done ++ [name])
            (some ⟨done ++ [name], .dir nm sub⟩) rest with
        | error e => simp [hsub] at hm
        | ok res =>
          obtain ⟨sub', r'⟩ := res
          simp only [hsub, Except.ok.injEq, Prod.mk.injEq] at hm
          obtain ⟨rfl, rfl⟩ := hm
          obtain ⟨i1, i2⟩ := ih sub sub' _ _ r' hsubwf
            (fun d hd => by cases hd; exact hsubwf) hsub
          exact ⟨Nodes.wellFormed_setChildren nodes name sub' h i1, i2⟩

theorem Package.mkpath_wellFormed {p p' : Package} {path : String} {d : NodeRef}
    (h : p.m_nodes.WellFormed) (hm : p.mkpath path = .ok (p', d)) :
    p'.m_nodes.WellFormed ∧ d.node.nodes.WellFormed := by
  unfold Package.mkpath Package.mkpathVec at hm
  split at hm
  · cases hm
  · split at hm
    · cases hm
    · rename_i nodes dir hloop
      simp only [Except.ok.injEq, Prod.mk.injEq] at hm
      obtain ⟨rfl, rfl⟩ := hm
      obtain ⟨i1, i2⟩ := mkpathLoop_wellFormed _ _ _ _ _ _ h
        (fun d hd => by cases hd) hloop
      exact ⟨i1, i2 _ rfl⟩
    · cases hm

theorem File.read_name {self f : File} {r r' : Reader} (h : self.read r = (.ok f, r')) :
    f.name = self.name := by
  unfold File.read at h
  split at h
  · cases h
  · split at h
    · cases h
    · split at h
      · cases h
      · split at h
        · cases h
        · split at h
          · cases h
          · split at h
            · cases h
            · split at h
              · cases h
              · split at h
                · split at h
                  · cases h
                  · cases h; rfl
                · cases h; rfl

theorem Dir.readNames_wellFormed (fuel : Nat) : ∀ (nodes nodes' : Nodes) (type : String)
    (r r' : Reader), nodes.WellFormed →
      Dir.read fuel nodes type r = some (.ok (nodes', r')) → nodes'.WellFormed := by
  induction fuel with
  | zero => intro nodes nodes' type r r' _ h; simp [Dir.read] at h
  | succ k ih =>
    intro nodes nodes' type r r' hwf h
    unfold Dir.read at h
    dsimp only at h
    split at h
    · simp only [Option.some.injEq, Except.ok.injEq, Prod.mk.injEq] at h
      obtain ⟨rfl, _⟩ := h
      exact hwf
    · split at h
      · cases h
      · rename_i f r2 _
        exact ih _ _ _ _ _ (Nodes.wellFormed_assign nodes f.name (.file f) hwf rfl trivial) h

theorem Package.readDirs_wellFormed (fuel : Nat) : ∀ (p p' : Package) (type : String)
    (r r' : Reader), p.m_nodes.WellFormed →
      Package.readDirs fuel p type r = some (.ok (p', r')) → p'.m_nodes.WellFormed := by
  induction fuel with
  | zero => intro p p' type r r' _ h; simp [Package.readDirs] at h
  | succ k ih =>
    intro p p' type r r' hwf h
    unfold Package.readDirs at h
    split at h
    · dsimp only at h
      split at h
      · simp only [Option.some.injEq, Except.ok.injEq, Prod.mk.injEq] at h
        obtain ⟨rfl, _⟩ := h
        exact hwf
      · split at h
        · cases h
        · rename_i p1 dir hmk
          obtain ⟨w1, w2⟩ := Package.mkpath_wellFormed hwf hmk
          split at h
          · cases h
          · cases h
          · rename_i children r2 hdir
            exact ih _ _ _ _ _
              (Nodes.wellFormed_setChildrenAt dir.route p1.m_nodes children w1
                (Dir.readNames_wellFormed k _ _ _ _ _ w2 hdir)) h
    · simp only [Option.some.injEq, Except.ok.injEq, Prod.mk.injEq] at h
      obtain ⟨rfl, _⟩ := h
      exact hwf

theorem Package.readTypes_wellFormed (fuel : Nat) : ∀ (p p' : Package) (r r' : Reader),
    p.m_nodes.WellFormed →
      Package.readTypes fuel p r = some (.ok (p', r')) → p'.m_nodes.WellFormed := by
  induction fuel with
  | zero => intro p p' r r' _ h; simp [Package.readTypes] at h
  | succ k ih =>
    intro p p' r r' hwf h
    unfold Package.readTypes at h
    split at h
    · dsimp only at h
      split at h
      · simp only [Option.some.injEq, Except.ok.injEq, Prod.mk.injEq] at h
        obtain ⟨rfl, _⟩ := h
        exact hwf
      · split at h
        · cases h
        · cases h
        · rename_i p2 r2 hdirs
          exact ih _ _ _ _ (Package.readDirs_wellFormed k _ _ _ _ _ hwf hdirs) h
    · simp only [Option.some.injEq, Except.ok.injEq, Prod.mk.injEq] at h
      obtain ⟨rfl, _⟩ := h
      exact hwf

/-- Every tree that `Package::read` builds from a well-formed one (an empty
one, say) has unique keys and children keyed by their names: the trees to which
the statements about `get` and `filter` apply. -/
theorem Package.read_wellFormed (p p' : Package) (is r' : Reader)
    (hwf : p.m_nodes.WellFormed) (h : p.read is = some (.ok (p', r'))) :
    p'.m_nodes.KeyedByName ∧ p'.m_nodes.UniqueKeys := by
  rw [← Nodes.wellFormed_iff]
  unfold Package.read at h
  split at h
  · cases h
  · split at h
    · exact Package.readTypes_wellFormed _ _ _ _ _ hwf h
    · split at h
      · cases h
      · split at h
        · cases h
        · split at h
          · cases h
          · exact Package.readTypes_wellFormed _ _ _ _ _ hwf h

/-! ## At most one callback for each file leaf -/

theorem successCount_add_failCount (t : List Event) :
    successCount t + failCount t = t.countP Event.isCallback := by
  induction t with
  | nil => rfl
  | cons e es ih =>
    unfold successCount failCount at ih ⊢
    simp only [List.countP_cons]
    cases e <;> simp [Event.isCallback] <;> omega

theorem Adds.same (w : Walk) : Adds 0 w w := ⟨[], by simp, by simp⟩

theorem Adds.chain {a b : Nat} {u v w : Walk} (h1 : Adds a u v) (h2 : Adds b v w) :
    Adds (a + b) u w := by
  obtain ⟨e1, t1, c1⟩ := h1
  obtain ⟨e2, t2, c2⟩ := h2
  refine ⟨e1 ++ e2, by rw [t2, t1, List.append_assoc], ?_⟩
  rw [List.countP_append]
  omega

theorem Adds.weaken {a b : Nat} {u v : Walk} (h : Adds a u v) (hab : a ≤ b) : Adds b u v := by
  obtain ⟨e, t, c⟩ := h
  exact ⟨e, t, by omega⟩

theorem Adds.log_other (w : Walk) {e : Event} (h : e.isCallback = false) :
    Adds 0 w (w.log e) :=
  ⟨[e], rfl, by simp [List.countP_cons, h]⟩

theorem Adds.log_any (w : Walk) (e : Event) : Adds 1 w (w.log e) :=
  ⟨[e], rfl, by simp only [List.countP_cons, List.countP_nil]; split <;> omega⟩

theorem Adds.throw_of {k : Nat} {u v : Walk} (h : Adds k u v) (what : String) :
    Adds k u (v.throw what) := h

theorem Adds.fileerror_le (W : World) (w : Walk) (what path : String) :
    Adds 1 w (Package.fileerror W w what path).2 := by
  unfold Package.fileerror
  split
  · exact Adds.log_any w _
  · exact (Adds.same w).weaken (by omega)

theorem Adds.archiveerror_le (W : World) (w : Walk) (what path : String) :
    Adds 1 w (Package.archiveerror W w what path).2 := by
  unfold Package.archiveerror
  split
  · exact Adds.log_any w _
  · exact (Adds.same w).weaken (by omega)

theorem Adds.onFileError_le (W : World) (w : Walk) (what path : String) :
    Adds 1 w (Package.onFileError W w what path) := by
  unfold Package.onFileError
  dsimp only
  split
  · exact (Adds.fileerror_le W w what path).throw_of what
  · exact Adds.fileerror_le W w what path

/-- The loop over the chunks makes at most one callback, and none when it ends
without `fail`. -/
theorem readLoop_adds (W : World) (path archivePath : String) (fuel : Nat) :
    ∀ (left pos : Nat) (w : Walk),
      Adds 1 w (readLoop W path archivePath fuel left pos w).1 ∧
      ((readLoop W path archivePath fuel left pos w).2 = false →
        Adds 0 w (readLoop W path archivePath fuel left pos w).1) := by
  induction fuel with
  | zero => intro left pos w; exact ⟨(Adds.same w).weaken (by omega), fun _ => Adds.same w⟩
  | succ n ih =>
    intro left pos w
    have h1 : Adds 0 w (w.log (.archRead archivePath (min left W.BUFSIZ))) :=
      Adds.log_other w (by rfl)
    unfold readLoop
    split
    · dsimp only
      split
      · rename_i what _
        have h2 := Adds.archiveerror_le W
          (w.log (.archRead archivePath (min left W.BUFSIZ))) what archivePath
        refine ⟨?_, fun h => by cases h⟩
        split
        · exact ((h1.chain h2).weaken (by omega)).throw_of _
        · exact (h1.chain h2).weaken (by omega)
      · rename_i data _
        have h2 : Adds 0 w ((w.log (.archRead archivePath (min left W.BUFSIZ))).log
            (.process path data)) :=
          (h1.chain (Adds.log_other _ (by rfl))).weaken (by omega)
        split
        · exact ⟨(h2.chain (Adds.onFileError_le W _ _ _)).weaken (by omega),
            fun h => by cases h⟩
        · obtain ⟨i1, i2⟩ := ih (left - min left W.BUFSIZ) (pos + min left W.BUFSIZ)
            ((w.log (.archRead archivePath (min left W.BUFSIZ))).log (.process path data))
          exact ⟨(h2.chain i1).weaken (by omega), fun h => (h2.chain (i2 h)).weaken (by omega)⟩
    · exact ⟨(Adds.same w).weaken (by omega), fun _ => Adds.same w⟩

theorem smalldata_adds (W : World) (file : File) (path : String) (w : Walk) :
    Adds 1 w (Package.smalldata W file path w) := by
  have h1 : Adds 0 w (w.log (.create (path ++ ".smalldata") file.crc32)) :=
    Adds.log_other w (by rfl)
  unfold Package.smalldata
  dsimp only
  split
  · exact (h1.chain (Adds.onFileError_le W _ _ _)).weaken (by omega)
  · have h2 : Adds 0 w ((w.log (.create (path ++ ".smalldata") file.crc32)).log
        (.process (path ++ ".smalldata") file.data)) :=
      (h1.chain (Adds.log_other _ (by rfl))).weaken (by omega)
    split
    · exact (h2.chain (Adds.onFileError_le W _ _ _)).weaken (by omega)
    · have h3 : Adds 0 w (((w.log (.create (path ++ ".smalldata") file.crc32)).log
          (.process (path ++ ".smalldata") file.data)).log (.finish (path ++ ".smalldata"))) :=
        (h2.chain (Adds.log_other _ (by rfl))).weaken (by omega)
      split
      · exact (h3.chain (Adds.onFileError_le W _ _ _)).weaken (by omega)
      · split
        · exact (h3.chain (Adds.log_any _ _)).weaken (by omega)
        · exact h3.weaken (by omega)

theorem stream_adds (W : World) (file : File) (path archivePath : String) (w : Walk) :
    Adds 1 w (Package.stream W file path archivePath w) := by
  have h1 : Adds 0 w (w.log (.archSeekg archivePath file.offset)) := Adds.log_other w (by rfl)
  unfold Package.stream
  dsimp only
  split
  · exact (h1.weaken (by omega)).throw_of _
  · obtain ⟨i1, i2⟩ := readLoop_adds W path archivePath file.size file.size file.offset
      (w.log (.archSeekg archivePath file.offset))
    split
    · exact (h1.chain i1).weaken (by omega)
    · split
      · exact (h1.chain i1).weaken (by omega)
      · rename_i hfail
        have hf : (readLoop W path archivePath file.size file.size file.offset
            (w.log (.archSeekg archivePath file.offset))).2 = false := by
          simpa using hfail
        have h2 : Adds 0 w (readLoop W path archivePath file.size file.size file.offset
            (w.log (.archSeekg archivePath file.offset))).1 :=
          (h1.chain (i2 hf)).weaken (by omega)
        have h3 := (h2.chain (Adds.log_other
          (readLoop W path archivePath file.size file.size file.offset
            (w.log (.archSeekg archivePath file.offset))).1
          (e := .finish path) (by rfl))).weaken (Nat.le_refl 0)
        split
        · exact (h3.chain (Adds.onFileError_le W _ _ _)).weaken (by omega)
        · split
          · exact (h3.chain (smalldata_adds W file path _)).weaken (by omega)
          · split
            · exact (h3.chain (Adds.log_any _ _)).weaken (by omega)
            · exact h3.weaken (by omega)

/-- The block of one file leaf makes at most one of the calls `success`,
`fileerror` and `archiveerror`. -/
theorem processFile_adds (W : World) (p : Package) (f : File) (path : String) (w : Walk) :
    Adds 1 w (p.processFile W f path w) := by
  have h0 : Adds 0 w (if W.handler = true then w.log (.extract path) else w) := by
    split
    · exact Adds.log_other w (by rfl)
    · exact Adds.same w
  unfold Package.processFile
  dsimp only
  generalize (if W.handler = true then w.log (.extract path) else w) = w0 at h0 ⊢
  have h1 : Adds 0 w (w0.log (.create path f.crc32)) :=
    (h0.chain (Adds.log_other _ (by rfl))).weaken (by omega)
  split
  · exact (h1.chain (Adds.onFileError_le W _ _ _)).weaken (by omega)
  · split
    · have h2 := (h1.chain (Adds.log_other _ (e := .process path f.data) (by rfl))).weaken
        (Nat.le_refl 0)
      split
      · exact (h2.chain (Adds.onFileError_le W _ _ _)).weaken (by omega)
      · have h3 := (h2.chain (Adds.log_other _ (e := .finish path) (by rfl))).weaken
          (Nat.le_refl 0)
        split
        · exact (h3.chain (Adds.onFileError_le W _ _ _)).weaken (by omega)
        · exact h3.weaken (by omega)
    · split
      · exact h1.weaken (by omega)
      · exact (h1.chain (stream_adds W f path _ _)).weaken (by omega)
      · have h2 := (h1.chain (Adds.log_other _
          (e := .fsExists (p.archivePath (p.archiveName f.index))) (by rfl))).weaken
          (Nat.le_refl 0)
        split
        · have h3 := (h2.chain (Adds.log_other _
            (e := .archOpen (p.archivePath (p.archiveName f.index))) (by rfl))).weaken
            (Nat.le_refl 0)
          split
          · exact (h3.weaken (by omega)).throw_of _
          · obtain ⟨evs3, t3, c3⟩ := h3
            obtain ⟨evs4, t4, c4⟩ := stream_adds W f path
              (p.archivePath (p.archiveName f.index))
              { (((w0.log (.create path f.crc32)).log
                    (.fsExists (p.archivePath (p.archiveName f.index)))).log
                    (.archOpen (p.archivePath (p.archiveName f.index)))) with
                archives := (p.archiveName f.index, true) ::
                  (((w0.log (.create path f.crc32)).log
                    (.fsExists (p.archivePath (p.archiveName f.index)))).log
                    (.archOpen (p.archivePath (p.archiveName f.index)))).archives }
            refine ⟨evs3 ++ evs4, ?_, ?_⟩
            · rw [t4]
              dsimp only
              rw [t3, List.append_assoc]
            · rw [List.countP_append]
              omega
        · obtain ⟨evs2, t2, c2⟩ := h2
          obtain ⟨evs5, t5, c5⟩ := Adds.archiveerror_le W
            ((w0.log (.create path f.crc32)).log
              (.fsExists (p.archivePath (p.archiveName f.index))))
            (missingWhat (p.archivePath (p.archiveName f.index)))
            (p.archivePath (p.archiveName f.index))
          refine ⟨evs2 ++ evs5, ?_, ?_⟩
          · dsimp only
            rw [t5, t2, List.append_assoc]
          · rw [List.countP_append]
            omega

theorem processNodes_adds (W : World) (p : Package) (nodes : Nodes) :
    ∀ (pre : List String) (w : Walk),
      Adds (filecount nodes) w (p.processNodes W nodes pre w) := by
  induction nodes with
  | nil => intro pre w; exact Adds.same w
  | dir key name children rest ihc ihr =>
    intro pre w
    unfold Package.processNodes
    split
    · exact (Adds.same w).weaken (by omega)
    · exact (ihc _ w).chain (ihr _ _)
  | file key f rest ihr =>
    intro pre w
    unfold Package.processNodes
    split
    · exact (Adds.same w).weaken (by omega)
    · exact (processFile_adds W p f _ w).chain (ihr _ _)

theorem process_adds (W : World) (p : Package) :
    Adds (filecount p.m_nodes) ⟨[], [], none⟩ (Package.process W p) := by
  unfold Package.process
  dsimp only
  have h0 : Adds 0 ⟨[], [], none⟩
      (if W.handler = true then (Walk.mk [] [] none).log (.begin (filecount p.m_nodes))
        else ⟨[], [], none⟩) := by
    split
    · exact Adds.log_other _ (by rfl)
    · exact Adds.same _
  generalize (if W.handler = true then (Walk.mk [] [] none).log (.begin (filecount p.m_nodes))
        else ⟨[], [], none⟩) = w1 at h0 ⊢
  have h1 := h0.chain (processNodes_adds W p p.m_nodes [] w1)
  split
  · exact h1.weaken (by omega)
  · split
    · exact (h1.chain (Adds.log_other _ (by rfl))).weaken (by omega)
    · exact h1.weaken (by omega)

/-- C14: whatever the factory, the data handlers, the archives and the
progress handler do, the block of a file leaf makes at most one call among
`success`, `fileerror` and `archiveerror`; so at every moment of a walk
`success_count + fail_count`, one failure counted per error callback, is at
most `filecount()`, the number that `begin` reported at the start. -/
theorem walk_callbacks_le_filecount (W : World) (p : Package) :
    (∀ (f : File) (path : String) (w : Walk),
      ∃ evs, (p.processFile W f path w).trace = w.trace ++ evs ∧
        successCount evs + failCount evs ≤ 1) ∧
    (∀ t, t <+: (Package.process W p).trace →
      successCount t + failCount t ≤ filecount p.m_nodes) ∧
    (W.handler = true →
      (Package.process W p).trace.head? = some (.begin (filecount p.m_nodes))) := by
  refine ⟨?_, ?_, ?_⟩
  · intro f path w
    obtain ⟨evs, ht, hc⟩ := processFile_adds W p f path w
    exact ⟨evs, ht, by rw [successCount_add_failCount]; exact hc⟩
  · intro t ht
    obtain ⟨evs, hte, hc⟩ := process_adds W p
    simp only [List.nil_append] at hte
    rw [successCount_add_failCount]
    obtain ⟨s, hs⟩ := ht
    rw [hte] at hs
    rw [← hs, List.countP_append] at hc
    omega
  · intro hh
    unfold Package.process
    dsimp only
    rw [if_pos hh]
    obtain ⟨evs, ht, _⟩ := processNodes_adds W p p.m_nodes []
      ((Walk.mk [] [] none).log (.begin (filecount p.m_nodes)))
    split
    · rw [ht]
      rfl
    · show ((p.processNodes W p.m_nodes []
          ((Walk.mk [] [] none).log (.begin (filecount p.m_nodes)))).trace ++ [Event.end_]).head? = _
      rw [ht]
      rfl

theorem walk_callbacks_le_filecount_witness :
    successCount (Package.process (quietWorld archive000) scenario23).trace = 1 ∧
    failCount (Package.process (quietWorld archive000) scenario23).trace = 1 ∧
    filecount scenario23.m_nodes = 3 ∧
    ((∀ (f : File) (path : String) (w : Walk),
      ∃ evs, (scenario23.processFile (quietWorld archive000) f path w).trace = w.trace ++ evs ∧
        successCount evs + failCount evs ≤ 1) ∧
    (∀ t, t <+: (Package.process (quietWorld archive000) scenario23).trace →
      successCount t + failCount t ≤ filecount scenario23.m_nodes) ∧
    ((quietWorld archive000).handler = true →
      (Package.process (quietWorld archive000) scenario23).trace.head? =
        some (.begin (filecount scenario23.m_nodes)))) :=
  ⟨by decide, by decide, by decide,
    walk_callbacks_le_filecount (quietWorld archive000) scenario23⟩

/-! ## Stop on error -/

/-- The `catch` blocks of the walk: the exception leaves the walk exactly when
the callback `fileerror` returns true or no handler is installed. -/
theorem onFileError_thrown (W : World) (w : Walk) (what path : String) :
    (Package.onFileError W w what path).thrown =
      if W.handler = true ∧ W.fileerror w.trace what path = false then w.thrown
      else some what := by
  unfold Package.onFileError Package.fileerror
  cases hh : W.handler <;> cases hf : W.fileerror w.trace what path <;>
    simp [hh, hf, Walk.throw, Walk.log]

/-- A missing archive never ends the walk: whatever `archiveerror` returns, and
also without a handler, the block of the entry ends without an exception and
the archive is entered in the map as null. -/
theorem processFile_missing_archive_continues (W : World) (p : Package) (f : File)
    (path : String) (w : Walk) (hsize : f.size ≠ 0)
    (hc : ∀ t, W.create t path f.crc32 = .ok ())
    (hl : w.archives.lookup (p.archiveName f.index) = none)
    (hex : ∀ t, W.fsExists t (p.archivePath (p.archiveName f.index)) = false) :
    (p.processFile W f path w).thrown = w.thrown ∧
    (p.processFile W f path w).archives = (p.archiveName f.index, false) :: w.archives := by
  unfold Package.processFile
  dsimp only
  have hl' : ∀ w0 : Walk, w0.archives = w.archives →
      (w0.log (.create path f.crc32)).archives.lookup (p.archiveName f.index) = none := by
    intro w0 h0
    show w0.archives.lookup _ = none
    rw [h0]; exact hl
  cases hh : W.handler
  · simp only [Bool.false_eq_true, if_false, hc, hsize, hl' w rfl, hex, Package.archiveerror, hh]
    exact ⟨rfl, rfl⟩
  · simp only [if_true, hc, hsize, if_false, hl' (w.log (.extract path)) rfl, hex,
      Bool.false_eq_true, Package.archiveerror, hh]
    exact ⟨rfl, rfl⟩

/-- C11: in a walk over `d/s.bin` (archive 0, present), `d/t.bin` and `d/u.bin`
(archive 3, missing) with a handler whose error callbacks return true, the
missing archive is offered to `archiveerror`, but the walk does not end there:
it goes on with `d/u.bin` and ends with `end`, no exception leaves it. Without
a handler the missing archive does not end the walk either. A failure of
`create` in the same worlds does end the walk. -/
theorem missing_archive_ignores_stop :
    (Package.process (stopWorld archive000) scenario23).trace =
      [.begin 3, .extract "d/s.bin", .create "d/s.bin" 7, .fsExists "src/pkg_000.vpk",
       .archOpen "src/pkg_000.vpk", .archSeekg "src/pkg_000.vpk" 10,
       .archRead "src/pkg_000.vpk" 5, .process "d/s.bin" [84, 65, 73, 76, 33],
       .finish "d/s.bin", .create "d/s.bin.smalldata" 7,
       .process "d/s.bin.smalldata" [72, 69, 65, 68], .finish "d/s.bin.smalldata",
       .success "d/s.bin",
       .extract "d/t.bin", .create "d/t.bin" 8, .fsExists "src/pkg_003.vpk",
       .archiveerror "archive does not exist: \"src/pkg_003.vpk\"" "src/pkg_003.vpk",
       .extract "d/u.bin", .create "d/u.bin" 9, .end_] ∧
    (stopWorld archive000).archiveerror
      [.begin 3, .extract "d/s.bin", .create "d/s.bin" 7, .fsExists "src/pkg_000.vpk",
       .archOpen "src/pkg_000.vpk", .archSeekg "src/pkg_000.vpk" 10,
       .archRead "src/pkg_000.vpk" 5, .process "d/s.bin" [84, 65, 73, 76, 33],
       .finish "d/s.bin", .create "d/s.bin.smalldata" 7,
       .process "d/s.bin.smalldata" [72, 69, 65, 68], .finish "d/s.bin.smalldata",
       .success "d/s.bin",
       .extract "d/t.bin", .create "d/t.bin" 8, .fsExists "src/pkg_003.vpk"]
      "archive does not exist: \"src/pkg_003.vpk\"" "src/pkg_003.vpk" = true ∧
    (Package.process (stopWorld archive000) scenario23).thrown = none ∧
    (Package.process (noHandlerWorld archive000) scenario23).thrown = none ∧
    (Package.process (noHandlerWorld archive000) scenario23).trace =
      [.create "d/s.bin" 7, .fsExists "src/pkg_000.vpk",
       .archOpen "src/pkg_000.vpk", .archSeekg "src/pkg_000.vpk" 10,
       .archRead "src/pkg_000.vpk" 5, .process "d/s.bin" [84, 65, 73, 76, 33],
       .finish "d/s.bin", .create "d/s.bin.smalldata" 7,
       .process "d/s.bin.smalldata" [72, 69, 65, 68], .finish "d/s.bin.smalldata",
       .create "d/t.bin" 8, .fsExists "src/pkg_003.vpk", .create "d/u.bin" 9] ∧
    Package.process { stopWorld archive000 with create := fun _ _ _ => .error "cannot create file" }
        scenario23 =
      ⟨[.begin 3, .extract "d/s.bin", .create "d/s.bin" 7,
        .fileerror "cannot create file" "d/s.bin"], [], some "cannot create file"⟩ ∧
    Package.process
        { noHandlerWorld archive000 with create := fun _ _ _ => .error "cannot create file" }
        scenario23 =
      ⟨[.create "d/s.bin" 7], [], some "cannot create file"⟩ := by
  decide

/-! ## Streaming an entry with a bulk part -/

/-- When no read and no `process` fails, the loop over the chunks passes the
bytes `[pos, pos + left)` of the archive to the data handler, in chunks that
are not empty and have at most `BUFSIZ` bytes. -/
theorem readLoop_streams (W : World) (path archivePath : String) (bytes : Bytes)
    (hread : ∀ t pos count, pos + count ≤ bytes.length →
      W.archRead t archivePath pos count = .ok ((bytes.drop pos).take count))
    (hproc : ∀ t d, W.process t path d = .ok ()) (fuel : Nat) :
    ∀ (left pos : Nat) (w : Walk), left ≤ fuel → pos + left ≤ bytes.length →
      ∃ chunks : List Bytes,
        (∀ c ∈ chunks, c ≠ [] ∧ c.length ≤ W.BUFSIZ) ∧
        chunks.flatten = (bytes.drop pos).take left ∧
        readLoop W path archivePath fuel left pos w =
          ({ w with trace := w.trace ++ chunkCalls path archivePath chunks }, false) := by
  induction fuel with
  | zero =>
    intro left pos w hl _
    have h0 : left = 0 := by omega
    subst h0
    exact ⟨[], by simp, by simp, by simp [readLoop, chunkCalls]⟩
  | succ n ih =>
    intro left pos w hl hr
    have hb := W.BUFSIZ_pos
    by_cases hpos : left > 0
    · have hcount : pos + min left W.BUFSIZ ≤ bytes.length := by omega
      obtain ⟨chunks, hc1, hc2, hc3⟩ := ih (left - min left W.BUFSIZ)
        (pos + min left W.BUFSIZ)
        ((w.log (.archRead archivePath (min left W.BUFSIZ))).log
          (.process path ((bytes.drop pos).take (min left W.BUFSIZ))))
        (by omega) (by omega)
      have hlen : ((bytes.drop pos).take (min left W.BUFSIZ)).length = min left W.BUFSIZ := by
        rw [List.length_take, List.length_drop]
        omega
      refine ⟨(bytes.drop pos).take (min left W.BUFSIZ) :: chunks, ?_, ?_, ?_⟩
      · intro c hc
        rcases List.mem_cons.mp hc with h | h
        · subst h
          refine ⟨?_, by rw [hlen]; omega⟩
          intro hnil
          rw [hnil] at hlen
          simp at hlen
          omega
        · exact hc1 c h
      · rw [List.flatten_cons, hc2]
        have hsplit : left = min left W.BUFSIZ + (left - min left W.BUFSIZ) := by omega
        conv => rhs; rw [hsplit, List.take_add, List.drop_drop]
      · unfold readLoop
        rw [if_pos hpos]
        dsimp only
        rw [hread _ _ _ hcount]
        dsimp only
        rw [hproc]
        dsimp only
        rw [hc3]
        simp [chunkCalls, Walk.log, hlen]
    · have h0 : left = 0 := by omega
      subst h0
      exact ⟨[], by simp, by simp, by simp [readLoop, chunkCalls]⟩

/-- When nothing fails the second handler gets the preload in one call. -/
theorem smalldata_streams (W : World) (file : File) (path : String) (w : Walk)
    (hdata : file.data ≠ [])
    (hcreate : W.create w.trace (path ++ ".smalldata") file.crc32 = .ok ())
    (hproc : ∀ t d, W.process t (path ++ ".smalldata") d = .ok ())
    (hfin : ∀ t, W.finish t (path ++ ".smalldata") = .ok ()) :
    Package.smalldata W file path w =
      { w with trace := w.trace ++ smalldataCalls path file ++
          (if W.handler then [.success path] else []) } := by
  unfold Package.smalldata
  dsimp only
  rw [hcreate]
  dsimp only
  rw [hproc]
  dsimp only
  rw [hfin]
  dsimp only
  cases hh : W.handler <;> simp [smalldataCalls, hdata, Walk.log]

/-- When nothing fails, the part of the block from `seekg` on passes the bulk
bytes to the handler of `path`, calls `finish`, then serves the second handler
if there is a preload, and announces success. -/
theorem stream_streams (W : World) (file : File) (path archivePath : String) (bytes : Bytes)
    (w : Walk) (hthrown : w.thrown = none)
    (hrange : file.offset + file.size ≤ bytes.length)
    (hcreate : ∀ t q, W.create t q file.crc32 = .ok ())
    (hseek : ∀ t, W.archSeekg t archivePath file.offset = .ok ())
    (hread : ∀ t pos count, pos + count ≤ bytes.length →
      W.archRead t archivePath pos count = .ok ((bytes.drop pos).take count))
    (hproc : ∀ t q d, W.process t q d = .ok ())
    (hfin : ∀ t q, W.finish t q = .ok ()) :
    ∃ chunks : List Bytes,
      (∀ c ∈ chunks, c ≠ [] ∧ c.length ≤ W.BUFSIZ) ∧
      chunks.flatten = (bytes.drop file.offset).take file.size ∧
      Package.stream W file path archivePath w =
        { w with trace := w.trace ++ [.archSeekg archivePath file.offset] ++
            chunkCalls path archivePath chunks ++ [.finish path] ++
            smalldataCalls path file ++ (if W.handler then [.success path] else []) } := by
  obtain ⟨chunks, hc1, hc2, hc3⟩ := readLoop_streams W path archivePath bytes hread
    (hproc · path) file.size file.size file.offset
    (w.log (.archSeekg archivePath file.offset)) (Nat.le_refl _) hrange
  refine ⟨chunks, hc1, hc2, ?_⟩
  unfold Package.stream
  dsimp only
  rw [hseek]
  dsimp only
  rw [hc3]
  dsimp only
  have ht : (w.log (.archSeekg archivePath file.offset)).thrown.isSome = false := by
    show w.thrown.isSome = false
    rw [hthrown]; rfl
  rw [ht]
  simp only [Bool.false_eq_true, if_false]
  rw [hfin]
  dsimp only
  by_cases hdata : file.data = []
  · simp only [hdata, ne_eq, not_true_eq_false, if_false, smalldataCalls]
    cases hh : W.handler <;> simp [Walk.log]
  · rw [if_pos hdata, smalldata_streams W file path _ hdata (hcreate _ _) (hproc · _)
      (hfin · _)]
    simp [Walk.log]

/-- C12: for an entry with `size > 0` whose archive is present (its stream is
in the map, or the file exists and opens), when no operation fails: the handler
created for `path` gets `process` calls with chunks that are not empty, have at
most `BUFSIZ` bytes and together are the bytes `[offset, offset + size)` of the
archive, and then one `finish`; the preload is not passed to it. If the preload
is not empty, a second handler is created for `path + ".smalldata"` and gets
the preload in one `process` call and then `finish`; if it is empty no second
handler is created. -/
theorem bulk_entry_streams_archive_bytes (W : World) (p : Package) (f : File) (path : String)
    (bytes : Bytes) (w : Walk) (hthrown : w.thrown = none) (hsize : f.size ≠ 0)
    (hrange : f.offset + f.size ≤ bytes.length)
    (hpresent : w.archives.lookup (p.archiveName f.index) = some true ∨
      (w.archives.lookup (p.archiveName f.index) = none ∧
        (∀ t, W.fsExists t (p.archivePath (p.archiveName f.index)) = true) ∧
        (∀ t, W.archOpen t (p.archivePath (p.archiveName f.index)) = .ok ())))
    (hcreate : ∀ t q, W.create t q f.crc32 = .ok ())
    (hseek : ∀ t, W.archSeekg t (p.archivePath (p.archiveName f.index)) f.offset = .ok ())
    (hread : ∀ t pos count, pos + count ≤ bytes.length →
      W.archRead t (p.archivePath (p.archiveName f.index)) pos count =
        .ok ((bytes.drop pos).take count))
    (hproc : ∀ t q d, W.process t q d = .ok ())
    (hfin : ∀ t q, W.finish t q = .ok ()) :
    ∃ chunks : List Bytes,
      (∀ c ∈ chunks, c ≠ [] ∧ c.length ≤ W.BUFSIZ) ∧
      chunks.flatten = (bytes.drop f.offset).take f.size ∧
      (p.processFile W f path w).trace =
        w.trace ++ (if W.handler then [.extract path] else []) ++ [.create path f.crc32] ++
          (if w.archives.lookup (p.archiveName f.index) = some true then []
            else [.fsExists (p.archivePath (p.archiveName f.index)),
                  .archOpen (p.archivePath (p.archiveName f.index))]) ++
          [.archSeekg (p.archivePath (p.archiveName f.index)) f.offset] ++
          chunks.flatMap (fun c =>
            [.archRead (p.archivePath (p.archiveName f.index)) c.length, .process path c]) ++
          [.finish path] ++
          (if f.data ≠ [] then
            [.create (path ++ ".smalldata") f.crc32,
             .process (path ++ ".smalldata") f.data, .finish (path ++ ".smalldata")]
            else []) ++
          (if W.handler then [.success path] else []) ∧
      (p.processFile W f path w).thrown = none := by
  have key : ∀ w1 : Walk, w1.thrown = none →
      ∃ chunks : List Bytes,
        (∀ c ∈ chunks, c ≠ [] ∧ c.length ≤ W.BUFSIZ) ∧
        chunks.flatten = (bytes.drop f.offset).take f.size ∧
        Package.stream W f path (p.archivePath (p.archiveName f.index)) w1 =
          { w1 with trace := w1.trace ++
              [.archSeekg (p.archivePath (p.archiveName f.index)) f.offset] ++
              chunkCalls path (p.archivePath (p.archiveName f.index)) chunks ++
              [.finish path] ++ smalldataCalls path f ++
              (if W.handler then [.success path] else []) } :=
    fun w1 h1 => stream_streams W f path _ bytes w1 h1 hrange hcreate hseek hread hproc hfin
  unfold Package.processFile
  dsimp only
  rw [hcreate]
  dsimp only
  rw [if_neg hsize]
  rcases hpresent with hl | ⟨hl, hex, hopen⟩
  · have hl' : ((if W.handler = true then w.log (.extract path) else w).log
        (.create path f.crc32)).archives.lookup (p.archiveName f.index) = some true := by
      cases hh : W.handler <;> exact hl
    rw [hl']
    dsimp only
    obtain ⟨chunks, hc1, hc2, hc3⟩ := key
      ((if W.handler = true then w.log (.extract path) else w).log (.create path f.crc32))
      (by cases hh : W.handler <;> exact hthrown)
    refine ⟨chunks, hc1, hc2, ?_⟩
    rw [hc3]
    cases hh : W.handler <;>
      simp [Walk.log, hl, chunkCalls, smalldataCalls, hthrown, List.append_assoc]
  · have hl' : ((if W.handler = true then w.log (.extract path) else w).log
        (.create path f.crc32)).archives.lookup (p.archiveName f.index) = none := by
      cases hh : W.handler <;> exact hl
    rw [hl']
    dsimp only
    rw [hex, if_pos rfl, hopen]
    dsimp only
    obtain ⟨chunks, hc1, hc2, hc3⟩ := key
      { ((((if W.handler = true then w.log (.extract path) else w).log
            (.create path f.crc32)).log
            (.fsExists (p.archivePath (p.archiveName f.index)))).log
            (.archOpen (p.archivePath (p.archiveName f.index)))) with
        archives := (p.archiveName f.index, true) ::
          ((((if W.handler = true then w.log (.extract path) else w).log
            (.create path f.crc32)).log
            (.fsExists (p.archivePath (p.archiveName f.index)))).log
            (.archOpen (p.archivePath (p.archiveName f.index)))).archives }
      (by cases hh : W.handler <;> exact hthrown)
    refine ⟨chunks, hc1, hc2, ?_⟩
    rw [hc3]
    cases hh : W.handler <;>
      simp [Walk.log, hl, chunkCalls, smalldataCalls, hthrown, List.append_assoc]

theorem bulk_entry_streams_archive_bytes_witness :
    ∃ chunks : List Bytes,
      (∀ c ∈ chunks, c ≠ [] ∧ c.length ≤ 2) ∧
      chunks.flatten = [84, 65, 73, 76, 33] ∧
      (scenario23.processFile smallBufWorld ⟨"s.bin", 7, [72, 69, 65, 68], 0, 10, 5⟩ "d/s.bin"
          ⟨[.begin 3], [], none⟩).trace =
        [.begin 3] ++ [.extract "d/s.bin"] ++ [.create "d/s.bin" 7] ++
          [.fsExists "src/pkg_000.vpk", .archOpen "src/pkg_000.vpk"] ++
          [.archSeekg "src/pkg_000.vpk" 10] ++
          chunks.flatMap (fun c => [.archRead "src/pkg_000.vpk" c.length, .process "d/s.bin" c]) ++
          [.finish "d/s.bin"] ++
          [.create "d/s.bin.smalldata" 7, .process "d/s.bin.smalldata" [72, 69, 65, 68],
           .finish "d/s.bin.smalldata"] ++
          [.success "d/s.bin"] ∧
      (scenario23.processFile smallBufWorld ⟨"s.bin", 7, [72, 69, 65, 68], 0, 10, 5⟩ "d/s.bin"
          ⟨[.begin 3], [], none⟩).thrown = none :=
  bulk_entry_streams_archive_bytes smallBufWorld scenario23
    ⟨"s.bin", 7, [72, 69, 65, 68], 0, 10, 5⟩ "d/s.bin"
    [0, 1, 2, 3, 4, 5, 6, 7, 8, 9, 84, 65, 73, 76, 33, 15, 16] ⟨[.begin 3], [], none⟩
    rfl (by decide) (by decide)
    (Or.inr ⟨rfl, fun _ => (by decide : (archive000.lookup
      (scenario23.archivePath (scenario23.archiveName 0))).isSome = true), fun _ => rfl⟩)
    (fun _ _ => rfl) (fun _ => rfl)
    (fun t pos count h => by
      have hp : scenario23.archivePath (scenario23.archiveName 0) = "src/pkg_000.vpk" := by
        decide
      show (match archive000.lookup (scenario23.archivePath (scenario23.archiveName 0)) with
        | some bytes =>
          if pos + count ≤ bytes.length then Except.ok ((bytes.drop pos).take count)
          else Except.error "short read"
        | none => Except.error "closed") = _
      rw [hp]
      have hl : archive000.lookup "src/pkg_000.vpk" =
          some [0, 1, 2, 3, 4, 5, 6, 7, 8, 9, 84, 65, 73, 76, 33, 15, 16] := by decide
      rw [hl]
      exact if_pos h)
    (fun _ _ _ => rfl) (fun _ _ => rfl)

/-! ## `get` after `mkpath` -/

theorem Package.mkpath_ok_loop {p p' : Package} {path : String} {d : NodeRef}
    (h : p.mkpath path = .ok (p', d)) :
    mkpathLoop p.m_nodes [] none (split path) = .ok (p'.m_nodes, some d) := by
  unfold Package.mkpath Package.mkpathVec at h
  split at h
  · cases h
  · split at h
    · cases h
    · rename_i nodes dir heq
      simp only [Except.ok.injEq, Prod.mk.injEq] at h
      rw [heq, ← h.1, ← h.2]
    · cases h

/-- C15: when `mkpath(path)` succeeds, a following `get(path)` returns the
directory that `mkpath` returned, and every path for which `get` returned a
node before the call still gets a node at the same place in the tree (the same
route of keys from the root, which stands for the address of the node), with
the same name and of the same kind. That node is unchanged when it is a file,
when its route is not an initial part of `path`, and when it is the directory
at `path` itself; a directory passed on the way only gains what `mkpath`
creates below it. The tree need not be keyed by name for this. -/
theorem get_after_mkpath (p p' : Package) (path : String) (d : NodeRef)
    (h : p.mkpath path = .ok (p', d)) :
    p'.get path = some d ∧
    ∀ x r, p.get x = some r →
      ∃ r', p'.get x = some r' ∧ r'.route = r.route ∧ r'.node.name = r.node.name ∧
        r'.node.isDir = r.node.isDir ∧
        (∀ f, r.node = .file f → r' = r) ∧
        (¬ split x <+: split path ∨ split x = split path → r' = r) := by
  have hloop := Package.mkpath_ok_loop h
  constructor
  · obtain ⟨nm, sub, hr, hres⟩ :=
      mkpathLoop_ok_dir (split path) _ _ _ _ _ hloop (split_ne_nil path)
    unfold Package.get
    rw [getLoop_eq_resolve, hres]
    simp only [List.nil_append] at hr ⊢
    exact hr.symm
  · intro x r hx
    unfold Package.get at hx ⊢
    rw [getLoop_eq_resolve] at hx ⊢
    simp only [List.nil_append] at hx ⊢
    cases hres : p.m_nodes.resolve (split x) with
    | none => simp [hres] at hx
    | some n =>
      rw [hres] at hx
      simp only [Option.map_some', Option.some.injEq] at hx
      subst hx
      by_cases hpre : split x <+: split path
      · obtain ⟨t, ht⟩ := hpre
        have hne := split_ne_nil x
        have hx' : split x = (split x).dropLast ++ [(split x).getLast hne] :=
          (List.dropLast_append_getLast hne).symm
        have hpath : split path =
            (split x).dropLast ++ (split x).getLast hne :: t := by
          rw [← ht]
          conv => lhs; rw [hx']
          simp
        rw [hx'] at hres
        cases n with
        | file f =>
          exfalso
          have herr := (mkpathLoop_error_iff (split path) p.m_nodes [] none
            (.exception ("path is not a directory: " ++
              join ([] ++ (split x).dropLast ++ [(split x).getLast hne])))).mpr
            ⟨_, _, _, f, hpath, hres, rfl⟩
          rw [hloop] at herr
          cases herr
        | dir nm sub =>
          rw [hpath] at hloop
          obtain ⟨sub', hres', hsame⟩ :=
            mkpathLoop_ok_existing _ _ _ _ _ _ _ _ nm sub hloop hres
          rw [← hx'] at hres'
          rw [hres']
          refine ⟨⟨split x, .dir nm sub'⟩, rfl, rfl, rfl, rfl, ?_, ?_⟩
          · intro f hf
            cases hf
          · intro hor
            rcases hor with hnp | heq
            · exact absurd ⟨t, ht⟩ hnp
            · have ht' : t = [] := by
                rw [heq] at ht
                exact List.append_right_eq_self.mp ht
              rw [hsame ht']
      · rw [mkpathLoop_ok_frame (split path) _ _ _ _ _ hloop (split x) hpre, hres]
        exact ⟨_, rfl, rfl, rfl, rfl, fun _ _ => rfl, fun _ => rfl⟩

theorem get_after_mkpath_witness :
    scenario4.mkpath "a/x" = .ok (scenario4WithX, ⟨["a", "x"], .dir "x" .nil⟩) ∧
    scenario4WithX.get "a/x" = some ⟨["a", "x"], .dir "x" .nil⟩ ∧
    ∀ x r, scenario4.get x = some r →
      ∃ r', scenario4WithX.get x = some r' ∧ r'.route = r.route ∧
        r'.node.name = r.node.name ∧ r'.node.isDir = r.node.isDir ∧
        (∀ f, r.node = .file f → r' = r) ∧
        (¬ split x <+: split "a/x" ∨ split x = split "a/x" → r' = r) :=
  ⟨by decide, get_after_mkpath scenario4 scenario4WithX "a/x" ⟨["a", "x"], .dir "x" .nil⟩
    (by decide)⟩

/-! ## Filtering twice -/

/-- A node whose route is in `keep` is left as it is by `prune`. -/
theorem prune_resolve_kept (keep : List (List String)) (rt : List String) :
    ∀ (nodes : Nodes) (pre : List String) (n : Node), nodes.UniqueKeys →
      nodes.resolve rt = some n → (pre ++ rt) ∈ keep →
        (prune keep pre nodes).resolve rt = some n := by
  induction rt with
  | nil => intro nodes pre n _ h; simp [Nodes.resolve] at h
  | cons k rest ih =>
    intro nodes pre n hu h hmem
    cases rest with
    | nil =>
      simp only [Nodes.resolve] at h ⊢
      cases n with
      | file f => rw [prune_find_file keep nodes pre k f hu h, if_pos hmem]
      | dir nm sub => rw [prune_find_dir keep nodes pre k nm sub hu h, if_pos hmem]
    | cons c cs =>
      cases hf : nodes.find k with
      | none => simp [Nodes.resolve, hf] at h
      | some m =>
        cases m with
        | file f => simp [Nodes.resolve, hf] at h
        | dir nm sub =>
          rw [Nodes.resolve_cons_of_find_dir hf (by simp)] at h
          have hfind := prune_find_dir keep nodes pre k nm sub hu hf
          by_cases hkept : (pre ++ [k]) ∈ keep
          · rw [if_pos hkept] at hfind
            rw [Nodes.resolve_cons_of_find_dir hfind (by simp)]
            exact h
          · rw [if_neg hkept] at hfind
            have hsub := ih sub (pre ++ [k]) n (Nodes.unique_children hu hf) h
              (by simpa using hmem)
            have hne : (prune keep (pre ++ [k]) sub).empty ≠ true := by
              intro he
              rw [Nodes.resolve_of_empty he] at hsub
              cases hsub
            rw [if_neg hne] at hfind
            rw [Nodes.resolve_cons_of_find_dir hfind (by simp)]
            exact hsub

/-- Nothing is found in the pruned tree that was not found before. -/
theorem prune_resolve_none (keep : List (List String)) (rt : List String) :
    ∀ (nodes : Nodes) (pre : List String), nodes.UniqueKeys →
      nodes.resolve rt = none → (prune keep pre nodes).resolve rt = none := by
  induction rt with
  | nil => intro nodes pre _ _; rfl
  | cons k rest ih =>
    intro nodes pre hu h
    cases rest with
    | nil =>
      simp only [Nodes.resolve] at h ⊢
      exact prune_find_none keep nodes pre k h
    | cons c cs =>
      cases hf : nodes.find k with
      | none => exact Nodes.resolve_cons_of_find_none (prune_find_none keep nodes pre k hf) _
      | some m =>
        cases m with
        | file f =>
          have hfind := prune_find_file keep nodes pre k f hu hf
          by_cases hkept : (pre ++ [k]) ∈ keep
          · rw [if_pos hkept] at hfind
            simp [Nodes.resolve, hfind]
          · rw [if_neg hkept] at hfind
            exact Nodes.resolve_cons_of_find_none hfind _
        | dir nm sub =>
          rw [Nodes.resolve_cons_of_find_dir hf (by simp)] at h
          have hfind := prune_find_dir keep nodes pre k nm sub hu hf
          by_cases hkept : (pre ++ [k]) ∈ keep
          · rw [if_pos hkept] at hfind
            rw [Nodes.resolve_cons_of_find_dir hfind (by simp)]
            exact h
          · rw [if_neg hkept] at hfind
            by_cases he : (prune keep (pre ++ [k]) sub).empty = true
            · rw [if_pos he] at hfind
              exact Nodes.resolve_cons_of_find_none hfind _
            · rw [if_neg he] at hfind
              rw [Nodes.resolve_cons_of_find_dir hfind (by simp)]
              exact ih sub (pre ++ [k]) (Nodes.unique_children hu hf) h

theorem prune_keyed (keep : List (List String)) (nodes : Nodes) :
    ∀ pre : List String, nodes.KeyedByName → (prune keep pre nodes).KeyedByName := by
  induction nodes with
  | nil => intro pre _; simp [prune, Nodes.KeyedByName]
  | dir key name children rest ihc ihr =>
    intro pre hk
    obtain ⟨h1, h2, h3⟩ := hk
    rw [prune]
    split
    · exact ⟨h1, h2, ihr pre h3⟩
    · split
      · exact ihr pre h3
      · exact ⟨h1, ihc _ h2, ihr pre h3⟩
  | file key f rest ihr =>
    intro pre hk
    obtain ⟨h1, h3⟩ := hk
    rw [prune]
    split
    · exact ⟨h1, ihr pre h3⟩
    · exact ihr pre h3

theorem prune_unique (keep : List (List String)) (nodes : Nodes) :
    ∀ pre : List String, nodes.UniqueKeys → (prune keep pre nodes).UniqueKeys := by
  induction nodes with
  | nil => intro pre _; simp [prune, Nodes.UniqueKeys]
  | dir key name children rest ihc ihr =>
    intro pre hu
    obtain ⟨h1, h2, h3⟩ := hu
    have hnot : key ∉ (prune keep pre rest).keys :=
      fun hh => h1 (prune_keys_subset keep rest pre key hh)
    rw [prune]
    split
    · exact ⟨hnot, h2, ihr pre h3⟩
    · split
      · exact ihr pre h3
      · exact ⟨hnot, ihc _ h2, ihr pre h3⟩
  | file key f rest ihr =>
    intro pre hu
    obtain ⟨h1, h3⟩ := hu
    have hnot : key ∉ (prune keep pre rest).keys :=
      fun hh => h1 (prune_keys_subset keep rest pre key hh)
    rw [prune]
    split
    · exact ⟨hnot, ihr pre h3⟩
    · exact ihr pre h3

/-- Pruning a pruned tree with the same set changes nothing. -/
theorem prune_idem (keep : List (List String)) (nodes : Nodes) :
    ∀ pre : List String, prune keep pre (prune keep pre nodes) = prune keep pre nodes := by
  induction nodes with
  | nil => intro pre; rfl
  | dir key name children rest ihc ihr =>
    intro pre
    by_cases hkept : (pre ++ [key]) ∈ keep
    · have h1 : prune keep pre (.dir key name children rest) =
          .dir key name children (prune keep pre rest) := by
        rw [prune, if_pos hkept]
      rw [h1, prune, if_pos hkept, ihr]
    · by_cases he : (prune keep (pre ++ [key]) children).empty = true
      · have h1 : prune keep pre (.dir key name children rest) = prune keep pre rest := by
          rw [prune, if_neg hkept, if_pos he]
        rw [h1, ihr]
      · have h1 : prune keep pre (.dir key name children rest) =
            .dir key name (prune keep (pre ++ [key]) children) (prune keep pre rest) := by
          rw [prune, if_neg hkept, if_neg he]
        rw [h1, prune, if_neg hkept, ihc, if_neg he, ihr]
  | file key f rest ihr =>
    intro pre
    by_cases hkept : (pre ++ [key]) ∈ keep
    · have h1 : prune keep pre (.file key f rest) = .file key f (prune keep pre rest) := by
        rw [prune, if_pos hkept]
      rw [h1, prune, if_pos hkept, ihr]
    · have h1 : prune keep pre (.file key f rest) = prune keep pre rest := by
        rw [prune, if_neg hkept]
      rw [h1, ihr]

/-- The loop over `paths` depends on the tree only through what `get` returns
for the paths. -/
theorem Package.filterScan_congr (p p' : Package) (paths : List String) :
    (∀ x ∈ paths, p'.get x = p.get x) →
      ∀ acc, p'.filterScan paths acc = p.filterScan paths acc := by
  induction paths with
  | nil => intro _ acc; rfl
  | cons path rest ih =>
    intro h acc
    obtain ⟨nf, kp⟩ := acc
    have hrest := ih (fun x hx => h x (List.mem_cons_of_mem _ hx))
    unfold Package.filterScan
    rw [h path (List.mem_cons_self _ _)]
    cases p.get path with
    | none => exact hrest _
    | some node => exact hrest _

/-- After `filter(paths)`, `get` returns for each of the paths what it returned
before. -/
theorem Package.get_filter (p : Package) (paths : List String)
    (hk : p.m_nodes.KeyedByName) (hu : p.m_nodes.UniqueKeys) :
    ∀ x ∈ paths, (p.filter paths).2.get x = p.get x := by
  intro x hx
  have hfe : (p.filter paths).2.m_nodes = prune (p.keep paths) [] p.m_nodes := by
    unfold Package.filter Package.keep
    exact filter_eq_prune _ _ [] hk hu
  unfold Package.get
  rw [getLoop_eq_resolve, getLoop_eq_resolve, hfe]
  cases hres : p.m_nodes.resolve (split x) with
  | none => rw [prune_resolve_none _ _ _ _ hu hres]
  | some n =>
    have hmem : ([] ++ split x) ∈ p.keep paths := by
      unfold Package.keep
      rw [Package.mem_filterScan_keep]
      refine Or.inr ⟨x, hx, ⟨split x, n⟩, ?_, rfl⟩
      unfold Package.get
      rw [getLoop_eq_resolve, hres]
      rfl
    rw [prune_resolve_kept _ _ _ _ n hu hres hmem]

/-- C16: on a tree with unique keys whose children are keyed by their names,
`filter(paths)` called a second time right after the first returns the same
not-found set and leaves the tree of the first call as it is; and for each of
the paths, what `get` found before the first call it finds after it: the same
node at the same place. -/
theorem filter_twice_same (p : Package) (paths : List String)
    (hk : p.m_nodes.KeyedByName) (hu : p.m_nodes.UniqueKeys) :
    (p.filter paths).2.filter paths = p.filter paths ∧
    ∀ x ∈ paths, ∀ r, p.get x = some r → (p.filter paths).2.get x = some r := by
  have hget := p.get_filter paths hk hu
  refine ⟨?_, fun x hx r hr => by rw [hget x hx, hr]⟩
  have hscan := Package.filterScan_congr p (p.filter paths).2 paths hget ([], [])
  have hfe : (p.filter paths).2.m_nodes = prune (p.keep paths) [] p.m_nodes := by
    unfold Package.filter Package.keep
    exact filter_eq_prune _ _ [] hk hu
  have hk1 : (p.filter paths).2.m_nodes.KeyedByName := by
    rw [hfe]; exact prune_keyed _ _ _ hk
  have hu1 : (p.filter paths).2.m_nodes.UniqueKeys := by
    rw [hfe]; exact prune_unique _ _ _ hu
  have h2 : Vpk.filter (p.filterScan paths ([], [])).2 [] (p.filter paths).2.m_nodes =
      (p.filter paths).2.m_nodes := by
    rw [filter_eq_prune _ _ [] hk1 hu1, hfe]
    exact prune_idem _ _ _
  have hunf : ∀ q : Package, q.filter paths =
      ((q.filterScan paths ([], [])).1,
        { q with m_nodes := Vpk.filter (q.filterScan paths ([], [])).2 [] q.m_nodes }) :=
    fun _ => rfl
  rw [hunf (p.filter paths).2, hscan, h2]
  rfl

theorem filter_twice_same_witness :
    scenario4.m_nodes.KeyedByName ∧ scenario4.m_nodes.UniqueKeys ∧
    (scenario4.filter ["a/b", "zzz"]).1 = ["zzz"] ∧
    (scenario4.filter ["a/b", "zzz"]).2.m_nodes =
      .dir "a" "a"
        (.dir "b" "b"
          (.file "c.txt" ⟨"c.txt", 1, [104], 32767, 0, 0⟩
            (.file "d.txt" ⟨"d.txt", 2, [105], 32767, 0, 0⟩ .nil)) .nil) .nil ∧
    ((scenario4.filter ["a/b", "zzz"]).2.filter ["a/b", "zzz"] =
        scenario4.filter ["a/b", "zzz"] ∧
      ∀ x ∈ ["a/b", "zzz"], ∀ r, scenario4.get x = some r →
        (scenario4.filter ["a/b", "zzz"]).2.get x = some r) :=
  ⟨scenario4_keyed, scenario4_unique, by decide, by decide,
    filter_twice_same scenario4 ["a/b", "zzz"] scenario4_keyed scenario4_unique⟩

/-! ## Check mode -/

theorem handlerInputFrom_append (path : String) (a b : List Event) :
    ∀ st, handlerInputFrom path st (a ++ b) =
      handlerInputFrom path (handlerInputFrom path st a) b := by
  induction a with
  | nil => intro st; rfl
  | cons e rest ih =>
    intro st
    cases e <;> simp [handlerInputFrom, ih]

theorem handlerInputFrom_chunkCalls (path archivePath : String) (chunks : List Bytes) :
    ∀ (c : Nat) (acc : Bytes),
      handlerInputFrom path (some (c, acc)) (chunkCalls path archivePath chunks) =
        some (c, acc ++ chunks.flatten) := by
  induction chunks with
  | nil => intro c acc; simp [chunkCalls, handlerInputFrom]
  | cons ch rest ih =>
    intro c acc
    have h : chunkCalls path archivePath (ch :: rest) =
        [.archRead archivePath ch.length, .process path ch] ++
          chunkCalls path archivePath rest := by
      simp [chunkCalls]
    rw [h, handlerInputFrom_append]
    simp [handlerInputFrom, ih]

theorem successCount_chunkCalls (path archivePath : String) (chunks : List Bytes) :
    successCount (chunkCalls path archivePath chunks) = 0 := by
  induction chunks with
  | nil => rfl
  | cons ch rest ih =>
    have h : chunkCalls path archivePath (ch :: rest) =
        [.archRead archivePath ch.length, .process path ch] ++
          chunkCalls path archivePath rest := by
      simp [chunkCalls]
    unfold successCount at ih ⊢
    rw [h, List.countP_append, ih]
    rfl

theorem failCount_chunkCalls (path archivePath : String) (chunks : List Bytes) :
    failCount (chunkCalls path archivePath chunks) = 0 := by
  induction chunks with
  | nil => rfl
  | cons ch rest ih =>
    have h : chunkCalls path archivePath (ch :: rest) =
        [.archRead archivePath ch.length, .process path ch] ++
          chunkCalls path archivePath rest := by
      simp [chunkCalls]
    unfold failCount at ih ⊢
    rw [h, List.countP_append, ih]
    rfl

theorem failCount_append (a b : List Event) :
    failCount (a ++ b) = failCount a + failCount b := by
  unfold failCount
  exact List.countP_append _ _ _

theorem successCount_append (a b : List Event) :
    successCount (a ++ b) = successCount a + successCount b := by
  unfold successCount
  exact List.countP_append _ _ _

/-- With a handler installed, the `catch` block adds the call of `fileerror`. -/
theorem onFileError_trace (W : World) (w : Walk) (what path : String)
    (hh : W.handler = true) :
    (Package.onFileError W w what path).trace = w.trace ++ [.fileerror what path] := by
  unfold Package.onFileError Package.fileerror
  rw [hh]
  simp only [if_true]
  split <;> rfl

/-- In check mode the second handler of a split entry validates the preload
alone against the crc32 of the entry. -/
theorem smalldata_checks (W : World) (crc : Bytes → Nat) (file : File) (path : String)
    (w : Walk) (hh : W.handler = true)
    (hcreate : ∀ t q, W.create t q file.crc32 = .ok ())
    (hproc : ∀ t q d, W.process t q d = .ok ())
    (hfin : ∀ t q, W.finish t q = checkFinish crc t q) :
    (Package.smalldata W file path w).trace =
      w.trace ++ [.create (path ++ ".smalldata") file.crc32,
        .process (path ++ ".smalldata") file.data, .finish (path ++ ".smalldata")] ++
        (if crc file.data = file.crc32 then [.success path]
          else [.fileerror "CRC32 mismatch" (path ++ ".smalldata")]) := by
  unfold Package.smalldata
  dsimp only
  rw [hcreate]
  dsimp only
  rw [hproc]
  dsimp only
  rw [hfin]
  have hst : handlerInput (path ++ ".smalldata")
      ((w.log (.create (path ++ ".smalldata") file.crc32)).log
        (.process (path ++ ".smalldata") file.data)).trace = some (file.crc32, file.data) := by
    unfold handlerInput
    show handlerInputFrom _ none (w.trace ++ [_] ++ [_]) = _
    rw [List.append_assoc, handlerInputFrom_append]
    simp [handlerInputFrom]
  unfold checkFinish
  rw [hst]
  dsimp only
  by_cases hc : crc file.data = file.crc32
  · rw [if_pos hc, if_pos hc]
    dsimp only
    rw [hh]
    simp [Walk.log]
  · rw [if_neg hc, if_neg hc]
    dsimp only
    rw [onFileError_trace W _ _ _ hh]
    simp [Walk.log]

/-- In check mode, from `seekg` on: the handler of `path` validates the bulk
bytes alone, then the second handler validates the preload alone. -/
theorem stream_checks (W : World) (crc : Bytes → Nat) (file : File)
    (path archivePath : String) (bytes : Bytes) (w : Walk) (hthrown : w.thrown = none)
    (hh : W.handler = true) (hdata : file.data ≠ [])
    (hrange : file.offset + file.size ≤ bytes.length)
    (hcreate : ∀ t q, W.create t q file.crc32 = .ok ())
    (hseek : ∀ t, W.archSeekg t archivePath file.offset = .ok ())
    (hread : ∀ t pos count, pos + count ≤ bytes.length →
      W.archRead t archivePath pos count = .ok ((bytes.drop pos).take count))
    (hproc : ∀ t q d, W.process t q d = .ok ())
    (hfin : ∀ t q, W.finish t q = checkFinish crc t q)
    (hstate : handlerInput path w.trace = some (file.crc32, [])) :
    ∃ chunks : List Bytes,
      chunks.flatten = (bytes.drop file.offset).take file.size ∧
      (Package.stream W file path archivePath w).trace =
        w.trace ++ [.archSeekg archivePath file.offset] ++
          chunkCalls path archivePath chunks ++ [.finish path] ++
          (if crc ((bytes.drop file.offset).take file.size) = file.crc32 then
            [.create (path ++ ".smalldata") file.crc32,
             .process (path ++ ".smalldata") file.data, .finish (path ++ ".smalldata")] ++
              (if crc file.data = file.crc32 then [.success path]
                else [.fileerror "CRC32 mismatch" (path ++ ".smalldata")])
            else [.fileerror "CRC32 mismatch" path]) := by
  obtain ⟨chunks, _, hc2, hc3⟩ := readLoop_streams W path archivePath bytes hread
    (hproc · path) file.size file.size file.offset
    (w.log (.archSeekg archivePath file.offset)) (Nat.le_refl _) hrange
  refine ⟨chunks, hc2, ?_⟩
  unfold Package.stream
  dsimp only
  rw [hseek]
  dsimp only
  rw [hc3]
  dsimp only
  have ht : (w.log (.archSeekg archivePath file.offset)).thrown.isSome = false := by
    show w.thrown.isSome = false
    rw [hthrown]; rfl
  rw [ht]
  simp only [Bool.false_eq_true, if_false]
  rw [hfin]
  have hst : handlerInput path
      ((w.log (.archSeekg archivePath file.offset)).trace ++
        chunkCalls path archivePath chunks) =
      some (file.crc32, (bytes.drop file.offset).take file.size) := by
    unfold handlerInput at hstate ⊢
    show handlerInputFrom _ none (w.trace ++ [_] ++ _) = _
    rw [handlerInputFrom_append, handlerInputFrom_append, hstate]
    simp only [handlerInputFrom]
    rw [handlerInputFrom_chunkCalls, hc2]
    rfl
  unfold checkFinish
  rw [hst]
  dsimp only
  by_cases hc : crc ((bytes.drop file.offset).take file.size) = file.crc32
  · rw [if_pos hc, if_pos hc]
    dsimp only
    rw [if_pos hdata, smalldata_checks W crc file path _ hh hcreate hproc hfin]
    simp [Walk.log]
  · rw [if_neg hc, if_neg hc]
    dsimp only
    rw [onFileError_trace W _ _ _ hh]
    simp [Walk.log]

set_option maxRecDepth 8192 in
/-- C13 (as stated, refuted): the split entry of scenario 2 with the CRC-32 of
`HEADTAIL!` (preload followed by bulk) as its crc32 fails the check: the
handler of `d/s.bin` gets `TAIL!` alone and its `finish` reports the mismatch.
And a split entry whose preload and bulk are both `TAIL!`, with the CRC-32 of
`TAIL!` as its crc32, passes, though the CRC-32 of preload followed by bulk is
another number. -/
theorem check_fails_split_entry_with_combined_crc :
    crc32 [97, 98, 99] = 0x352441C2 ∧
    crc32 ([72, 69, 65, 68] ++ [84, 65, 73, 76, 33]) = 358531012 ∧
    Package.process (checkWorld crc32 archive000) splitCombined =
      ⟨[.begin 1, .extract "d/s.bin", .create "d/s.bin" 358531012,
        .fsExists "src/pkg_000.vpk", .archOpen "src/pkg_000.vpk",
        .archSeekg "src/pkg_000.vpk" 10, .archRead "src/pkg_000.vpk" 5,
        .process "d/s.bin" [84, 65, 73, 76, 33], .finish "d/s.bin",
        .fileerror "CRC32 mismatch" "d/s.bin", .end_],
       [("pkg_000.vpk", true)], none⟩ ∧
    crc32 ([84, 65, 73, 76, 33] ++ [84, 65, 73, 76, 33]) ≠ 1207371606 ∧
    Package.process (checkWorld crc32 archive000) splitTwice =
      ⟨[.begin 1, .extract "d/s.bin", .create "d/s.bin" 1207371606,
        .fsExists "src/pkg_000.vpk", .archOpen "src/pkg_000.vpk",
        .archSeekg "src/pkg_000.vpk" 10, .archRead "src/pkg_000.vpk" 5,
        .process "d/s.bin" [84, 65, 73, 76, 33], .finish "d/s.bin",
        .create "d/s.bin.smalldata" 1207371606,
        .process "d/s.bin.smalldata" [84, 65, 73, 76, 33], .finish "d/s.bin.smalldata",
        .success "d/s.bin", .end_],
       [("pkg_000.vpk", true)], none⟩ := by
  decide

/-- C13 (amended): in check mode, for a split entry (preload not empty,
`size > 0`) whose archive is present and can be read, the bulk bytes and the
preload bytes are validated apart, each against the crc32 of the entry and
never as one stream: the handler created for `path` gets the bulk bytes only
and its `finish` compares their CRC with crc32; only if that passes, a second
handler created for `path + ".smalldata"` with the same crc32 gets the preload
only and compares its CRC with crc32. The entry gets `success` exactly when
the CRC of the bulk bytes and the CRC of the preload bytes both equal crc32;
otherwise it gets one `fileerror`. The check handler is modelled from the
specification; `crc` is any CRC function. -/
theorem check_validates_bulk_and_preload_apart (W : World) (crc : Bytes → Nat) (p : Package)
    (f : File) (path : String) (bytes : Bytes) (w : Walk) (hthrown : w.thrown = none)
    (hh : W.handler = true) (hdata : f.data ≠ []) (hsize : f.size ≠ 0)
    (hrange : f.offset + f.size ≤ bytes.length)
    (hpresent : w.archives.lookup (p.archiveName f.index) = some true ∨
      (w.archives.lookup (p.archiveName f.index) = none ∧
        (∀ t, W.fsExists t (p.archivePath (p.archiveName f.index)) = true) ∧
        (∀ t, W.archOpen t (p.archivePath (p.archiveName f.index)) = .ok ())))
    (hcreate : ∀ t q, W.create t q f.crc32 = .ok ())
    (hseek : ∀ t, W.archSeekg t (p.archivePath (p.archiveName f.index)) f.offset = .ok ())
    (hread : ∀ t pos count, pos + count ≤ bytes.length →
      W.archRead t (p.archivePath (p.archiveName f.index)) pos count =
        .ok ((bytes.drop pos).take count))
    (hproc : ∀ t q d, W.process t q d = .ok ())
    (hfin : ∀ t q, W.finish t q = checkFinish crc t q) :
    ∃ chunks : List Bytes,
      chunks.flatten = (bytes.drop f.offset).take f.size ∧
      (p.processFile W f path w).trace =
        w.trace ++ [.extract path, .create path f.crc32] ++
          (if w.archives.lookup (p.archiveName f.index) = some true then []
            else [.fsExists (p.archivePath (p.archiveName f.index)),
                  .archOpen (p.archivePath (p.archiveName f.index))]) ++
          [.archSeekg (p.archivePath (p.archiveName f.index)) f.offset] ++
          chunks.flatMap (fun c =>
            [.archRead (p.archivePath (p.archiveName f.index)) c.length, .process path c]) ++
          [.finish path] ++
          (if crc ((bytes.drop f.offset).take f.size) = f.crc32 then
            [.create (path ++ ".smalldata") f.crc32,
             .process (path ++ ".smalldata") f.data, .finish (path ++ ".smalldata")] ++
              (if crc f.data = f.crc32 then [.success path]
                else [.fileerror "CRC32 mismatch" (path ++ ".smalldata")])
            else [.fileerror "CRC32 mismatch" path]) ∧
      (successCount (p.processFile W f path w).trace = successCount w.trace + 1 ↔
        crc ((bytes.drop f.offset).take f.size) = f.crc32 ∧ crc f.data = f.crc32) ∧
      (failCount (p.processFile W f path w).trace = failCount w.trace + 1 ↔
        ¬ (crc ((bytes.drop f.offset).take f.size) = f.crc32 ∧ crc f.data = f.crc32)) := by
  have key : ∀ w1 : Walk, w1.thrown = none →
      handlerInput path w1.trace = some (f.crc32, []) →
      ∃ chunks : List Bytes,
        chunks.flatten = (bytes.drop f.offset).take f.size ∧
        (Package.stream W f path (p.archivePath (p.archiveName f.index)) w1).trace =
          w1.trace ++ [.archSeekg (p.archivePath (p.archiveName f.index)) f.offset] ++
            chunkCalls path (p.archivePath (p.archiveName f.index)) chunks ++
            [.finish path] ++
            (if crc ((bytes.drop f.offset).take f.size) = f.crc32 then
              [.create (path ++ ".smalldata") f.crc32,
               .process (path ++ ".smalldata") f.data, .finish (path ++ ".smalldata")] ++
                (if crc f.data = f.crc32 then [.success path]
                  else [.fileerror "CRC32 mismatch" (path ++ ".smalldata")])
              else [.fileerror "CRC32 mismatch" path]) :=
    fun w1 h1 h2 => stream_checks W crc f path _ bytes w1 h1 hh hdata hrange hcreate hseek
      hread hproc hfin h2
  have htrace : ∃ chunks : List Bytes,
      chunks.flatten = (bytes.drop f.offset).take f.size ∧
      (p.processFile W f path w).trace =
        w.trace ++ [.extract path, .create path f.crc32] ++
          (if w.archives.lookup (p.archiveName f.index) = some true then []
            else [.fsExists (p.archivePath (p.archiveName f.index)),
                  .archOpen (p.archivePath (p.archiveName f.index))]) ++
          [.archSeekg (p.archivePath (p.archiveName f.index)) f.offset] ++
          chunkCalls path (p.archivePath (p.archiveName f.index)) chunks ++
          [.finish path] ++
          (if crc ((bytes.drop f.offset).take f.size) = f.crc32 then
            [.create (path ++ ".smalldata") f.crc32,
             .process (path ++ ".smalldata") f.data, .finish (path ++ ".smalldata")] ++
              (if crc f.data = f.crc32 then [.success path]
                else [.fileerror "CRC32 mismatch" (path ++ ".smalldata")])
            else [.fileerror "CRC32 mismatch" path]) := by
    unfold Package.processFile
    dsimp only
    rw [hcreate]
    dsimp only
    rw [if_neg hsize, hh]
    simp only [if_true]
    rcases hpresent with hl | ⟨hl, hex, hopen⟩
    · have hl' : ((w.log (.extract path)).log
          (.create path f.crc32)).archives.lookup (p.archiveName f.index) = some true := hl
      rw [hl']
      dsimp only
      obtain ⟨chunks, hc2, hc3⟩ := key
        ((w.log (.extract path)).log (.create path f.crc32)) hthrown
        (by
          unfold handlerInput
          show handlerInputFrom _ none (w.trace ++ [_] ++ [_]) = _
          rw [handlerInputFrom_append]
          simp [handlerInputFrom])
      refine ⟨chunks, hc2, ?_⟩
      rw [hc3]
      simp [Walk.log, hl]
    · have hl' : ((w.log (.extract path)).log
          (.create path f.crc32)).archives.lookup (p.archiveName f.index) = none := hl
      rw [hl']
      dsimp only
      rw [hex, if_pos rfl, hopen]
      dsimp only
      obtain ⟨chunks, hc2, hc3⟩ := key
        { ((((w.log (.extract path)).log (.create path f.crc32)).log
              (.fsExists (p.archivePath (p.archiveName f.index)))).log
              (.archOpen (p.archivePath (p.archiveName f.index)))) with
          archives := (p.archiveName f.index, true) ::
            ((((w.log (.extract path)).log (.create path f.crc32)).log
              (.fsExists (p.archivePath (p.archiveName f.index)))).log
              (.archOpen (p.archivePath (p.archiveName f.index)))).archives }
        hthrown
        (by
          unfold handlerInput
          show handlerInputFrom _ none (w.trace ++ [_] ++ [_] ++ [_] ++ [_]) = _
          rw [handlerInputFrom_append, handlerInputFrom_append, handlerInputFrom_append]
          simp [handlerInputFrom])
      refine ⟨chunks, hc2, ?_⟩
      rw [hc3]
      simp [Walk.log, hl]
  obtain ⟨chunks, hc2, htr⟩ := htrace
  refine ⟨chunks, hc2, htr, ?_, ?_⟩
  · rw [htr]
    simp only [successCount_append, successCount_chunkCalls]
    by_cases h1 : crc ((bytes.drop f.offset).take f.size) = f.crc32 <;>
      by_cases h2 : crc f.data = f.crc32 <;>
      by_cases h3 : w.archives.lookup (p.archiveName f.index) = some true <;>
      simp [h1, h2, h3, successCount]
  · rw [htr]
    simp only [failCount_append, failCount_chunkCalls]
    by_cases h1 : crc ((bytes.drop f.offset).take f.size) = f.crc32 <;>
      by_cases h2 : crc f.data = f.crc32 <;>
      by_cases h3 : w.archives.lookup (p.archiveName f.index) = some true <;>
      simp [h1, h2, h3, failCount]

theorem check_validates_bulk_and_preload_apart_witness :
    ∃ chunks : List Bytes,
      chunks.flatten = [84, 65, 73, 76, 33] ∧
      (splitCombined.processFile (checkWorld crc32 archive000)
          ⟨"s.bin", 358531012, [72, 69, 65, 68], 0, 10, 5⟩ "d/s.bin"
          ⟨[.begin 1], [], none⟩).trace =
        [.begin 1] ++ [.extract "d/s.bin", .create "d/s.bin" 358531012] ++
          [.fsExists "src/pkg_000.vpk", .archOpen "src/pkg_000.vpk"] ++
          [.archSeekg "src/pkg_000.vpk" 10] ++
          chunks.flatMap (fun c => [.archRead "src/pkg_000.vpk" c.length, .process "d/s.bin" c]) ++
          [.finish "d/s.bin"] ++
          (if crc32 [84, 65, 73, 76, 33] = 358531012 then
            [.create "d/s.bin.smalldata" 358531012,
             .process "d/s.bin.smalldata" [72, 69, 65, 68], .finish "d/s.bin.smalldata"] ++
              (if crc32 [72, 69, 65, 68] = 358531012 then [.success "d/s.bin"]
                else [.fileerror "CRC32 mismatch" "d/s.bin.smalldata"])
            else [.fileerror "CRC32 mismatch" "d/s.bin"]) ∧
      (successCount (splitCombined.processFile (checkWorld crc32 archive000)
          ⟨"s.bin", 358531012, [72, 69, 65, 68], 0, 10, 5⟩ "d/s.bin"
          ⟨[.begin 1], [], none⟩).trace = successCount [.begin 1] + 1 ↔
        crc32 [84, 65, 73, 76, 33] = 358531012 ∧ crc32 [72, 69, 65, 68] = 358531012) ∧
      (failCount (splitCombined.processFile (checkWorld crc32 archive000)
          ⟨"s.bin", 358531012, [72, 69, 65, 68], 0, 10, 5⟩ "d/s.bin"
          ⟨[.begin 1], [], none⟩).trace = failCount [.begin 1] + 1 ↔
        ¬ (crc32 [84, 65, 73, 76, 33] = 358531012 ∧ crc32 [72, 69, 65, 68] = 358531012)) :=
  check_validates_bulk_and_preload_apart (checkWorld crc32 archive000) crc32 splitCombined
    ⟨"s.bin", 358531012, [72, 69, 65, 68], 0, 10, 5⟩ "d/s.bin"
    [0, 1, 2, 3, 4, 5, 6, 7, 8, 9, 84, 65, 73, 76, 33, 15, 16] ⟨[.begin 1], [], none⟩
    rfl rfl (by decide) (by decide) (by decide)
    (Or.inr ⟨rfl, fun _ => (by decide : (archive000.lookup
      (splitCombined.archivePath (splitCombined.archiveName 0))).isSome = true), fun _ => rfl⟩)
    (fun _ _ => rfl) (fun _ => rfl)
    (fun t pos count h => by
      have hp : splitCombined.archivePath (splitCombined.archiveName 0) = "src/pkg_000.vpk" := by
        decide
      show (match archive000.lookup (splitCombined.archivePath (splitCombined.archiveName 0)) with
        | some bytes =>
          if pos + count ≤ bytes.length then Except.ok ((bytes.drop pos).take count)
          else Except.error "short read"
        | none => Except.error "closed") = _
      rw [hp]
      have hl : archive000.lookup "src/pkg_000.vpk" =
          some [0, 1, 2, 3, 4, 5, 6, 7, 8, 9, 84, 65, 73, 76, 33, 15, 16] := by decide
      rw [hl]
      exact if_pos h)
    (fun _ _ _ => rfl) (fun _ _ => rfl)

end Vpk
